import Mathlib

/-!
Verification of the code-editor state core (`code_editor/src/state.rs`).

This file shallowly embeds the data model and the operations of `state.rs`:
documents/sessions (here merged into one `EditorState`, the fields borrowed by
`ViewMut`), the inline/block inlay composition iterators (`Inlines`, `Blocks`),
the soft-wrapping algorithm (`wrap_lines`), the selection engine (`set_cursor`,
`add_cursor`, `move_cursor_to`, `modify_selections`), the fold-animation step
(`update_fold_animations`), the incremental height cache
(`update_summed_heights`), and the diff-driven structural repair
(`update_after_modify_text`).

Modelling conventions:
- `f64` is modelled as `ℚ` (the constants 0.9 and 0.001 are exact decimals, and
  every claim checked here is robust to the rounding of `f64`).
- Rust `Vec`/slices are Lean `List`s; `HashSet<usize>` is a `List ℕ` (iteration
  order is fixed by the list; all the set iterations in the source commute
  across elements, and the concrete states used below have singleton sets).
- Rust strings are `List Char`; byte offsets use UTF-8 sizes via `Char.utf8Size`.
- Rust loops are either folds or fuel-indexed structural recursions (the fuel
  is a proven upper bound on the iteration count), so that everything reduces
  by kernel computation.
- Out-of-bounds indexing, which panics in Rust, is modelled by `List.getD` /
  truncating slices; the theorems below are stated under the well-formedness
  hypotheses that rule the panics out.
- `selection.rs`, `str.rs`, `position.rs` and the diff module are not part of
  the sources under verification; the few definitions needed from them are
  modelled from the spec and marked as such.
-/

namespace CodeEditor

/-- Position in a document: (line index, byte offset into the line's original
text). Modelled from the spec: `position.rs` is external to the verified
sources; §3 of the spec defines the ordering as lexicographic on
(line, offset). -/
structure Position where
  line_index : Nat
  byte_index : Nat
deriving DecidableEq, Repr

/-- Modelled from the spec: lexicographic order on (line, byte). -/
def Position.ble (a b : Position) : Bool :=
  a.line_index < b.line_index ||
    (a.line_index = b.line_index && a.byte_index ≤ b.byte_index)

def Position.origin : Position := ⟨0, 0⟩

instance : Inhabited Position := ⟨Position.origin⟩

/-- Length of a diff operation: (line count, byte count), as in `size.rs`
(external). -/
structure Size where
  line_count : Nat
  byte_count : Nat
deriving DecidableEq, Repr

/-- Modelled from the spec: advancing a `Position` by a `Size`
(`position += length` in `update_after_modify_text`); only the line component
is consumed by the verified code. -/
def Position.add (p : Position) (s : Size) : Position :=
  if s.line_count = 0 then ⟨p.line_index, p.byte_index + s.byte_count⟩
  else ⟨p.line_index + s.line_count, s.byte_count⟩

/-- A selection: anchor, cursor, and remembered preferred column for vertical
movement. Modelled from the spec: `selection.rs` is external; §3 defines
`start`/`end` as min/max of anchor and cursor. -/
structure Selection where
  anchor : Position
  cursor : Position
  column_index : Option Nat
deriving DecidableEq, Repr

instance : Inhabited Selection := ⟨⟨Position.origin, Position.origin, none⟩⟩

def Selection.start (s : Selection) : Position :=
  if Position.ble s.anchor s.cursor then s.anchor else s.cursor

def Selection.end' (s : Selection) : Position :=
  if Position.ble s.anchor s.cursor then s.cursor else s.anchor

/-- Modelled from the spec: `should_merge(a, b)` holds when
`a.end() >= b.start()`. -/
def Selection.shouldMerge (a b : Selection) : Bool :=
  Position.ble b.start a.end'

def Selection.fromCursor (c : Position) : Selection := ⟨c, c, none⟩

/-- `Selection::reset_anchor` (anchor := cursor), modelled from the spec's
description of non-selecting movement. -/
def Selection.resetAnchor (s : Selection) : Selection := ⟨s.cursor, s.cursor, s.column_index⟩

/-- An inline widget (`InlineWidget` in state.rs). -/
structure InlineWidget where
  id : Nat
  column_count : Nat
deriving DecidableEq, Repr

/-- `InlineInlay` in state.rs. -/
inductive InlineInlay where
  | text (s : List Char)
  | widget (w : InlineWidget)
deriving DecidableEq, Repr

/-- `Size` of a block widget uses the render `Size` (width, height) as `ℚ`. -/
structure BlockWidget where
  id : Nat
  width : ℚ
  height : ℚ
deriving DecidableEq, Repr

/-- `LineInlay` in state.rs: a full inlay line. -/
structure LineInlay where
  text : List Char
  inline_inlays : List (Nat × InlineInlay)
  soft_breaks : List Nat
  fold_column_index : Nat
  scale : ℚ
deriving DecidableEq, Repr

/-- `LineInlay::new`. -/
def LineInlay.new (text : List Char) : LineInlay := ⟨text, [], [], 0, 1⟩

/-- `BlockInlay` in state.rs. -/
inductive BlockInlay where
  | line (li : LineInlay)
  | widget (w : BlockWidget)
deriving DecidableEq, Repr

/-- The data of one composed line (`Line<'a>` in state.rs). -/
structure LineData where
  text : List Char
  inline_inlays : List (Nat × InlineInlay)
  soft_breaks : List Nat
  fold_column_index : Nat
  scale : ℚ
deriving DecidableEq, Repr

/-- `LineInlay::as_line`. -/
def LineInlay.asLine (li : LineInlay) : LineData :=
  ⟨li.text, li.inline_inlays, li.soft_breaks, li.fold_column_index, li.scale⟩

/-- `Line::row_count`: soft-break count + 1. -/
def LineData.rowCount (l : LineData) : Nat := l.soft_breaks.length + 1

/-- `Line::height`: `scale * row_count`. -/
def LineData.height (l : LineData) : ℚ := l.scale * (l.rowCount : ℚ)

/-- UTF-8 byte length of a char sequence (Rust `str::len`). -/
def utf8Len (s : List Char) : Nat := (s.map Char.utf8Size).sum

/-- Modelled from the spec: `column_count` of a string with a configured tab
width (`str.rs` is external): a tab occupies `tab_column_count` columns, any
other char one column. -/
def colCount (tab : Nat) (s : List Char) : Nat :=
  (s.map fun c => if c = '\t' then tab else 1).sum

/-- Modelled from the spec: `split_whitespace_boundaries` (`str.rs` is
external) splits a string into its maximal runs of whitespace /
non-whitespace characters ("whitespace-delimited segments", splitting exactly
at the whitespace boundaries). -/
def splitWhitespaceBoundaries (s : List Char) : List (List Char) :=
  s.foldr
    (fun c acc =>
      match acc with
      | [] => [[c]]
      | [] :: rs => [c] :: rs
      | (d :: run) :: rs =>
          if c.isWhitespace = d.isWhitespace then (c :: d :: run) :: rs
          else [c] :: (d :: run) :: rs)
    []

/-- `Inline<'a>` in state.rs. -/
inductive Inline where
  | text (is_inlay : Bool) (s : List Char)
  | widget (w : InlineWidget)
deriving DecidableEq, Repr

/-- `Inline::column_count`. -/
def Inline.columnCount (tab : Nat) : Inline → Nat
  | .text _ s => colCount tab s
  | .widget w => w.column_count

/-- The inline fragment produced for an inline inlay by `Inlines::next`. -/
def inlayToInline : InlineInlay → Inline
  | .text s => .text true s
  | .widget w => .widget w

/-- Take a prefix of `s` of exactly `n` UTF-8 bytes (a whole number of chars);
stops early if `n` falls inside a char (where Rust `split_at` would panic). -/
def takeBytes : Nat → List Char → List Char
  | _, [] => []
  | n, c :: cs => if 0 < n ∧ c.utf8Size ≤ n then c :: takeBytes (n - c.utf8Size) cs else []

/-- The chars of `s` remaining after `takeBytes`. -/
def dropBytes : Nat → List Char → List Char
  | _, [] => []
  | n, c :: cs => if 0 < n ∧ c.utf8Size ≤ n then dropBytes (n - c.utf8Size) cs else c :: cs

/-- The `Inlines` iterator of state.rs as a list: splices the inline inlays
into the plain text at their byte offsets. Structured as a recursion over the
inlay list; between two inlay offsets the Rust iterator emits exactly one
plain-text chunk, as reproduced here. A chunk that cannot reach the next
inlay offset ends the sequence (text exhausted — in Rust the remaining inlays
simply never match — or a malformed offset, where Rust panics). -/
def inlinesGo (text : List Char) (byteIndex : Nat) :
    List (Nat × InlineInlay) → List Inline
  | [] => if text.isEmpty then [] else [.text false text]
  | (o, il) :: rest =>
    if o = byteIndex then inlayToInline il :: inlinesGo text byteIndex rest
    else if text.isEmpty then []
    else
      let chunk := takeBytes (o - byteIndex) text
      let remaining := dropBytes (o - byteIndex) text
      let newIndex := byteIndex + utf8Len chunk
      .text false chunk ::
        (if o = newIndex then inlayToInline il :: inlinesGo remaining newIndex rest
         else [])

/-- `Line::inlines`. -/
def inlinesOf (text : List Char) (inlays : List (Nat × InlineInlay)) : List Inline :=
  inlinesGo text 0 inlays

/-- Running state of the `wrap_lines` per-line loop: accumulated soft breaks,
current inlay byte index, running column count. -/
structure WrapSt where
  soft_breaks : List Nat
  inlay_byte_index : Nat
  column_count : Nat
deriving DecidableEq, Repr

/-- One whitespace-delimited text segment step of `wrap_lines`:
push a break at the current inlay byte index when the segment would overflow
`max_column_count` and the break would be new, then advance the byte index;
the running count after a break is 0 (`next_column_count = 0` in the source). -/
def wrapStepText (maxCol tab : Nat) (st : WrapSt) (seg : List Char) : WrapSt :=
  let next := st.column_count + colCount tab seg
  if next > maxCol ∧ st.soft_breaks.getLastD 0 ≠ st.inlay_byte_index then
    ⟨st.soft_breaks ++ [st.inlay_byte_index], st.inlay_byte_index + utf8Len seg, 0⟩
  else
    ⟨st.soft_breaks, st.inlay_byte_index + utf8Len seg, next⟩

/-- The widget step of `wrap_lines` (the `else` branch): like a text segment
but atomic and without advancing the inlay byte index. -/
def wrapStepWidget (maxCol tab : Nat) (st : WrapSt) (inl : Inline) : WrapSt :=
  let next := st.column_count + inl.columnCount tab
  if next > maxCol ∧ st.soft_breaks.getLastD 0 ≠ st.inlay_byte_index then
    ⟨st.soft_breaks ++ [st.inlay_byte_index], st.inlay_byte_index, 0⟩
  else
    ⟨st.soft_breaks, st.inlay_byte_index, next⟩

/-- One inline step of the `wrap_lines` loop: text inlines (plain or inlay)
are walked segment by segment, other inlines are atomic. -/
def wrapStepInline (maxCol tab : Nat) (st : WrapSt) : Inline → WrapSt
  | .text _ s => (splitWhitespaceBoundaries s).foldl (wrapStepText maxCol tab) st
  | inl => wrapStepWidget maxCol tab st inl

/-- The per-line wrap computation of `ViewMut::wrap_lines`: re-derives the
soft-break offsets of one line from scratch. -/
def wrapLine (maxCol tab : Nat) (text : List Char)
    (inlays : List (Nat × InlineInlay)) : List Nat :=
  ((inlinesOf text inlays).foldl (wrapStepInline maxCol tab) ⟨[], 0, 0⟩).soft_breaks

/-- The mutable per-session/per-document state: exactly the fields borrowed by
`ViewMut` in state.rs (document text and inlays plus the session's derived
arrays, selection set and animation sets). -/
structure EditorState where
  text : List (List Char)
  inline_inlays : List (List (Nat × InlineInlay))
  soft_breaks : List (List Nat)
  fold_column_index : List Nat
  scale : List ℚ
  block_inlays : List (Nat × BlockInlay)
  summed_heights : List ℚ
  selections : List Selection
  last_added_selection_index : Nat
  folding_lines : List Nat
  unfolding_lines : List Nat
deriving DecidableEq, Repr

/-- `View::line_count`. -/
def EditorState.lineCount (s : EditorState) : Nat := s.text.length

/-- Zip the per-line arrays into `LineData`s (the `Lines` iterator zips its
five slice iterators, stopping at the shortest). -/
def linesZip : List (List Char) → List (List (Nat × InlineInlay)) →
    List (List Nat) → List Nat → List ℚ → List LineData
  | t :: ts, a :: as, b :: bs, c :: cs, d :: ds =>
      ⟨t, a, b, c, d⟩ :: linesZip ts as bs cs ds
  | _, _, _, _, _ => []

/-- All document lines of a state, composed. -/
def EditorState.linesAll (s : EditorState) : List LineData :=
  linesZip s.text s.inline_inlays s.soft_breaks s.fold_column_index s.scale

/-- `View::lines(start, end)`: the slice `[start..end]` of every per-line
array, zipped (Rust panics when `end` exceeds an array's length; here the
slice is truncated). -/
def EditorState.lines (s : EditorState) (start stop : Nat) : List LineData :=
  (s.linesAll.take stop).drop start

/-- `Block<'a>` in state.rs. -/
inductive Block where
  | line (is_inlay : Bool) (l : LineData)
  | widget (w : BlockWidget)
deriving DecidableEq, Repr

/-- The block emitted for a block inlay by `Blocks::next`. -/
def blockOfInlay : BlockInlay → Block
  | .line li => .line true li.asLine
  | .widget w => .widget w

/-- `Block::height`. -/
def Block.height : Block → ℚ
  | .line _ l => l.height
  | .widget w => w.height

/-- The `Blocks` iterator of state.rs as a list: before each document line,
emit every block inlay whose recorded line index equals the current line
index (the iterator re-checks the head inlay each step, so it drains exactly
the maximal matching prefix), then the line itself; trailing inlays matching
the index one past the last line are emitted by the final `next` call but the
iterator then stops. -/
def blocksGo : List (Nat × BlockInlay) → List LineData → Nat → List Block
  | inlays, [], idx => ((inlays.takeWhile fun p => p.1 = idx).map fun p => blockOfInlay p.2)
  | inlays, l :: ls, idx =>
      ((inlays.takeWhile fun p => p.1 = idx).map fun p => blockOfInlay p.2)
        ++ Block.line false l
        :: blocksGo (inlays.dropWhile fun p => p.1 = idx) ls (idx + 1)

/-- `View::blocks(start, end)`: starts the inlay cursor at the first block
inlay whose line index is ≥ `start` (the `position` search in the source). -/
def EditorState.blocks (s : EditorState) (start stop : Nat) : List Block :=
  blocksGo (s.block_inlays.dropWhile fun p => p.1 < start) (s.lines start stop) start

/-- The accumulation loop of `update_summed_heights`: add each block's height
to the running sum and push one entry per non-inlay line. -/
def heightsGo : List Block → ℚ → List ℚ
  | [], _ => []
  | b :: bs, acc =>
      let acc' := acc + b.height
      match b with
      | .line false _ => acc' :: heightsGo bs acc'
      | _ => heightsGo bs acc'

/-- `ViewMut::update_summed_heights`: recompute the missing suffix of the
height cache, walking `Blocks` from the first uncached line. -/
def updateSummedHeights (s : EditorState) : EditorState :=
  let start := s.summed_heights.length
  let init : ℚ := if start = 0 then 0 else s.summed_heights.getLastD 0
  { s with summed_heights :=
      s.summed_heights ++ heightsGo (s.blocks start s.lineCount) init }

/-- The from-scratch recomputation of the cumulative row heights: what
`update_summed_heights` computes for an empty cache. -/
def summedFromScratch (s : EditorState) : List ℚ :=
  heightsGo (s.blocks 0 s.lineCount) 0

/-- One iteration of the `wrap_lines` loop body for line `i`: recompute the
line's soft breaks from scratch and truncate the height cache from `i` when
the break count changed. -/
def wrapLinesStep (maxCol tab : Nat) (s : EditorState) (i : Nat) : EditorState :=
  let old := (s.soft_breaks.getD i []).length
  let nb := wrapLine maxCol tab (s.text.getD i []) (s.inline_inlays.getD i [])
  let s' := { s with soft_breaks := s.soft_breaks.set i nb }
  if nb.length ≠ old then
    { s' with summed_heights := s'.summed_heights.take i }
  else s'

/-- `ViewMut::wrap_lines`. -/
def wrapLines (maxCol tab : Nat) (s : EditorState) : EditorState :=
  updateSummedHeights
    ((List.range s.lineCount).foldl (wrapLinesStep maxCol tab) s)

/-- `ViewMut::fold_line`. -/
def foldLine (i : Nat) (s : EditorState) : EditorState :=
  { s with unfolding_lines := s.unfolding_lines.filter (· ≠ i),
           folding_lines := i :: s.folding_lines.filter (· ≠ i) }

/-- `ViewMut::unfold_line`. -/
def unfoldLine (i : Nat) (s : EditorState) : EditorState :=
  { s with folding_lines := s.folding_lines.filter (· ≠ i),
           unfolding_lines := i :: s.unfolding_lines.filter (· ≠ i) }

/-- The per-line body of the folding loop in `update_fold_animations`:
`scale *= 0.9`, snap to 0 below 0.001 (otherwise the line stays in the new
folding set), truncate the height cache from the line. -/
def foldAnimStep (p : EditorState × List Nat) (l : Nat) : EditorState × List Nat :=
  let s := p.1
  let sc := s.scale.getD l 0 * (9 / 10 : ℚ)
  let snap := sc < (1 / 1000 : ℚ)
  let sc' := if snap then 0 else sc
  ({ s with scale := s.scale.set l sc',
            summed_heights := s.summed_heights.take l },
   if snap then p.2 else p.2 ++ [l])

/-- The per-line body of the unfolding loop: `scale = 1 - 0.9 * (1 - scale)`,
snap to 1 above `1 - 0.001`. -/
def unfoldAnimStep (p : EditorState × List Nat) (l : Nat) : EditorState × List Nat :=
  let s := p.1
  let sc := 1 - (9 / 10 : ℚ) * (1 - s.scale.getD l 0)
  let snap := sc > 1 - (1 / 1000 : ℚ)
  let sc' := if snap then 1 else sc
  ({ s with scale := s.scale.set l sc',
            summed_heights := s.summed_heights.take l },
   if snap then p.2 else p.2 ++ [l])

/-- `ViewMut::update_fold_animations`: one caller-paced animation step;
returns whether it did anything (both sets empty at entry → `false` and no
state change). -/
def updateFoldAnimations (s : EditorState) : Bool × EditorState :=
  if s.folding_lines = [] ∧ s.unfolding_lines = [] then (false, s)
  else
    let r1 := s.folding_lines.foldl foldAnimStep ({ s with folding_lines := [] }, [])
    let s1 := { r1.1 with folding_lines := r1.2 }
    let r2 := s1.unfolding_lines.foldl unfoldAnimStep ({ s1 with unfolding_lines := [] }, [])
    (true, updateSummedHeights { r2.1 with unfolding_lines := r2.2 })

/-- `ViewMut::set_cursor`: discard all selections, keep a single cursor. -/
def setCursor (c : Position) (s : EditorState) : EditorState :=
  { s with selections := [Selection.fromCursor c], last_added_selection_index := 0 }

/-- Rust `slice::binary_search_by`, fuel-indexed (the fuel is an upper bound
on the iteration count, which shrinks `right - left` every step); returns
`.inl idx` for `Ok(idx)` and `.inr idx` for `Err(idx)`. -/
def bsGo (cmp : Selection → Ordering) (xs : List Selection) :
    Nat → Nat → Nat → Sum Nat Nat
  | 0, left, _ => .inr left
  | fuel + 1, left, right =>
    if left < right then
      let mid := left + (right - left) / 2
      match cmp (xs.getD mid default) with
      | .lt => bsGo cmp xs fuel (mid + 1) right
      | .gt => bsGo cmp xs fuel left mid
      | .eq => .inl mid
    else .inr left

def binarySearchBy (cmp : Selection → Ordering) (xs : List Selection) : Sum Nat Nat :=
  bsGo cmp xs (xs.length + 1) 0 xs.length

/-- `Vec::insert` at an index (within bounds in all uses below). -/
def listInsertIdx {α : Type} (i : Nat) (a : α) (l : List α) : List α :=
  l.take i ++ a :: l.drop i

/-- The comparator of `ViewMut::add_cursor`: a selection wholly before the
cursor is Less, wholly after is Greater, a containing one Equal. -/
def addCursorCmp (c : Position) (x : Selection) : Ordering :=
  if Position.ble x.end' c then .lt
  else if Position.ble c x.start then .gt
  else .eq

/-- `ViewMut::add_cursor`: binary-search the sorted set against the new
cursor; replace a containing selection or insert in sorted position, and
point `last_added_selection_index` at the slot. -/
def addCursor (c : Position) (s : EditorState) : EditorState :=
  let sel := Selection.fromCursor c
  match binarySearchBy (addCursorCmp c) s.selections with
  | .inl idx =>
      { s with selections := s.selections.set idx sel,
               last_added_selection_index := idx }
  | .inr idx =>
      { s with selections := listInsertIdx idx sel s.selections,
               last_added_selection_index := idx }

/-- The left while-loop of `move_cursor_to`, on the reversed prefix before the
current selection: repeatedly remove the adjacent previous selection while it
should merge with the (fixed) current one. -/
def mergeLeftGo (cur : Selection) : List Selection → List Selection
  | [] => []
  | p :: rest => if Selection.shouldMerge p cur then mergeLeftGo cur rest else p :: rest

/-- The right while-loop of `move_cursor_to`: repeatedly remove the adjacent
next selection while the current one should merge with it. -/
def mergeRightGo (cur : Selection) : List Selection → List Selection
  | [] => []
  | n :: rest => if Selection.shouldMerge cur n then mergeRightGo cur rest else n :: rest

/-- `ViewMut::move_cursor_to`: update the last-added selection's cursor (and
anchor unless selecting), then walk left and right from that slot merging
with neighbors. -/
def moveCursorTo (select : Bool) (c : Position) (s : EditorState) : EditorState :=
  let idx := s.last_added_selection_index
  let cur0 := s.selections.getD idx default
  let cur1 : Selection := { cur0 with cursor := c }
  let cur : Selection := if select then cur1 else { cur1 with anchor := c }
  let before := (mergeLeftGo cur (s.selections.take idx).reverse).reverse
  let after := mergeRightGo cur (s.selections.drop (idx + 1))
  { s with selections := before ++ cur :: after,
           last_added_selection_index := before.length }

/-- The re-merge while-loop at the end of `modify_selections`, fuel-indexed
(each iteration either advances `current_index` or shortens the list, so
`sels.length + 1` fuel suffices). When two adjacent selections should merge,
the merged selection at `current_index` spans min start to max end, oriented
and carrying the preferred column of the winner (the later one exactly when
it is the last-added selection, else the earlier one), and the loser's slot
is removed; note that when the loser is `current_index` itself the freshly
written merged selection is the removed one. -/
def mergeLoopGo (fuel : Nat) (sels : List Selection) (i la : Nat) :
    List Selection × Nat :=
  match fuel with
  | 0 => (sels, la)
  | fuel + 1 =>
    if i + 1 < sels.length then
      let cur := sels.getD i default
      let nxt := sels.getD (i + 1) default
      if Selection.shouldMerge cur nxt = false then mergeLoopGo fuel sels (i + 1) la
      else
        let winnerIdx := if i + 1 = la then i + 1 else i
        let loserIdx := if i + 1 = la then i else i + 1
        let winner := sels.getD winnerIdx default
        let first := if Position.ble cur.start nxt.start then cur.start else nxt.start
        let last := if Position.ble cur.end' nxt.end' then nxt.end' else cur.end'
        let merged : Selection :=
          if Position.ble winner.anchor winner.cursor then
            ⟨first, last, winner.column_index⟩
          else ⟨last, first, winner.column_index⟩
        let sels' := (sels.set i merged).eraseIdx loserIdx
        let la' := if loserIdx < la then la - 1 else la
        mergeLoopGo fuel sels' i la'
    else (sels, la)

/-- `ViewMut::modify_selections`: apply a per-selection transform (resetting
anchors unless selecting), then re-merge adjacent selections. The source
asserts that the transformed set is still sorted by start; the theorems below
take that as a hypothesis. -/
def modifySelections (select : Bool) (f : Selection → Selection)
    (s : EditorState) : EditorState :=
  let transformed := s.selections.map fun sel =>
    let t := f sel
    if select then t else t.resetAnchor
  let r := mergeLoopGo (transformed.length + 1) transformed 0 s.last_added_selection_index
  { s with selections := r.1, last_added_selection_index := r.2 }

/-- A diff operation (`diff.rs` is external): Retain/Insert/Delete, each
carrying a (line count, byte count) length, as described in the spec. -/
inductive DiffOp where
  | retain (len : Size)
  | insert (len : Size)
  | delete (len : Size)
deriving DecidableEq, Repr

/-- One iteration of the operation loop of `update_after_modify_text`:
Delete drains lines `pos+1 .. pos+1+L` from all four per-line arrays and
truncates the height cache to `pos+1`; Insert splices `L` fresh default
entries at `pos+1` and truncates the cache to `pos`; Retain only advances
the running position. -/
def repairStep (p : EditorState × Position) (op : DiffOp) : EditorState × Position :=
  let s := p.1
  let pos := p.2
  match op with
  | .retain len => (s, pos.add len)
  | .delete len =>
      let start := pos.line_index + 1
      let stop := start + len.line_count
      ({ s with
          inline_inlays := s.inline_inlays.take start ++ s.inline_inlays.drop stop,
          soft_breaks := s.soft_breaks.take start ++ s.soft_breaks.drop stop,
          fold_column_index :=
            s.fold_column_index.take start ++ s.fold_column_index.drop stop,
          scale := s.scale.take start ++ s.scale.drop stop,
          summed_heights := s.summed_heights.take start }, pos)
  | .insert len =>
      let li := pos.line_index + 1
      let L := len.line_count
      ({ s with
          inline_inlays :=
            s.inline_inlays.take li ++ List.replicate L [] ++ s.inline_inlays.drop li,
          soft_breaks :=
            s.soft_breaks.take li ++ List.replicate L [] ++ s.soft_breaks.drop li,
          fold_column_index :=
            s.fold_column_index.take li ++ List.replicate L 0 ++ s.fold_column_index.drop li,
          scale := s.scale.take li ++ List.replicate L 1 ++ s.scale.drop li,
          summed_heights := s.summed_heights.take pos.line_index }, pos)

/-- The operation loop of `update_after_modify_text`. -/
def repairOps (diff : List DiffOp) (s : EditorState) : EditorState :=
  (diff.foldl repairStep (s, Position.origin)).1

/-- `ViewMut::update_after_modify_text`: structural repair followed by one
height-cache suffix recomputation. -/
def updateAfterModifyText (diff : List DiffOp) (s : EditorState) : EditorState :=
  updateSummedHeights (repairOps diff s)

/-- `State::open_session` (with `open_document` inlined): fresh per-line
arrays (no soft breaks, fold column 0, scale 1), one default selection, no
block inlays, the even-lines inline-inlay pattern of `open_document`, and an
initial height-cache computation. The document text is a parameter (the
source loads its own file's text, which is irrelevant to every property
checked here). -/
def openSession (text : List (List Char)) : EditorState :=
  let n := text.length
  let inlay : InlineInlay := .text ("uvw xyz").data
  updateSummedHeights
    { text := text
      inline_inlays := (List.range n).map fun i =>
        if i % 2 = 0 then [(20, inlay), (40, inlay), (60, inlay), (80, inlay)] else []
      soft_breaks := List.replicate n []
      fold_column_index := List.replicate n 0
      scale := List.replicate n 1
      block_inlays := []
      summed_heights := []
      selections := [default]
      last_added_selection_index := 0
      folding_lines := []
      unfolding_lines := [] }

/-- The layout-touching public operations of `ViewMut` tracked by the
height-cache claims. A text edit (`replace`/`enter`/`delete`/`backspace`)
reaches the layout state exclusively through `modify_text`, which applies a
composite diff to the text and then calls `update_after_modify_text`; it is
modelled here as the new text plus that composite diff (`edit_ops` and the
diff algebra are external to the verified sources). -/
inductive EditorOp where
  | wrap (maxCol tab : Nat)
  | foldStep
  | fold (i : Nat)
  | unfold (i : Nat)
  | edit (newText : List (List Char)) (diff : List DiffOp)
deriving DecidableEq, Repr

def execOp (s : EditorState) : EditorOp → EditorState
  | .wrap m t => wrapLines m t s
  | .foldStep => (updateFoldAnimations s).2
  | .fold i => foldLine i s
  | .unfold i => unfoldLine i s
  | .edit tx diff => updateAfterModifyText diff { s with text := tx }

def execOps (s : EditorState) (ops : List EditorOp) : EditorState :=
  ops.foldl execOp s

/-- In-bounds condition for a diff against a line count (violations panic in
Rust's `drain`/`splice`): `n` is the current length of the per-line arrays,
`p` the running position. -/
def ValidDiff : List DiffOp → Nat → Position → Prop
  | [], _, _ => True
  | .retain len :: rest, n, p => ValidDiff rest n (p.add len)
  | .delete len :: rest, n, p =>
      p.line_index + 1 + len.line_count ≤ n ∧ ValidDiff rest (n - len.line_count) p
  | .insert len :: rest, n, p =>
      p.line_index + 1 ≤ n ∧ ValidDiff rest (n + len.line_count) p

/-- The per-line array length after structural repair by a diff. -/
def diffFinalLen : List DiffOp → Nat → Nat
  | [], n => n
  | .retain _ :: rest, n => diffFinalLen rest n
  | .delete len :: rest, n => diffFinalLen rest (n - len.line_count)
  | .insert len :: rest, n => diffFinalLen rest (n + len.line_count)

/-- Caller-contract validity of one operation (spec §7: out-of-range indices
and malformed diffs are programming errors): folding-set members must index
existing lines, and an edit's diff must stay in bounds with the new text in
lockstep with the repaired arrays. -/
def OpValid (s : EditorState) : EditorOp → Prop
  | .wrap _ _ => True
  | .fold i => i < s.lineCount
  | .unfold i => i < s.lineCount
  | .foldStep =>
      (∀ l ∈ s.folding_lines, l < s.scale.length) ∧
      (∀ l ∈ s.unfolding_lines, l < s.scale.length)
  | .edit tx diff =>
      ValidDiff diff s.lineCount Position.origin ∧
      tx.length = diffFinalLen diff s.lineCount

/-- Validity of a whole operation sequence, checked state by state. -/
def ValidSeq : List EditorOp → EditorState → Prop
  | [], _ => True
  | op :: ops, s => OpValid s op ∧ ValidSeq ops (execOp s op)

instance instDecidableValidDiff :
    (d : List DiffOp) → (n : Nat) → (p : Position) → Decidable (ValidDiff d n p)
  | [], _, _ => .isTrue trivial
  | .retain len :: rest, n, p => instDecidableValidDiff rest n (p.add len)
  | .delete len :: rest, n, p =>
      @instDecidableAnd _ _ _ (instDecidableValidDiff rest (n - len.line_count) p)
  | .insert len :: rest, n, p =>
      @instDecidableAnd _ _ _ (instDecidableValidDiff rest (n + len.line_count) p)

instance instDecidableOpValid (s : EditorState) : (op : EditorOp) → Decidable (OpValid s op)
  | .wrap _ _ => .isTrue trivial
  | .fold _ => Nat.decLt _ _
  | .unfold _ => Nat.decLt _ _
  | .foldStep => instDecidableAnd
  | .edit _ _ => instDecidableAnd

instance instDecidableValidSeq :
    (ops : List EditorOp) → (s : EditorState) → Decidable (ValidSeq ops s)
  | [], _ => .isTrue trivial
  | op :: ops, s => @instDecidableAnd _ _ _ (instDecidableValidSeq ops (execOp s op))

instance : Inhabited LineData := ⟨⟨[], [], [], 0, 1⟩⟩

/-! ### Concrete states used by the scenario theorems -/

/-- A four-line session as produced by `open_session` (scenario states for the
fold-animation and structural-repair claims). -/
def demoSession : EditorState :=
  openSession [("fn a").data, ("fn b").data, ("fn c").data, ("fn d").data]

/-- A one-line session holding exactly "hello world" (scenario A). -/
def helloSession : EditorState :=
  { text := [("hello world").data]
    inline_inlays := [[]]
    soft_breaks := [[]]
    fold_column_index := [0]
    scale := [1]
    block_inlays := []
    summed_heights := [1]
    selections := [default]
    last_added_selection_index := 0
    folding_lines := []
    unfolding_lines := [] }

/-- Iterated fold-animation stepping (each call is one caller-paced tick). -/
def foldTicks (n : Nat) (s : EditorState) : EditorState :=
  (fun s => (updateFoldAnimations s).2)^[n] s

/-! ### C3: wrapping "hello world" at maximum column count 5 -/

set_option maxRecDepth 8000 in
/-- Claim C3 is false on the code: wrapping the single line "hello world"
with `max_column_count = 5` produces its one soft break at inlay byte offset
5 (just before the space), not at offset 6 as the claim states. -/
theorem wrap_hello_world_counterexample :
    (wrapLines 5 4 helloSession).soft_breaks = [[5]] ∧
      ¬ (wrapLines 5 4 helloSession).soft_breaks = [[6]] := by
  with_unfolding_all decide

/-- C3 (amended): for any tab width, wrapping the single line "hello world"
with `max_column_count = 5` produces exactly one soft break, at inlay byte
offset 5 (immediately before the whitespace separating "hello" from
"world"), and the line's row count is 2. -/
theorem wrap_hello_world_scenario (tab : Nat) :
    (wrapLines 5 tab helloSession).soft_breaks = [[5]] ∧
      ((wrapLines 5 tab helloSession).linesAll.getD 0 default).rowCount = 2 := by
  have hcc : ∀ (t : Nat) (s : List Char), (∀ c ∈ s, ¬ c = '\t') → colCount t s = s.length := by
    intro t s h
    induction s with
    | nil => rfl
    | cons c cs ih =>
        have hc := h c (List.mem_cons_self c cs)
        have ht := ih fun d hd => h d (List.mem_cons_of_mem _ hd)
        simp only [colCount, List.map_cons, List.sum_cons, if_neg hc] at *
        rw [ht, List.length_cons, Nat.add_comm]
  have hw : wrapLine 5 tab (("hello world").data) [] = [5] := by
    have hinl : inlinesOf (("hello world").data) [] =
        [.text false (("hello world").data)] := by with_unfolding_all decide
    have hsplit : splitWhitespaceBoundaries (("hello world").data) =
        [("hello").data, [' '], ("world").data] := by with_unfolding_all decide
    have s1 : wrapStepText 5 tab ⟨[], 0, 0⟩ (("hello").data) = ⟨[], 5, 5⟩ := by
      rw [wrapStepText, hcc tab _ (by decide),
        show utf8Len (("hello").data) = 5 from by decide,
        show ((("hello")).data).length = 5 from by decide]
      norm_num
    have s2 : wrapStepText 5 tab ⟨[], 5, 5⟩ [' '] = ⟨[5], 6, 0⟩ := by
      rw [wrapStepText, hcc tab _ (by decide),
        show utf8Len [' '] = 1 from by decide]
      norm_num [List.getLastD]
    have s3 : wrapStepText 5 tab ⟨[5], 6, 0⟩ (("world").data) = ⟨[5], 11, 5⟩ := by
      rw [wrapStepText, hcc tab _ (by decide),
        show utf8Len (("world").data) = 5 from by decide,
        show ((("world")).data).length = 5 from by decide]
      norm_num [List.getLastD]
    rw [wrapLine, hinl, List.foldl_cons, List.foldl_nil, wrapStepInline, hsplit,
      List.foldl_cons, s1, List.foldl_cons, s2, List.foldl_cons, s3, List.foldl_nil]
  have hstep : wrapLinesStep 5 tab helloSession 0 =
      { helloSession with soft_breaks := [[5]], summed_heights := [] } := by
    rw [wrapLinesStep,
      show helloSession.text.getD 0 [] = ("hello world").data from rfl,
      show helloSession.inline_inlays.getD 0 [] = [] from rfl, hw]
    norm_num [helloSession]
  have hfold : wrapLines 5 tab helloSession =
      updateSummedHeights { helloSession with soft_breaks := [[5]], summed_heights := [] } := by
    rw [wrapLines, show helloSession.lineCount = 1 from rfl,
      show List.range 1 = [0] from rfl, List.foldl_cons, List.foldl_nil, hstep]
  rw [hfold]
  with_unfolding_all decide

/-! ### C6: fold-animation convergence -/

theorem getD_set_ne {l : List ℚ} {i j : Nat} {a : ℚ} (h : i ≠ j) :
    (l.set i a).getD j 0 = l.getD j 0 := by
  simp [List.getD, List.getElem?_set_ne h]

theorem getD_set_self {l : List ℚ} {i : Nat} {a : ℚ} (h : i < l.length) :
    (l.set i a).getD i 0 = a := by
  simp [List.getD, List.getElem?_set_self, h]

/-- Effect of the folding loop over lines all different from `l`: the scale at
`l`, the array length, both animation-set fields, and the absence of `l` from
the accumulated new folding set are preserved (the accumulator only ever
gains processed lines). -/
theorem foldl_foldAnimStep_ne (l : Nat) :
    ∀ (L : List Nat) (p : EditorState × List Nat), (∀ m ∈ L, m ≠ l) →
      ((L.foldl foldAnimStep p).1.scale.getD l 0 = p.1.scale.getD l 0) ∧
      ((L.foldl foldAnimStep p).1.scale.length = p.1.scale.length) ∧
      ((L.foldl foldAnimStep p).1.folding_lines = p.1.folding_lines) ∧
      ((L.foldl foldAnimStep p).1.unfolding_lines = p.1.unfolding_lines) ∧
      (∃ ex, (L.foldl foldAnimStep p).2 = p.2 ++ ex ∧ ∀ x ∈ ex, x ∈ L)
  | [], p, _ => by
      exact ⟨rfl, rfl, rfl, rfl, [], by simp, by simp⟩
  | m :: L, p, h => by
      have hm : m ≠ l := h m (List.mem_cons_self m L)
      have ih := foldl_foldAnimStep_ne l L (foldAnimStep p m)
        (fun x hx => h x (List.mem_cons_of_mem _ hx))
      rw [List.foldl_cons]
      refine ⟨?_, ?_, ?_, ?_, ?_⟩
      · rw [ih.1]; simp only [foldAnimStep]; exact getD_set_ne hm
      · rw [ih.2.1]; simp [foldAnimStep]
      · rw [ih.2.2.1]; simp [foldAnimStep]
      · rw [ih.2.2.2.1]; simp [foldAnimStep]
      · obtain ⟨ex, hex, hmem⟩ := ih.2.2.2.2
        have hacc : (foldAnimStep p m).2 = p.2 ∨ (foldAnimStep p m).2 = p.2 ++ [m] := by
          simp only [foldAnimStep]
          split
          · exact Or.inl rfl
          · exact Or.inr rfl
        rcases hacc with hc | hc
        · exact ⟨ex, by rw [hex, hc], fun x hx => List.mem_cons_of_mem _ (hmem x hx)⟩
        · refine ⟨m :: ex, ?_, ?_⟩
          · rw [hex, hc]; simp
          · intro x hx
            rcases List.mem_cons.1 hx with h1 | h2
            · exact h1 ▸ List.mem_cons_self m L
            · exact List.mem_cons_of_mem _ (hmem x h2)

/-- Mirror of `foldl_foldAnimStep_ne` for the unfolding loop. -/
theorem foldl_unfoldAnimStep_ne (l : Nat) :
    ∀ (L : List Nat) (p : EditorState × List Nat), (∀ m ∈ L, m ≠ l) →
      ((L.foldl unfoldAnimStep p).1.scale.getD l 0 = p.1.scale.getD l 0) ∧
      ((L.foldl unfoldAnimStep p).1.scale.length = p.1.scale.length) ∧
      ((L.foldl unfoldAnimStep p).1.folding_lines = p.1.folding_lines) ∧
      ((L.foldl unfoldAnimStep p).1.unfolding_lines = p.1.unfolding_lines) ∧
      (∃ ex, (L.foldl unfoldAnimStep p).2 = p.2 ++ ex ∧ ∀ x ∈ ex, x ∈ L)
  | [], p, _ => by
      exact ⟨rfl, rfl, rfl, rfl, [], by simp, by simp⟩
  | m :: L, p, h => by
      have hm : m ≠ l := h m (List.mem_cons_self m L)
      have ih := foldl_unfoldAnimStep_ne l L (unfoldAnimStep p m)
        (fun x hx => h x (List.mem_cons_of_mem _ hx))
      rw [List.foldl_cons]
      refine ⟨?_, ?_, ?_, ?_, ?_⟩
      · rw [ih.1]; simp only [unfoldAnimStep]; exact getD_set_ne hm
      · rw [ih.2.1]; simp [unfoldAnimStep]
      · rw [ih.2.2.1]; simp [unfoldAnimStep]
      · rw [ih.2.2.2.1]; simp [unfoldAnimStep]
      · obtain ⟨ex, hex, hmem⟩ := ih.2.2.2.2
        have hacc : (unfoldAnimStep p m).2 = p.2 ∨ (unfoldAnimStep p m).2 = p.2 ++ [m] := by
          simp only [unfoldAnimStep]
          split
          · exact Or.inl rfl
          · exact Or.inr rfl
        rcases hacc with hc | hc
        · exact ⟨ex, by rw [hex, hc], fun x hx => List.mem_cons_of_mem _ (hmem x hx)⟩
        · refine ⟨m :: ex, ?_, ?_⟩
          · rw [hex, hc]; simp
          · intro x hx
            rcases List.mem_cons.1 hx with h1 | h2
            · exact h1 ▸ List.mem_cons_self m L
            · exact List.mem_cons_of_mem _ (hmem x h2)

theorem updateSummedHeights_scale (s : EditorState) :
    (updateSummedHeights s).scale = s.scale := rfl

theorem updateSummedHeights_folding (s : EditorState) :
    (updateSummedHeights s).folding_lines = s.folding_lines := rfl

theorem updateSummedHeights_unfolding (s : EditorState) :
    (updateSummedHeights s).unfolding_lines = s.unfolding_lines := rfl

/-- The folding-loop result inside a non-trivial `update_fold_animations`
call. -/
def tickR1 (s : EditorState) : EditorState × List Nat :=
  s.folding_lines.foldl foldAnimStep ({ s with folding_lines := [] }, [])

/-- The state after the folding loop, with the new folding set installed. -/
def tickS1 (s : EditorState) : EditorState :=
  { (tickR1 s).1 with folding_lines := (tickR1 s).2 }

/-- The unfolding-loop result inside a non-trivial `update_fold_animations`
call. -/
def tickR2 (s : EditorState) : EditorState × List Nat :=
  (tickS1 s).unfolding_lines.foldl unfoldAnimStep ({ tickS1 s with unfolding_lines := [] }, [])

theorem tick_eq (s : EditorState)
    (hne : ¬ (s.folding_lines = [] ∧ s.unfolding_lines = [])) :
    updateFoldAnimations s =
      (true, updateSummedHeights { (tickR2 s).1 with unfolding_lines := (tickR2 s).2 }) := by
  rw [updateFoldAnimations, if_neg hne]
  rfl

theorem tick_scale (s : EditorState)
    (hne : ¬ (s.folding_lines = [] ∧ s.unfolding_lines = [])) :
    (updateFoldAnimations s).2.scale = (tickR2 s).1.scale := by
  rw [tick_eq s hne]
  rfl

theorem tick_folding (s : EditorState)
    (hne : ¬ (s.folding_lines = [] ∧ s.unfolding_lines = [])) :
    (updateFoldAnimations s).2.folding_lines = (tickR2 s).1.folding_lines := by
  rw [tick_eq s hne]
  rfl

theorem tick_unfolding (s : EditorState)
    (hne : ¬ (s.folding_lines = [] ∧ s.unfolding_lines = [])) :
    (updateFoldAnimations s).2.unfolding_lines = (tickR2 s).2 := by
  rw [tick_eq s hne]
  rfl

/-- Reduction of the unfolding-loop result to the folding-loop result at a
line `l` that is not in the unfolding set: the scale at `l`, its bound, and
the folding set pass through, and the new unfolding set only contains old
unfolding lines. -/
theorem tickR2_props (s : EditorState) (l : Nat)
    (hu : ∀ m ∈ s.unfolding_lines, m ≠ l) :
    (tickR2 s).1.scale.getD l 0 = (tickR1 s).1.scale.getD l 0 ∧
    (tickR2 s).1.scale.length = (tickR1 s).1.scale.length ∧
    (tickR2 s).1.folding_lines = (tickR1 s).2 ∧
    (∀ x ∈ (tickR2 s).2, x ∈ s.unfolding_lines) := by
  have hlist : (tickS1 s).unfolding_lines = s.unfolding_lines := by
    show (tickR1 s).1.unfolding_lines = s.unfolding_lines
    have : ∀ (L : List Nat) (p : EditorState × List Nat),
        (L.foldl foldAnimStep p).1.unfolding_lines = p.1.unfolding_lines := by
      intro L
      induction L with
      | nil => intro p; rfl
      | cons m L ih =>
          intro p
          rw [List.foldl_cons, ih]
          simp [foldAnimStep]
    exact this _ _
  obtain ⟨h1, h2, h3, h4, ex, hex, hmem⟩ :=
    foldl_unfoldAnimStep_ne l (tickS1 s).unfolding_lines
      ({ tickS1 s with unfolding_lines := [] }, [])
      (by rw [hlist]; exact hu)
  refine ⟨?_, ?_, ?_, ?_⟩
  · rw [show (tickR2 s).1.scale.getD l 0 =
      ((tickS1 s).unfolding_lines.foldl unfoldAnimStep
        ({ tickS1 s with unfolding_lines := [] }, [])).1.scale.getD l 0 from rfl, h1]
    rfl
  · rw [show (tickR2 s).1.scale.length =
      ((tickS1 s).unfolding_lines.foldl unfoldAnimStep
        ({ tickS1 s with unfolding_lines := [] }, [])).1.scale.length from rfl, h2]
    rfl
  · rw [show (tickR2 s).1.folding_lines =
      ((tickS1 s).unfolding_lines.foldl unfoldAnimStep
        ({ tickS1 s with unfolding_lines := [] }, [])).1.folding_lines from rfl, h3]
    rfl
  · intro x hx
    rw [show (tickR2 s).2 =
      ((tickS1 s).unfolding_lines.foldl unfoldAnimStep
        ({ tickS1 s with unfolding_lines := [] }, [])).2 from rfl, hex] at hx
    rw [← hlist]
    simpa using hmem x (by simpa using hx)

/-- The folding loop on a folding set `l :: rest` with `l` not in `rest`:
`l`'s scale decays by 0.9 and snaps below the threshold, `l` survives at the
front of the new folding set exactly when it does not snap, and the rest of
the new set comes from `rest`. -/
theorem tickR1_props (s : EditorState) (l : Nat) (rest : List Nat)
    (hf : s.folding_lines = l :: rest) (hrest : l ∉ rest) (hl : l < s.scale.length) :
    (tickR1 s).1.scale.getD l 0 =
      (if s.scale.getD l 0 * (9 / 10) < (1 / 1000 : ℚ) then 0
       else s.scale.getD l 0 * (9 / 10)) ∧
    (tickR1 s).1.scale.length = s.scale.length ∧
    (∃ ex, (∀ x ∈ ex, x ∈ rest) ∧
      (tickR1 s).2 =
        (if s.scale.getD l 0 * (9 / 10) < (1 / 1000 : ℚ) then ([] : List Nat) else [l]) ++ ex) := by
  have hrne : ∀ m ∈ rest, m ≠ l := fun m hm heq => hrest (heq ▸ hm)
  have hstep : foldAnimStep ({ s with folding_lines := [] }, []) l =
      ({ s with folding_lines := [],
                scale := s.scale.set l
                  (if s.scale.getD l 0 * (9 / 10) < (1 / 1000 : ℚ) then 0
                   else s.scale.getD l 0 * (9 / 10)),
                summed_heights := s.summed_heights.take l },
       if s.scale.getD l 0 * (9 / 10) < (1 / 1000 : ℚ) then ([] : List Nat) else [l]) := by
    simp only [foldAnimStep]
    split <;> rfl
  have hr1 : tickR1 s = rest.foldl foldAnimStep
      ({ s with folding_lines := [],
                scale := s.scale.set l
                  (if s.scale.getD l 0 * (9 / 10) < (1 / 1000 : ℚ) then 0
                   else s.scale.getD l 0 * (9 / 10)),
                summed_heights := s.summed_heights.take l },
       if s.scale.getD l 0 * (9 / 10) < (1 / 1000 : ℚ) then ([] : List Nat) else [l]) := by
    rw [tickR1, hf, List.foldl_cons, hstep]
  obtain ⟨h1, h2, h3, h4, ex, hex, hmem⟩ :=
    foldl_foldAnimStep_ne l rest
      ({ s with folding_lines := [],
                scale := s.scale.set l
                  (if s.scale.getD l 0 * (9 / 10) < (1 / 1000 : ℚ) then 0
                   else s.scale.getD l 0 * (9 / 10)),
                summed_heights := s.summed_heights.take l },
       if s.scale.getD l 0 * (9 / 10) < (1 / 1000 : ℚ) then ([] : List Nat) else [l]) hrne
  refine ⟨?_, ?_, ex, hmem, ?_⟩
  · rw [hr1, h1]
    exact getD_set_self hl
  · rw [hr1, h2]
    exact List.length_set ..
  · rw [hr1, hex]

theorem tickR1_unfolding (s : EditorState) :
    (tickR1 s).1.unfolding_lines = s.unfolding_lines := by
  show (s.folding_lines.foldl foldAnimStep ({ s with folding_lines := [] }, [])).1.unfolding_lines =
    s.unfolding_lines
  have : ∀ (L : List Nat) (p : EditorState × List Nat),
      (L.foldl foldAnimStep p).1.unfolding_lines = p.1.unfolding_lines := by
    intro L
    induction L with
    | nil => intro p; rfl
    | cons m L ih =>
        intro p
        rw [List.foldl_cons, ih]
        simp [foldAnimStep]
  exact this _ _

/-- The folding loop on a folding set avoiding `l`: `l`'s scale and the array
length are untouched, and every new folding line comes from the old set. -/
theorem tickR1_ne_props (s : EditorState) (l : Nat)
    (hf : ∀ m ∈ s.folding_lines, m ≠ l) :
    (tickR1 s).1.scale.getD l 0 = s.scale.getD l 0 ∧
    (tickR1 s).1.scale.length = s.scale.length ∧
    (∀ x ∈ (tickR1 s).2, x ∈ s.folding_lines) := by
  obtain ⟨h1, h2, h3, h4, ex, hex, hmem⟩ :=
    foldl_foldAnimStep_ne l s.folding_lines ({ s with folding_lines := [] }, []) hf
  refine ⟨?_, ?_, ?_⟩
  · rw [show (tickR1 s).1.scale.getD l 0 =
      (s.folding_lines.foldl foldAnimStep ({ s with folding_lines := [] }, [])).1.scale.getD l 0
      from rfl, h1]
  · rw [show (tickR1 s).1.scale.length =
      (s.folding_lines.foldl foldAnimStep ({ s with folding_lines := [] }, [])).1.scale.length
      from rfl, h2]
  · intro x hx
    rw [show (tickR1 s).2 =
      (s.folding_lines.foldl foldAnimStep ({ s with folding_lines := [] }, [])).2
      from rfl, hex] at hx
    simpa using hmem x (by simpa using hx)

/-- The unfolding loop when the unfolding set is `l :: rest` with `l` not in
`rest`: `l`'s scale grows toward 1 and snaps above the threshold, `l`
survives at the front of the new unfolding set exactly when it does not snap,
the folding set passes through, and the rest of the new set comes from
`rest`. The scale at `l` entering the loop is the one left by the folding
loop, `(tickR1 s).1.scale.getD l 0`. -/
theorem tickR2_cons_props (s : EditorState) (l : Nat) (rest : List Nat)
    (huf : s.unfolding_lines = l :: rest) (hrest : l ∉ rest)
    (hl : l < (tickR1 s).1.scale.length) :
    (tickR2 s).1.scale.getD l 0 =
      (if 1 - (9 / 10 : ℚ) * (1 - (tickR1 s).1.scale.getD l 0) > 1 - (1 / 1000 : ℚ) then 1
       else 1 - (9 / 10 : ℚ) * (1 - (tickR1 s).1.scale.getD l 0)) ∧
    (tickR2 s).1.scale.length = (tickR1 s).1.scale.length ∧
    (tickR2 s).1.folding_lines = (tickR1 s).2 ∧
    (∃ ex, (∀ x ∈ ex, x ∈ rest) ∧
      (tickR2 s).2 =
        (if 1 - (9 / 10 : ℚ) * (1 - (tickR1 s).1.scale.getD l 0) > 1 - (1 / 1000 : ℚ)
         then ([] : List Nat) else [l]) ++ ex) := by
  have hrne : ∀ m ∈ rest, m ≠ l := fun m hm heq => hrest (heq ▸ hm)
  have hlist : (tickS1 s).unfolding_lines = l :: rest := by
    show (tickR1 s).1.unfolding_lines = l :: rest
    rw [tickR1_unfolding, huf]
  have hbase1 : ({ tickS1 s with unfolding_lines := [] } : EditorState).scale.getD l 0 =
      (tickR1 s).1.scale.getD l 0 := rfl
  have hstep : unfoldAnimStep ({ tickS1 s with unfolding_lines := [] }, []) l =
      ({ ({ tickS1 s with unfolding_lines := [] } : EditorState) with
          scale := ({ tickS1 s with unfolding_lines := [] } : EditorState).scale.set l
            (if 1 - (9 / 10 : ℚ) * (1 - (tickR1 s).1.scale.getD l 0) > 1 - (1 / 1000 : ℚ) then 1
             else 1 - (9 / 10 : ℚ) * (1 - (tickR1 s).1.scale.getD l 0)),
          summed_heights :=
            ({ tickS1 s with unfolding_lines := [] } : EditorState).summed_heights.take l },
       if 1 - (9 / 10 : ℚ) * (1 - (tickR1 s).1.scale.getD l 0) > 1 - (1 / 1000 : ℚ)
       then ([] : List Nat) else [l]) := by
    simp only [unfoldAnimStep, hbase1]
    split <;> rfl
  have hr2 : tickR2 s = rest.foldl unfoldAnimStep
      ({ ({ tickS1 s with unfolding_lines := [] } : EditorState) with
          scale := ({ tickS1 s with unfolding_lines := [] } : EditorState).scale.set l
            (if 1 - (9 / 10 : ℚ) * (1 - (tickR1 s).1.scale.getD l 0) > 1 - (1 / 1000 : ℚ) then 1
             else 1 - (9 / 10 : ℚ) * (1 - (tickR1 s).1.scale.getD l 0)),
          summed_heights :=
            ({ tickS1 s with unfolding_lines := [] } : EditorState).summed_heights.take l },
       if 1 - (9 / 10 : ℚ) * (1 - (tickR1 s).1.scale.getD l 0) > 1 - (1 / 1000 : ℚ)
       then ([] : List Nat) else [l]) := by
    rw [tickR2, hlist, List.foldl_cons, hstep]
  obtain ⟨h1, h2, h3, h4, ex, hex, hmem⟩ :=
    foldl_unfoldAnimStep_ne l rest
      ({ ({ tickS1 s with unfolding_lines := [] } : EditorState) with
          scale := ({ tickS1 s with unfolding_lines := [] } : EditorState).scale.set l
            (if 1 - (9 / 10 : ℚ) * (1 - (tickR1 s).1.scale.getD l 0) > 1 - (1 / 1000 : ℚ) then 1
             else 1 - (9 / 10 : ℚ) * (1 - (tickR1 s).1.scale.getD l 0)),
          summed_heights :=
            ({ tickS1 s with unfolding_lines := [] } : EditorState).summed_heights.take l },
       if 1 - (9 / 10 : ℚ) * (1 - (tickR1 s).1.scale.getD l 0) > 1 - (1 / 1000 : ℚ)
       then ([] : List Nat) else [l]) hrne
  refine ⟨?_, ?_, ?_, ex, hmem, ?_⟩
  · rw [hr2, h1]
    exact getD_set_self hl
  · rw [hr2, h2]
    exact List.length_set ..
  · rw [hr2, h3]
    rfl
  · rw [hr2, hex]

theorem pow_decay_no_snap {k : Nat} (hk : k + 1 ≤ 65) :
    ¬ ((9 / 10 : ℚ) ^ k * (9 / 10) < 1 / 1000) := by
  rw [← pow_succ]
  have h65 : ((9 : ℚ) / 10) ^ 65 ≤ (9 / 10 : ℚ) ^ (k + 1) :=
    pow_le_pow_of_le_one (by norm_num) (by norm_num) hk
  have hb : (1 / 1000 : ℚ) ≤ (9 / 10) ^ 65 := by norm_num
  push_neg
  linarith

theorem pow_decay_snap : ((9 / 10 : ℚ) ^ 65 * (9 / 10) < 1 / 1000) := by
  rw [← pow_succ]
  norm_num

/-- The fold-iteration invariant: starting from a line `l` with scale 1 that
`fold_line` has just put at the front of the folding set, after `k ≤ 65`
ticks the line's scale is `0.9^k`, it is still at the front of the folding
set, and it is not in the unfolding set. -/
theorem foldTicks_fold_iter (s : EditorState) (l : Nat)
    (hl : l < s.scale.length) (h1 : s.scale.getD l 0 = 1) :
    ∀ k, k ≤ 65 →
      ∃ rest, (foldTicks k (foldLine l s)).folding_lines = l :: rest ∧ l ∉ rest ∧
        (foldTicks k (foldLine l s)).scale.getD l 0 = (9 / 10 : ℚ) ^ k ∧
        l ∉ (foldTicks k (foldLine l s)).unfolding_lines ∧
        l < (foldTicks k (foldLine l s)).scale.length := by
  intro k
  induction k with
  | zero =>
      intro _
      refine ⟨s.folding_lines.filter (· ≠ l), rfl, ?_, ?_, ?_, ?_⟩
      · intro hmem
        simp at hmem
      · show s.scale.getD l 0 = _
        rw [h1, pow_zero]
      · show l ∉ s.unfolding_lines.filter (· ≠ l)
        intro hmem
        simp at hmem
      · exact hl
  | succ k ih =>
      intro hk
      obtain ⟨rest, hfold, hrest, hsc, hunf, hlen⟩ := ih (Nat.le_of_succ_le hk)
      set t := foldTicks k (foldLine l s) with ht
      have hstep : foldTicks (k + 1) (foldLine l s) = (updateFoldAnimations t).2 := by
        rw [foldTicks, Function.iterate_succ_apply']
        rfl
      have hne : ¬ (t.folding_lines = [] ∧ t.unfolding_lines = []) := by
        rw [hfold]; intro h; exact List.cons_ne_nil _ _ h.1
      have hq : ¬ (t.scale.getD l 0 * (9 / 10) < (1 / 1000 : ℚ)) := by
        rw [hsc]; exact pow_decay_no_snap hk
      obtain ⟨hr1sc, hr1len, ex, hexmem, hr1set⟩ := tickR1_props t l rest hfold hrest hlen
      have hu : ∀ m ∈ t.unfolding_lines, m ≠ l := fun m hm heq => hunf (heq ▸ hm)
      obtain ⟨hr2sc, hr2len, hr2fold, hr2unf⟩ := tickR2_props t l hu
      rw [hstep]
      refine ⟨ex, ?_, ?_, ?_, ?_, ?_⟩
      · rw [tick_folding t hne, hr2fold, hr1set, if_neg hq]
        rfl
      · intro hmem
        exact hrest (hexmem _ hmem)
      · rw [tick_scale t hne, hr2sc, hr1sc, if_neg hq, hsc, pow_succ]
      · rw [tick_unfolding t hne]
        intro hmem
        exact hunf (hr2unf _ hmem)
      · rw [tick_scale t hne, hr2len, hr1len]
        exact hlen

/-- After `fold_line` on a fully open line, the 66th animation tick snaps the
scale to exactly 0 and removes the line from both animation sets. -/
theorem foldTicks_fold_done (s : EditorState) (l : Nat)
    (hl : l < s.scale.length) (h1 : s.scale.getD l 0 = 1) :
    (foldTicks 66 (foldLine l s)).scale.getD l 0 = 0 ∧
    l ∉ (foldTicks 66 (foldLine l s)).folding_lines ∧
    l ∉ (foldTicks 66 (foldLine l s)).unfolding_lines ∧
    l < (foldTicks 66 (foldLine l s)).scale.length := by
  obtain ⟨rest, hfold, hrest, hsc, hunf, hlen⟩ :=
    foldTicks_fold_iter s l hl h1 65 (le_refl 65)
  set t := foldTicks 65 (foldLine l s) with ht
  have hstep : foldTicks 66 (foldLine l s) = (updateFoldAnimations t).2 := by
    rw [foldTicks, Function.iterate_succ_apply']
    rfl
  have hne : ¬ (t.folding_lines = [] ∧ t.unfolding_lines = []) := by
    rw [hfold]; intro h; exact List.cons_ne_nil _ _ h.1
  have hq : t.scale.getD l 0 * (9 / 10) < (1 / 1000 : ℚ) := by
    rw [hsc]; exact pow_decay_snap
  obtain ⟨hr1sc, hr1len, ex, hexmem, hr1set⟩ := tickR1_props t l rest hfold hrest hlen
  have hu : ∀ m ∈ t.unfolding_lines, m ≠ l := fun m hm heq => hunf (heq ▸ hm)
  obtain ⟨hr2sc, hr2len, hr2fold, hr2unf⟩ := tickR2_props t l hu
  rw [hstep]
  refine ⟨?_, ?_, ?_, ?_⟩
  · rw [tick_scale t hne, hr2sc, hr1sc, if_pos hq]
  · rw [tick_folding t hne, hr2fold, hr1set, if_pos hq]
    intro hmem
    exact hrest (hexmem _ (by simpa using hmem))
  · rw [tick_unfolding t hne]
    intro hmem
    exact hunf (hr2unf _ hmem)
  · rw [tick_scale t hne, hr2len, hr1len]
    exact hlen

/-- The unfold-iteration invariant: starting from a line `l` with scale 0 that
`unfold_line` has just put at the front of the unfolding set, after `k ≤ 65`
ticks the line's scale is `1 - 0.9^k`, it is still at the front of the
unfolding set, and the folding set avoids it. -/
theorem foldTicks_unfold_iter (s : EditorState) (l : Nat)
    (hl : l < s.scale.length) (h0 : s.scale.getD l 0 = 0) :
    ∀ k, k ≤ 65 →
      ∃ rest, (foldTicks k (unfoldLine l s)).unfolding_lines = l :: rest ∧ l ∉ rest ∧
        (foldTicks k (unfoldLine l s)).scale.getD l 0 = 1 - (9 / 10 : ℚ) ^ k ∧
        (∀ m ∈ (foldTicks k (unfoldLine l s)).folding_lines, m ≠ l) ∧
        l < (foldTicks k (unfoldLine l s)).scale.length := by
  intro k
  induction k with
  | zero =>
      intro _
      refine ⟨s.unfolding_lines.filter (· ≠ l), rfl, ?_, ?_, ?_, ?_⟩
      · intro hmem
        simp at hmem
      · show s.scale.getD l 0 = _
        rw [h0, pow_zero]
        norm_num
      · intro m hm
        have hm' : m ∈ s.folding_lines.filter (· ≠ l) := hm
        simp at hm'
        exact hm'.2
      · exact hl
  | succ k ih =>
      intro hk
      obtain ⟨rest, hunf, hrest, hsc, hfold, hlen⟩ := ih (Nat.le_of_succ_le hk)
      set t := foldTicks k (unfoldLine l s) with ht
      have hstep : foldTicks (k + 1) (unfoldLine l s) = (updateFoldAnimations t).2 := by
        rw [foldTicks, Function.iterate_succ_apply']
        rfl
      have hne : ¬ (t.folding_lines = [] ∧ t.unfolding_lines = []) := by
        rw [hunf]; intro h; exact List.cons_ne_nil _ _ h.2
      obtain ⟨hr1sc, hr1len, hr1set⟩ := tickR1_ne_props t l hfold
      have hl' : l < (tickR1 t).1.scale.length := by rw [hr1len]; exact hlen
      obtain ⟨hr2sc, hr2len, hr2fold, ex, hexmem, hr2set⟩ :=
        tickR2_cons_props t l rest hunf hrest hl'
      have hval : 1 - (9 / 10 : ℚ) * (1 - (tickR1 t).1.scale.getD l 0) =
          1 - (9 / 10 : ℚ) ^ (k + 1) := by
        rw [hr1sc, hsc, pow_succ]
        ring
      have hcond : ¬ (1 - (9 / 10 : ℚ) * (1 - (tickR1 t).1.scale.getD l 0) >
          1 - (1 / 1000 : ℚ)) := by
        rw [hval]
        have := pow_decay_no_snap hk
        rw [← pow_succ] at this
        push_neg at this ⊢
        linarith
      rw [hstep]
      refine ⟨ex, ?_, ?_, ?_, ?_, ?_⟩
      · rw [tick_unfolding t hne, hr2set, if_neg hcond]
        rfl
      · intro hmem
        exact hrest (hexmem _ hmem)
      · rw [tick_scale t hne, hr2sc, if_neg hcond, hval]
      · intro m hm
        rw [tick_folding t hne, hr2fold] at hm
        exact hfold m (hr1set m hm)
      · rw [tick_scale t hne, hr2len, hr1len]
        exact hlen

/-- After `unfold_line` on a fully folded line, the 66th animation tick snaps
the scale to exactly 1 and removes the line from both animation sets. -/
theorem foldTicks_unfold_done (s : EditorState) (l : Nat)
    (hl : l < s.scale.length) (h0 : s.scale.getD l 0 = 0) :
    (foldTicks 66 (unfoldLine l s)).scale.getD l 0 = 1 ∧
    l ∉ (foldTicks 66 (unfoldLine l s)).folding_lines ∧
    l ∉ (foldTicks 66 (unfoldLine l s)).unfolding_lines ∧
    l < (foldTicks 66 (unfoldLine l s)).scale.length := by
  obtain ⟨rest, hunf, hrest, hsc, hfold, hlen⟩ :=
    foldTicks_unfold_iter s l hl h0 65 (le_refl 65)
  set t := foldTicks 65 (unfoldLine l s) with ht
  have hstep : foldTicks 66 (unfoldLine l s) = (updateFoldAnimations t).2 := by
    rw [foldTicks, Function.iterate_succ_apply']
    rfl
  have hne : ¬ (t.folding_lines = [] ∧ t.unfolding_lines = []) := by
    rw [hunf]; intro h; exact List.cons_ne_nil _ _ h.2
  obtain ⟨hr1sc, hr1len, hr1set⟩ := tickR1_ne_props t l hfold
  have hl' : l < (tickR1 t).1.scale.length := by rw [hr1len]; exact hlen
  obtain ⟨hr2sc, hr2len, hr2fold, ex, hexmem, hr2set⟩ :=
    tickR2_cons_props t l rest hunf hrest hl'
  have hval : 1 - (9 / 10 : ℚ) * (1 - (tickR1 t).1.scale.getD l 0) =
      1 - (9 / 10 : ℚ) ^ 66 := by
    rw [hr1sc, hsc, pow_succ]
    ring
  have hcond : 1 - (9 / 10 : ℚ) * (1 - (tickR1 t).1.scale.getD l 0) >
      1 - (1 / 1000 : ℚ) := by
    rw [hval]
    have := pow_decay_snap
    rw [← pow_succ] at this
    linarith
  rw [hstep]
  refine ⟨?_, ?_, ?_, ?_⟩
  · rw [tick_scale t hne, hr2sc, if_pos hcond]
  · intro hmem
    rw [tick_folding t hne, hr2fold] at hmem
    exact hfold l (hr1set l hmem) rfl
  · rw [tick_unfolding t hne, hr2set, if_pos hcond]
    intro hmem
    exact hrest (hexmem _ (by simpa using hmem))
  · rw [tick_scale t hne, hr2len, hr1len]
    exact hlen

/-- C6: for a line `l` with scale 1.0, after `fold_line` one call to
`update_fold_animations` sets the line's scale to exactly 0.9 and keeps it in
`folding_lines`; after 66 calls in total the scale reaches exactly 0.0 and the
line is out of both animation sets (so convergence is within the ≤ ~66 bound
of the claim). Symmetrically, for a line with scale 0.0, after `unfold_line`
66 calls make the scale exactly 1.0 and leave the line out of both sets. -/
theorem fold_unfold_convergence (s : EditorState) (l : Nat)
    (hl : l < s.scale.length) :
    (s.scale.getD l 0 = 1 →
      ((foldTicks 1 (foldLine l s)).scale.getD l 0 = 9 / 10 ∧
        l ∈ (foldTicks 1 (foldLine l s)).folding_lines) ∧
      ((foldTicks 66 (foldLine l s)).scale.getD l 0 = 0 ∧
        l ∉ (foldTicks 66 (foldLine l s)).folding_lines ∧
        l ∉ (foldTicks 66 (foldLine l s)).unfolding_lines)) ∧
    (s.scale.getD l 0 = 0 →
      (foldTicks 66 (unfoldLine l s)).scale.getD l 0 = 1 ∧
        l ∉ (foldTicks 66 (unfoldLine l s)).folding_lines ∧
        l ∉ (foldTicks 66 (unfoldLine l s)).unfolding_lines) := by
  constructor
  · intro h1
    constructor
    · obtain ⟨rest, hfold, _, hsc, _, _⟩ := foldTicks_fold_iter s l hl h1 1 (by norm_num)
      refine ⟨?_, ?_⟩
      · rw [hsc, pow_one]
      · rw [hfold]; exact List.mem_cons_self l rest
    · obtain ⟨h1', h2', h3', _⟩ := foldTicks_fold_done s l hl h1
      exact ⟨h1', h2', h3'⟩
  · intro h0
    obtain ⟨h1', h2', h3', _⟩ := foldTicks_unfold_done s l hl h0
    exact ⟨h1', h2', h3'⟩

set_option maxRecDepth 100000 in
/-- Witness for C6: scenario D on a concrete four-line session, folding and
then unfolding line 3. -/
theorem fold_unfold_convergence_witness :
    ((foldTicks 1 (foldLine 3 demoSession)).scale.getD 3 0 = 9 / 10 ∧
      3 ∈ (foldTicks 1 (foldLine 3 demoSession)).folding_lines) ∧
    ((foldTicks 66 (foldLine 3 demoSession)).scale.getD 3 0 = 0 ∧
      3 ∉ (foldTicks 66 (foldLine 3 demoSession)).folding_lines ∧
      3 ∉ (foldTicks 66 (foldLine 3 demoSession)).unfolding_lines) :=
  (fold_unfold_convergence demoSession 3 (by with_unfolding_all decide)).1
    (by with_unfolding_all decide)

/-! ### C7: the return value of `update_fold_animations` -/

/-- A session one tick away from finishing its fold animation: line 0 is
folding with scale 0.001, so the next tick snaps it to 0 and empties both
animation sets. -/
def snapSession : EditorState :=
  { demoSession with folding_lines := [0], scale := [1 / 1000, 1, 1, 1] }

set_option maxRecDepth 8000 in
/-- Claim C7 is false on the code: this call to `update_fold_animations`
leaves both animation sets empty (no further step is needed), yet it returns
`true` — the function reports whether it was in progress at entry, not
whether it still is after the step. -/
theorem fold_anim_return_counterexample :
    (updateFoldAnimations snapSession).1 = true ∧
    (updateFoldAnimations snapSession).2.folding_lines = [] ∧
    (updateFoldAnimations snapSession).2.unfolding_lines = [] := by
  with_unfolding_all decide

/-- C7 (amended): `update_fold_animations` returns `true` iff some animation
was in progress at entry. In particular the call that leaves both sets empty
still returns `true`; a call entered with both sets already empty returns
`false` and leaves the state untouched, so the caller observes `false` only
one tick after the animations finish. -/
theorem fold_anim_return_amended (s : EditorState) :
    ((updateFoldAnimations s).1 = true ↔
      ¬ (s.folding_lines = [] ∧ s.unfolding_lines = [])) ∧
    ((updateFoldAnimations s).1 = false → (updateFoldAnimations s).2 = s) := by
  by_cases h : s.folding_lines = [] ∧ s.unfolding_lines = []
  · rw [updateFoldAnimations, if_pos h]
    simp [h]
  · rw [tick_eq s h]
    simp [h]

/-- Witness for C7 (amended), at the concrete freshly opened session (both
sets empty: the call reports `false` and changes nothing). -/
theorem fold_anim_return_amended_witness :
    ((updateFoldAnimations demoSession).1 = true ↔
      ¬ (demoSession.folding_lines = [] ∧ demoSession.unfolding_lines = [])) ∧
    ((updateFoldAnimations demoSession).1 = false →
      (updateFoldAnimations demoSession).2 = demoSession) :=
  fold_anim_return_amended demoSession

/-! ### C4: the wrap step (reset value and unit decomposition) -/

/-- A wrap unit as a (column width, UTF-8 byte length) pair: text segments
carry their byte length, widgets are atomic and do not advance the inlay
byte index. -/
def unitsOfInline (tab : Nat) : Inline → List (Nat × Nat)
  | .text _ s => (splitWhitespaceBoundaries s).map fun seg => (colCount tab seg, utf8Len seg)
  | .widget w => [(w.column_count, 0)]

/-- The flattened unit sequence the `wrap_lines` loop actually walks: every
text inline (plain or inlay) split into whitespace-delimited segments,
widgets atomic. -/
def wrapUnits (tab : Nat) (inls : List Inline) : List (Nat × Nat) :=
  inls.flatMap (unitsOfInline tab)

/-- One wrap step over a unit as the source behaves: emit a soft break at the
current inlay-coordinate byte offset when the unit would overflow and the
break is new, and reset the running column count to zero. -/
def wrapUnitStepZero (maxCol : Nat) (st : WrapSt) (u : Nat × Nat) : WrapSt :=
  let next := st.column_count + u.1
  if next > maxCol ∧ st.soft_breaks.getLastD 0 ≠ st.inlay_byte_index then
    ⟨st.soft_breaks ++ [st.inlay_byte_index], st.inlay_byte_index + u.2, 0⟩
  else ⟨st.soft_breaks, st.inlay_byte_index + u.2, next⟩

/-- Per-line wrapping re-expressed over the flattened unit sequence with the
reset-to-zero step (the amended form of C4). -/
def wrapLineUnitsZero (maxCol tab : Nat) (text : List Char)
    (inlays : List (Nat × InlineInlay)) : List Nat :=
  ((wrapUnits tab (inlinesOf text inlays)).foldl (wrapUnitStepZero maxCol)
    ⟨[], 0, 0⟩).soft_breaks

/-- The unit decomposition as claim C4 words it: inlay fragments are atomic
units (this definition follows the claim's words, for comparison against the
source-derived `wrapLine`). -/
def unitsOfInlineSpecC4 (tab : Nat) : Inline → List (Nat × Nat)
  | .text false s => (splitWhitespaceBoundaries s).map fun seg => (colCount tab seg, utf8Len seg)
  | .text true s => [(colCount tab s, utf8Len s)]
  | .widget w => [(w.column_count, 0)]

/-- The wrap step as claim C4 words it: after a break, the running column
count is reset to the width of the unit just placed (this definition follows
the claim's words, for comparison against the source-derived `wrapLine`). -/
def wrapUnitStepSpecC4 (maxCol : Nat) (st : WrapSt) (u : Nat × Nat) : WrapSt :=
  let next := st.column_count + u.1
  if next > maxCol ∧ st.soft_breaks.getLastD 0 ≠ st.inlay_byte_index then
    ⟨st.soft_breaks ++ [st.inlay_byte_index], st.inlay_byte_index + u.2, u.1⟩
  else ⟨st.soft_breaks, st.inlay_byte_index + u.2, next⟩

/-- Per-line wrapping exactly as claim C4 describes it. -/
def wrapLineSpecC4 (maxCol tab : Nat) (text : List Char)
    (inlays : List (Nat × InlineInlay)) : List Nat :=
  (((inlinesOf text inlays).flatMap (unitsOfInlineSpecC4 tab)).foldl
    (wrapUnitStepSpecC4 maxCol) ⟨[], 0, 0⟩).soft_breaks

set_option maxRecDepth 8000 in
/-- Claim C4 is false on the code, on both counts. Resetting to the post-unit
width would wrap "aaaaa bbbbb" at max column 5 as [5, 6]; the code resets the
running count to zero and produces [5]. Treating an inlay fragment as an
atomic unit would wrap "dd" with the inlay "bb cc" at offset 0 and max column
3 as [5]; the code splits inlay text into whitespace segments too and
produces [3]. -/
theorem wrap_step_counterexample :
    (wrapLine 5 4 (("aaaaa bbbbb").data) [] = [5] ∧
      wrapLineSpecC4 5 4 (("aaaaa bbbbb").data) [] = [5, 6]) ∧
    (wrapLine 3 4 (("dd").data) [(0, .text (("bb cc").data))] = [3] ∧
      wrapLineSpecC4 3 4 (("dd").data) [(0, .text (("bb cc").data))] = [5]) := by
  with_unfolding_all decide

theorem wrapStepText_eq_unit (maxCol tab : Nat) (st : WrapSt) (seg : List Char) :
    wrapStepText maxCol tab st seg =
      wrapUnitStepZero maxCol st (colCount tab seg, utf8Len seg) := rfl

theorem wrapStepWidget_eq_unit (maxCol tab : Nat) (st : WrapSt) (w : InlineWidget) :
    wrapStepWidget maxCol tab st (.widget w) =
      wrapUnitStepZero maxCol st (w.column_count, 0) := by
  rw [wrapStepWidget, wrapUnitStepZero]
  simp [Inline.columnCount]

theorem foldl_wrapStepInline_eq_units (maxCol tab : Nat) :
    ∀ (inls : List Inline) (st : WrapSt),
      inls.foldl (wrapStepInline maxCol tab) st =
        (wrapUnits tab inls).foldl (wrapUnitStepZero maxCol) st
  | [], _ => rfl
  | .text b s :: rest, st => by
      rw [List.foldl_cons, foldl_wrapStepInline_eq_units maxCol tab rest]
      rw [show wrapUnits tab (.text b s :: rest) =
        ((splitWhitespaceBoundaries s).map fun seg => (colCount tab seg, utf8Len seg)) ++
          wrapUnits tab rest from rfl]
      rw [List.foldl_append, List.foldl_map]
      rfl
  | .widget w :: rest, st => by
      rw [List.foldl_cons, foldl_wrapStepInline_eq_units maxCol tab rest]
      rw [show wrapUnits tab (.widget w :: rest) =
        (w.column_count, 0) :: wrapUnits tab rest from rfl]
      rw [List.foldl_cons]
      rw [show wrapStepInline maxCol tab st (.widget w) =
        wrapStepWidget maxCol tab st (.widget w) from rfl, wrapStepWidget_eq_unit]

/-- C4 (amended): for every line and parameters, the wrap loop walks exactly
the flattened whitespace-delimited segments of every text inline (plain and
inlay fragments alike) and atomic widget units; whenever adding a unit would
exceed `max_column_count` and the candidate break offset differs from the
last recorded soft break, it emits a soft break at the current
inlay-coordinate byte offset and resets the running column count to zero
(not to the post-unit width). -/
theorem wrap_step_amended (maxCol tab : Nat) (text : List Char)
    (inlays : List (Nat × InlineInlay)) :
    wrapLine maxCol tab text inlays = wrapLineUnitsZero maxCol tab text inlays := by
  rw [wrapLine, wrapLineUnitsZero, foldl_wrapStepInline_eq_units]

/-! ### C8: idempotence of `wrap_lines` -/

theorem list_ext_getD {α : Type} (d : α) :
    ∀ (a b : List α), a.length = b.length →
      (∀ j, j < a.length → a.getD j d = b.getD j d) → a = b
  | [], [], _, _ => rfl
  | [], _ :: _, h, _ => by simp at h
  | _ :: _, [], h, _ => by simp at h
  | x :: a, y :: b, h, hj => by
      have hx : x = y := by
        have := hj 0 (Nat.succ_pos _)
        simpa using this
      have := list_ext_getD d a b (by simpa using h)
        (fun j hjl => by simpa using hj (j + 1) (by simpa using hjl))
      rw [hx, this]

theorem wrapFold_text (m t : Nat) :
    ∀ (L : List Nat) (s : EditorState),
      (L.foldl (wrapLinesStep m t) s).text = s.text ∧
      (L.foldl (wrapLinesStep m t) s).inline_inlays = s.inline_inlays
  | [], _ => ⟨rfl, rfl⟩
  | i :: L, s => by
      rw [List.foldl_cons]
      have ih := wrapFold_text m t L (wrapLinesStep m t s i)
      have hstep : (wrapLinesStep m t s i).text = s.text ∧
          (wrapLinesStep m t s i).inline_inlays = s.inline_inlays := by
        rw [wrapLinesStep]
        split <;> exact ⟨rfl, rfl⟩
      exact ⟨ih.1.trans hstep.1, ih.2.trans hstep.2⟩

/-- The soft-break component of the wrap loop is an independent fold of
`List.set`s with values computed from the (unchanged) text and inlays. -/
theorem wrapFold_breaks (m t : Nat) :
    ∀ (L : List Nat) (s : EditorState),
      (L.foldl (wrapLinesStep m t) s).soft_breaks =
        L.foldl (fun br i =>
          br.set i (wrapLine m t (s.text.getD i []) (s.inline_inlays.getD i [])))
          s.soft_breaks
  | [], _ => rfl
  | i :: L, s => by
      rw [List.foldl_cons, List.foldl_cons]
      have ih := wrapFold_breaks m t L (wrapLinesStep m t s i)
      rw [ih]
      have htext : (wrapLinesStep m t s i).text = s.text := by
        rw [wrapLinesStep]; split <;> rfl
      have hinl : (wrapLinesStep m t s i).inline_inlays = s.inline_inlays := by
        rw [wrapLinesStep]; split <;> rfl
      have hbr : (wrapLinesStep m t s i).soft_breaks =
          s.soft_breaks.set i (wrapLine m t (s.text.getD i []) (s.inline_inlays.getD i [])) := by
        rw [wrapLinesStep]; split <;> rfl
      rw [htext, hinl, hbr]

theorem setfold_length {α : Type} (v : Nat → α) :
    ∀ (L : List Nat) (b : List α),
      (L.foldl (fun br i => br.set i (v i)) b).length = b.length
  | [], _ => rfl
  | i :: L, b => by
      rw [List.foldl_cons, setfold_length v L]
      exact List.length_set ..

theorem setfold_getD {α : Type} (d : α) (v : Nat → α) :
    ∀ (L : List Nat) (b : List α) (j : Nat),
      (L.foldl (fun br i => br.set i (v i)) b).getD j d =
        if j ∈ L ∧ j < b.length then v j else b.getD j d
  | [], b, j => by simp
  | i :: L, b, j => by
      rw [List.foldl_cons, setfold_getD d v L]
      by_cases hj : j ∈ L ∧ j < (b.set i (v i)).length
      · rw [if_pos hj, if_pos ⟨List.mem_cons_of_mem _ hj.1, by simpa using hj.2⟩]
      · rw [if_neg hj]
        by_cases hji : j = i ∧ j < b.length
        · rw [hji.1] at *
          rw [if_pos ⟨List.mem_cons_self _ _, hji.2⟩]
          simp [List.getD, List.getElem?_set_self, hji.2]
        · have hlen : (b.set i (v i)).length = b.length := List.length_set ..
          by_cases hmem : j ∈ i :: L ∧ j < b.length
          · rcases List.mem_cons.1 hmem.1 with h1 | h2
            · exact absurd ⟨h1, hmem.2⟩ hji
            · exact absurd ⟨h2, hlen ▸ hmem.2⟩ hj
          · rw [if_neg hmem]
            by_cases hij : j = i
            · rcases Nat.lt_or_ge j b.length with hlt | hge
              · exact absurd ⟨hij, hlt⟩ hji
              · have hb1 : (b.set i (v i))[j]? = none :=
                  List.getElem?_eq_none (by simpa using hge)
                have hb2 : b[j]? = none := List.getElem?_eq_none hge
                simp [List.getD, hb1, hb2]
            · simp [List.getD, List.getElem?_set_ne (Ne.symm hij)]

/-- C8: running `wrap_lines` twice with identical maximum column count and
tab width leaves every line's soft-break set exactly as the first run
produced it (per-line wrapping depends only on the text and inline inlays,
which `wrap_lines` does not change). -/
theorem wrap_lines_idempotent (m t : Nat) (s : EditorState) :
    (wrapLines m t (wrapLines m t s)).soft_breaks = (wrapLines m t s).soft_breaks := by
  rw [wrapLines, wrapLines]
  rw [show ∀ u : EditorState, (updateSummedHeights u).soft_breaks = u.soft_breaks
    from fun _ => rfl]
  rw [show ∀ u : EditorState, (updateSummedHeights u).soft_breaks = u.soft_breaks
    from fun _ => rfl]
  set s1 := (List.range s.lineCount).foldl (wrapLinesStep m t) s with hs1
  have htext : (updateSummedHeights s1).text = s.text := (wrapFold_text m t _ s).1
  have hinl : (updateSummedHeights s1).inline_inlays = s.inline_inlays :=
    (wrapFold_text m t _ s).2
  have hcount : (updateSummedHeights s1).lineCount = s.lineCount := by
    rw [EditorState.lineCount, htext]; rfl
  rw [hcount, wrapFold_breaks, wrapFold_breaks, htext, hinl]
  rw [show (updateSummedHeights s1).soft_breaks = s1.soft_breaks from rfl, hs1,
    wrapFold_breaks]
  set v := fun i => wrapLine m t (s.text.getD i []) (s.inline_inlays.getD i []) with hv
  apply list_ext_getD []
  · simp only [setfold_length]
  · intro j hj
    simp only [setfold_getD, setfold_length]
    by_cases hmem : j ∈ List.range s.lineCount ∧ j < s.soft_breaks.length
    · rw [if_pos hmem, if_pos hmem]
    · rw [if_neg hmem, if_neg hmem]

/-! ### Order lemmas for `Position.ble` -/

theorem ble_refl (a : Position) : Position.ble a a = true := by
  simp [Position.ble]

theorem ble_trans {a b c : Position} (h1 : Position.ble a b = true)
    (h2 : Position.ble b c = true) : Position.ble a c = true := by
  simp only [Position.ble, Bool.or_eq_true, Bool.and_eq_true, decide_eq_true_eq] at *
  omega

theorem ble_total (a b : Position) :
    Position.ble a b = true ∨ Position.ble b a = true := by
  simp only [Position.ble, Bool.or_eq_true, Bool.and_eq_true, decide_eq_true_eq]
  omega

theorem ble_neg {a b : Position} (h : Position.ble a b = false) :
    Position.ble b a = true := by
  rcases ble_total a b with h1 | h1
  · rw [h1] at h; exact absurd h (by simp)
  · exact h1

theorem ble_asymm {a b : Position} (h : Position.ble a b = false) :
    Position.ble b a = true ∧ ¬ a = b := by
  refine ⟨ble_neg h, ?_⟩
  intro heq
  rw [heq, ble_refl] at h
  exact absurd h (by simp)

theorem start_ble_end (s : Selection) : Position.ble s.start s.end' = true := by
  rw [Selection.start, Selection.end']
  by_cases h : Position.ble s.anchor s.cursor
  · rw [if_pos h, if_pos h]; exact h
  · rw [if_neg h, if_neg h]
    exact ble_neg (Bool.of_not_eq_true h)

/-! ### C9: the re-merge step of `modify_selections` -/

/-- Concrete scenario-B state: selections spanning bytes [2,5) of line 0 and a
cursor at byte 5, with the cursor most recently added. -/
def mergeDemoSession : EditorState :=
  { demoSession with
      selections := [⟨⟨0, 2⟩, ⟨0, 5⟩, none⟩, ⟨⟨0, 5⟩, ⟨0, 5⟩, none⟩],
      last_added_selection_index := 1 }

set_option maxRecDepth 4000 in
/-- Claim C9 is false on the code: the two adjacent mergeable selections
[2,5) and [5,5) of scenario B, with the later one last-added, do not merge
into a selection spanning [2,5) — the merge writes the spanning selection and
then removes it (the loser index is the current slot), so only the last-added
cursor [5,5) survives. -/
theorem merge_winner_counterexample :
    Selection.shouldMerge ⟨⟨0, 2⟩, ⟨0, 5⟩, none⟩ ⟨⟨0, 5⟩, ⟨0, 5⟩, none⟩ = true ∧
    (modifySelections true (fun sel => sel) mergeDemoSession).selections =
      [⟨⟨0, 5⟩, ⟨0, 5⟩, none⟩] ∧
    ¬ (modifySelections true (fun sel => sel) mergeDemoSession).selections =
      [⟨⟨0, 2⟩, ⟨0, 5⟩, none⟩] := by
  with_unfolding_all decide

/-! Step equations for the re-merge loop (views of the loop body of
`mergeLoopGo`, used to reason about it symbolically). -/

def mergeWinnerIdx (i la : Nat) : Nat := if i + 1 = la then i + 1 else i

def mergeLoserIdx (i la : Nat) : Nat := if i + 1 = la then i else i + 1

/-- The merged selection the loop writes at `current_index`: the span from
the minimum start to the maximum end, oriented like the winner and carrying
its preferred column. -/
def mergedSelection (sels : List Selection) (i la : Nat) : Selection :=
  let cur := sels.getD i default
  let nxt := sels.getD (i + 1) default
  let winner := sels.getD (mergeWinnerIdx i la) default
  let first := if Position.ble cur.start nxt.start then cur.start else nxt.start
  let last := if Position.ble cur.end' nxt.end' then nxt.end' else cur.end'
  if Position.ble winner.anchor winner.cursor then ⟨first, last, winner.column_index⟩
  else ⟨last, first, winner.column_index⟩

theorem mergeLoopGo_stop : ∀ (fuel : Nat) (sels : List Selection) (i la : Nat),
    ¬ (i + 1 < sels.length) → mergeLoopGo fuel sels i la = (sels, la)
  | 0, _, _, _, _ => rfl
  | fuel + 1, sels, i, la, h => by
      rw [mergeLoopGo, if_neg h]

theorem mergeLoopGo_advance (fuel : Nat) (sels : List Selection) (i la : Nat)
    (h : i + 1 < sels.length)
    (hm : Selection.shouldMerge (sels.getD i default) (sels.getD (i + 1) default) = false) :
    mergeLoopGo (fuel + 1) sels i la = mergeLoopGo fuel sels (i + 1) la := by
  rw [mergeLoopGo, if_pos h, if_pos hm]

theorem mergeLoopGo_merge (fuel : Nat) (sels : List Selection) (i la : Nat)
    (h : i + 1 < sels.length)
    (hm : Selection.shouldMerge (sels.getD i default) (sels.getD (i + 1) default) = true) :
    mergeLoopGo (fuel + 1) sels i la =
      mergeLoopGo fuel ((sels.set i (mergedSelection sels i la)).eraseIdx (mergeLoserIdx i la))
        i (if mergeLoserIdx i la < la then la - 1 else la) := by
  rw [mergeLoopGo, if_pos h, if_neg (by rw [hm]; simp)]
  rfl

theorem modifySelections_selections (select : Bool) (f : Selection → Selection)
    (s : EditorState) :
    (modifySelections select f s).selections =
      (mergeLoopGo
        ((s.selections.map fun sel =>
          let t := f sel
          if select then t else t.resetAnchor).length + 1)
        (s.selections.map fun sel =>
          let t := f sel
          if select then t else t.resetAnchor)
        0 s.last_added_selection_index).1 := rfl

/-- C9 (amended): when a selection-set transform leaves two adjacent
selections `a` (earlier) and `b` (later) satisfying `should_merge`, the
re-merge step of `modify_selections` behaves as follows. If the last-added
selection is not `b` (index 1), the pair is replaced by one selection
spanning from `a.start` (the minimum start) to the maximum of the two ends,
with `a`'s anchor/cursor orientation and preferred column. If the last-added
selection is `b`, the freshly written merged selection is itself the one
removed (the loser slot is the current index), and `b` alone survives
unchanged — the merged span is lost. -/
theorem merge_adjacent_amended (s : EditorState) (a b : Selection)
    (hsel : s.selections = [a, b])
    (hab : Position.ble a.start b.start = true)
    (hm : Selection.shouldMerge a b = true) :
    (¬ s.last_added_selection_index = 1 →
      (modifySelections true (fun sel => sel) s).selections =
        [if Position.ble a.anchor a.cursor = true then
          ⟨a.start, if Position.ble a.end' b.end' then b.end' else a.end', a.column_index⟩
         else
          ⟨if Position.ble a.end' b.end' then b.end' else a.end', a.start, a.column_index⟩]) ∧
    (s.last_added_selection_index = 1 →
      (modifySelections true (fun sel => sel) s).selections = [b]) := by
  have hmap : (s.selections.map fun sel =>
      let t := (fun sel => sel) sel
      if true then t else t.resetAnchor) = [a, b] := by
    rw [hsel]
    rfl
  have hm' : Selection.shouldMerge (([a, b] : List Selection).getD 0 default)
      (([a, b] : List Selection).getD 1 default) = true := hm
  have hsetone : ∀ (x y z : Selection), (([x, y] : List Selection).set 0 z).eraseIdx 1 = [z] :=
    fun _ _ _ => rfl
  have hsetzero : ∀ (x y z : Selection), (([x, y] : List Selection).set 0 z).eraseIdx 0 = [y] :=
    fun _ _ _ => rfl
  constructor
  · intro hla
    have h1la : ¬ (0 + 1 = s.last_added_selection_index) := by
      intro h
      exact hla (by omega)
    rw [modifySelections_selections, hmap]
    rw [show (([a, b] : List Selection).length + 1) = 2 + 1 from rfl]
    rw [mergeLoopGo_merge 2 [a, b] 0 s.last_added_selection_index (by norm_num) hm']
    have hloser : mergeLoserIdx 0 s.last_added_selection_index = 1 := by
      rw [mergeLoserIdx, if_neg h1la]
    have hwidx : mergeWinnerIdx 0 s.last_added_selection_index = 0 := by
      rw [mergeWinnerIdx, if_neg h1la]
    have hmerged : mergedSelection [a, b] 0 s.last_added_selection_index =
        (if Position.ble a.anchor a.cursor = true then
          (⟨a.start, if Position.ble a.end' b.end' then b.end' else a.end',
            a.column_index⟩ : Selection)
         else
          ⟨if Position.ble a.end' b.end' then b.end' else a.end', a.start,
            a.column_index⟩) := by
      rw [mergedSelection, hwidx]
      simp [hab]
    rw [hloser, hsetone, mergeLoopGo_stop 2 _ 0 _ (by norm_num)]
    show [mergedSelection [a, b] 0 s.last_added_selection_index] = _
    rw [hmerged]
  · intro hla
    have h1la : (0 + 1 = s.last_added_selection_index) := by omega
    rw [modifySelections_selections, hmap]
    rw [show (([a, b] : List Selection).length + 1) = 2 + 1 from rfl]
    rw [mergeLoopGo_merge 2 [a, b] 0 s.last_added_selection_index (by norm_num) hm']
    have hloser : mergeLoserIdx 0 s.last_added_selection_index = 0 := by
      rw [mergeLoserIdx, if_pos h1la]
    rw [hloser, hsetzero, mergeLoopGo_stop 2 [b] 0 _ (by norm_num)]

/-- Witness for C9 (amended): scenario B with the earlier selection
last-added produces the spanning selection [2,5); with the later one
last-added only the cursor [5,5) survives. -/
theorem merge_adjacent_amended_witness :
    (modifySelections true (fun sel => sel)
        { mergeDemoSession with last_added_selection_index := 0 }).selections =
      [⟨⟨0, 2⟩, ⟨0, 5⟩, none⟩] ∧
    (modifySelections true (fun sel => sel) mergeDemoSession).selections =
      [⟨⟨0, 5⟩, ⟨0, 5⟩, none⟩] := by
  constructor
  · have h := (merge_adjacent_amended
      { mergeDemoSession with last_added_selection_index := 0 }
      ⟨⟨0, 2⟩, ⟨0, 5⟩, none⟩ ⟨⟨0, 5⟩, ⟨0, 5⟩, none⟩ rfl
      (by with_unfolding_all decide) (by with_unfolding_all decide)).1
      (by with_unfolding_all decide)
    rw [h]
    with_unfolding_all decide
  · exact (merge_adjacent_amended mergeDemoSession
      ⟨⟨0, 2⟩, ⟨0, 5⟩, none⟩ ⟨⟨0, 5⟩, ⟨0, 5⟩, none⟩ rfl
      (by with_unfolding_all decide) (by with_unfolding_all decide)).2 rfl

/-! ### C1: the selection-set invariant -/

/-- Adjacent selections are ordered by start. -/
def StartSorted : List Selection → Prop
  | [] => True
  | [_] => True
  | a :: b :: rest =>
      Position.ble a.start b.start = true ∧ StartSorted (b :: rest)

/-- The selection invariant of the claim: sorted by start, and no two
adjacent selections should merge. -/
def SelInv : List Selection → Prop
  | [] => True
  | [_] => True
  | a :: b :: rest =>
      Position.ble a.start b.start = true ∧ Selection.shouldMerge a b = false ∧
        SelInv (b :: rest)

instance instDecStartSorted : (l : List Selection) → Decidable (StartSorted l)
  | [] => .isTrue trivial
  | [_] => .isTrue trivial
  | _ :: _ :: _ => @instDecidableAnd _ _ _ (instDecStartSorted _)

instance instDecSelInv : (l : List Selection) → Decidable (SelInv l)
  | [] => .isTrue trivial
  | [_] => .isTrue trivial
  | _ :: _ :: _ => @instDecidableAnd _ _ _ (@instDecidableAnd _ _ _ (instDecSelInv _))

theorem ble_antisymm {a b : Position} (h1 : Position.ble a b = true)
    (h2 : Position.ble b a = true) : a = b := by
  obtain ⟨al, ab⟩ := a
  obtain ⟨bl, bb⟩ := b
  simp only [Position.ble, Bool.or_eq_true, Bool.and_eq_true, decide_eq_true_eq,
    Position.mk.injEq] at *
  omega

/-- A strict chain: `a < b ≤ c` implies `¬ c ≤ a`. -/
theorem ble_strict_chain {a b c : Position} (h1 : Position.ble a b = true)
    (hne : ¬ a = b) (h2 : Position.ble b c = true) : Position.ble c a = false := by
  obtain ⟨al, ab⟩ := a
  obtain ⟨bl, bb⟩ := b
  obtain ⟨cl, cb⟩ := c
  rw [Bool.eq_false_iff]
  simp only [Position.ble, Ne, Bool.or_eq_true, Bool.and_eq_true, decide_eq_true_eq,
    Position.mk.injEq, not_and] at *
  omega

/-- Two adjacent selections that should not merge are strictly separated, so
in particular sorted by start. -/
theorem pair_ok {x y : Selection} (h : Selection.shouldMerge x y = false) :
    Position.ble x.start y.start = true := by
  have hend : Position.ble x.end' y.start = true := ble_neg h
  exact ble_trans (start_ble_end x) hend

theorem selInv_startSorted : ∀ {l : List Selection}, SelInv l → StartSorted l
  | [], _ => trivial
  | [_], _ => trivial
  | _ :: _ :: _, h => ⟨h.1, selInv_startSorted h.2.2⟩

theorem selInv_cons {a : Selection} {l : List Selection} (h : SelInv (a :: l)) :
    SelInv l := by
  cases l with
  | nil => trivial
  | cons b rest => exact h.2.2

theorem startSorted_cons {a : Selection} {l : List Selection}
    (h : StartSorted (a :: l)) : StartSorted l := by
  cases l with
  | nil => trivial
  | cons b rest => exact h.2

theorem selInv_take : ∀ (n : Nat) {l : List Selection}, SelInv l → SelInv (l.take n)
  | 0, _, _ => trivial
  | _ + 1, [], _ => trivial
  | _ + 1, [a], _ => by
      rw [List.take_succ_cons, List.take_nil]
      trivial
  | 1, _ :: _ :: _, _ => trivial
  | n + 2, a :: b :: rest, h =>
      ⟨h.1, h.2.1, selInv_take (n + 1) h.2.2⟩

theorem selInv_drop : ∀ (n : Nat) {l : List Selection}, SelInv l → SelInv (l.drop n)
  | 0, _, h => h
  | _ + 1, [], _ => trivial
  | n + 1, _ :: _rest, h => selInv_drop n (selInv_cons h)

theorem startSorted_take : ∀ (n : Nat) {l : List Selection},
    StartSorted l → StartSorted (l.take n)
  | 0, _, _ => trivial
  | _ + 1, [], _ => trivial
  | _ + 1, [a], _ => by
      rw [List.take_succ_cons, List.take_nil]
      trivial
  | 1, _ :: _ :: _, _ => trivial
  | n + 2, a :: b :: rest, h =>
      ⟨h.1, startSorted_take (n + 1) h.2⟩

theorem startSorted_drop : ∀ (n : Nat) {l : List Selection},
    StartSorted l → StartSorted (l.drop n)
  | 0, _, h => h
  | _ + 1, [], _ => trivial
  | n + 1, _ :: _rest, h => startSorted_drop n (startSorted_cons h)

/-- Assemble the invariant for `L1 ++ x :: L2` from the invariants of the
pieces and the two junction conditions. -/
theorem selInv_append_cons : ∀ (L1 : List Selection) (x : Selection) (L2 : List Selection),
    SelInv L1 → SelInv L2 →
    (∀ p, L1.getLast? = some p → Selection.shouldMerge p x = false) →
    (∀ n, L2.head? = some n → Selection.shouldMerge x n = false) →
    SelInv (L1 ++ x :: L2)
  | [], x, L2, _, h2, _, hr => by
      cases L2 with
      | nil => trivial
      | cons n rest =>
          have hm := hr n rfl
          exact ⟨pair_ok hm, hm, h2⟩
  | [a], x, L2, _, h2, hl, hr => by
      have hm := hl a rfl
      exact ⟨pair_ok hm, hm, selInv_append_cons [] x L2 trivial h2 (by simp) hr⟩
  | a :: b :: L1, x, L2, h1, h2, hl, hr => by
      refine ⟨h1.1, h1.2.1, ?_⟩
      exact selInv_append_cons (b :: L1) x L2 h1.2.2 h2
        (fun p hp => hl p (by rw [← hp]; rfl)) hr

theorem startSorted_append_cons : ∀ (L1 : List Selection) (x : Selection) (L2 : List Selection),
    StartSorted L1 → StartSorted L2 →
    (∀ p, L1.getLast? = some p → Position.ble p.start x.start = true) →
    (∀ n, L2.head? = some n → Position.ble x.start n.start = true) →
    StartSorted (L1 ++ x :: L2)
  | [], x, L2, _, h2, _, hr => by
      cases L2 with
      | nil => trivial
      | cons n rest => exact ⟨hr n rfl, h2⟩
  | [a], x, L2, _, h2, hl, hr =>
      ⟨hl a rfl, startSorted_append_cons [] x L2 trivial h2 (by simp) hr⟩
  | a :: b :: L1, x, L2, h1, h2, hl, hr => by
      refine ⟨h1.1, ?_⟩
      exact startSorted_append_cons (b :: L1) x L2 h1.2 h2
        (fun p hp => hl p (by rw [← hp]; rfl)) hr

/-- Claim C1 is false on the code: from the freshly opened session's selection
set (the single default cursor, which satisfies the invariant), `add_cursor`
at the origin binary-searches past the existing cursor and inserts a second
identical cursor after it, leaving two adjacent selections that satisfy
`should_merge`. -/
theorem selection_invariant_counterexample :
    SelInv demoSession.selections ∧
    (addCursor Position.origin demoSession).selections.length = 2 ∧
    Selection.shouldMerge
      ((addCursor Position.origin demoSession).selections.getD 0 default)
      ((addCursor Position.origin demoSession).selections.getD 1 default) = true := by
  with_unfolding_all decide

theorem selInv_prefix {l L : List Selection} (h : l <+: L) (hL : SelInv L) : SelInv l := by
  rw [List.prefix_iff_eq_take.1 h]
  exact selInv_take _ hL

theorem selInv_suffix {l L : List Selection} (h : l <:+ L) (hL : SelInv L) : SelInv l := by
  rw [List.suffix_iff_eq_drop.1 h]
  exact selInv_drop _ hL

theorem startSorted_prefix {l L : List Selection} (h : l <+: L) (hL : StartSorted L) :
    StartSorted l := by
  rw [List.prefix_iff_eq_take.1 h]
  exact startSorted_take _ hL

theorem startSorted_suffix {l L : List Selection} (h : l <:+ L) (hL : StartSorted L) :
    StartSorted l := by
  rw [List.suffix_iff_eq_drop.1 h]
  exact startSorted_drop _ hL

/-- The left merge walk returns a suffix of its input whose head (the first
surviving previous selection) does not merge with the current one. -/
theorem mergeLeftGo_spec (cur : Selection) :
    ∀ (L : List Selection), (mergeLeftGo cur L) <:+ L ∧
      (∀ p rest, mergeLeftGo cur L = p :: rest → Selection.shouldMerge p cur = false)
  | [] => ⟨List.nil_suffix, by intro p rest h; cases h⟩
  | q :: L => by
      rw [mergeLeftGo]
      by_cases hq : Selection.shouldMerge q cur = true
      · rw [if_pos hq]
        obtain ⟨hs, hh⟩ := mergeLeftGo_spec cur L
        exact ⟨hs.trans (List.suffix_cons q L), hh⟩
      · rw [if_neg hq]
        exact ⟨List.suffix_refl _, by
          intro p rest h
          cases h
          exact Bool.of_not_eq_true hq⟩

/-- The right merge walk returns a suffix of its input whose head (the first
surviving next selection) the current selection does not merge with. -/
theorem mergeRightGo_spec (cur : Selection) :
    ∀ (L : List Selection), (mergeRightGo cur L) <:+ L ∧
      (∀ n rest, mergeRightGo cur L = n :: rest → Selection.shouldMerge cur n = false)
  | [] => ⟨List.nil_suffix, by intro n rest h; cases h⟩
  | q :: L => by
      rw [mergeRightGo]
      by_cases hq : Selection.shouldMerge cur q = true
      · rw [if_pos hq]
        obtain ⟨hs, hh⟩ := mergeRightGo_spec cur L
        exact ⟨hs.trans (List.suffix_cons q L), hh⟩
      · rw [if_neg hq]
        exact ⟨List.suffix_refl _, by
          intro n rest h
          cases h
          exact Bool.of_not_eq_true hq⟩

theorem reverse_suffix_prefix {s L : List Selection} (h : s <:+ L.reverse) :
    s.reverse <+: L := by
  obtain ⟨t, ht⟩ := h
  refine ⟨t.reverse, ?_⟩
  rw [← List.reverse_append, ht, List.reverse_reverse]

/-- `move_cursor_to` restores the selection invariant: the updated current
selection is re-inserted between the prefix of earlier selections that
survive the left merge walk and the suffix of later ones that survive the
right merge walk, and both junctions fail `should_merge` by construction. -/
theorem moveCursorTo_selInv (select : Bool) (c : Position) (s : EditorState)
    (hinv : SelInv s.selections) :
    SelInv (moveCursorTo select c s).selections := by
  rw [moveCursorTo]
  set idx := s.last_added_selection_index
  set cur0 := s.selections.getD idx default
  set cur1 : Selection := { cur0 with cursor := c }
  set cur : Selection := if select then cur1 else { cur1 with anchor := c }
  set before := (mergeLeftGo cur (s.selections.take idx).reverse).reverse with hbefore
  set after := mergeRightGo cur (s.selections.drop (idx + 1)) with hafter
  show SelInv (before ++ cur :: after)
  obtain ⟨hls, hlh⟩ := mergeLeftGo_spec cur (s.selections.take idx).reverse
  obtain ⟨hrs, hrh⟩ := mergeRightGo_spec cur (s.selections.drop (idx + 1))
  have hbpre : before <+: s.selections.take idx := by
    rw [hbefore]
    exact reverse_suffix_prefix hls
  refine selInv_append_cons before cur after ?_ ?_ ?_ ?_
  · exact selInv_prefix (hbpre.trans (List.take_prefix _ _)) hinv
  · exact selInv_suffix (hrs.trans (List.drop_suffix _ _)) hinv
  · intro p hp
    rw [hbefore, List.getLast?_reverse] at hp
    obtain ⟨rest, hrest⟩ : ∃ rest,
        mergeLeftGo cur (s.selections.take idx).reverse = p :: rest := by
      cases hcase : mergeLeftGo cur (s.selections.take idx).reverse with
      | nil => rw [hcase] at hp; cases hp
      | cons q qs =>
          rw [hcase] at hp
          cases hp
          exact ⟨qs, rfl⟩
    exact hlh p rest hrest
  · intro n hn
    obtain ⟨rest, hrest⟩ : ∃ rest,
        mergeRightGo cur (s.selections.drop (idx + 1)) = n :: rest := by
      cases hcase : mergeRightGo cur (s.selections.drop (idx + 1)) with
      | nil => rw [hafter, hcase] at hn; cases hn
      | cons q qs =>
          rw [hafter, hcase] at hn
          cases hn
          exact ⟨qs, rfl⟩
    exact hrh n rest hrest

theorem getD_eq_getElem {l : List Selection} {i : Nat} (h : i < l.length) :
    l.getD i default = l[i] := by
  simp [List.getD, List.getElem?_eq_getElem h]

theorem getD_take {l : List Selection} {i n : Nat} (h : i < n) :
    (l.take n).getD i default = l.getD i default := by
  simp [List.getD, List.getElem?_take, if_pos h]

theorem startSorted_pair :
    ∀ {l : List Selection}, StartSorted l → ∀ j, j + 1 < l.length →
      Position.ble (l.getD j default).start (l.getD (j + 1) default).start = true
  | [], _, j, h => by simp at h
  | [_], _, j, h => by simp at h
  | a :: b :: rest, h, 0, _ => h.1
  | a :: b :: rest, h, j + 1, hj =>
      startSorted_pair h.2 j (by simpa using hj)

theorem selInv_pair :
    ∀ {l : List Selection}, SelInv l → ∀ j, j + 1 < l.length →
      Selection.shouldMerge (l.getD j default) (l.getD (j + 1) default) = false
  | [], _, j, h => by simp at h
  | [_], _, j, h => by simp at h
  | a :: b :: rest, h, 0, _ => h.2.1
  | a :: b :: rest, h, j + 1, hj =>
      selInv_pair h.2.2 j (by simpa using hj)

theorem take_len_append_cons {α : Type} :
    ∀ (l1 : List α) (x : α) (l2 : List α),
      (l1 ++ x :: l2).take (l1.length + 1) = l1 ++ [x]
  | [], _, _ => rfl
  | a :: l1, x, l2 => by
      rw [List.cons_append, List.length_cons]
      rw [List.take_succ_cons, take_len_append_cons l1 x l2]
      rfl

theorem set_eraseIdx_succ :
    ∀ (sels : List Selection) (i : Nat) (M : Selection), i < sels.length →
      (sels.set i M).eraseIdx (i + 1) = sels.take i ++ M :: sels.drop (i + 2)
  | a :: rest, 0, M, _ => by
      cases rest <;> rfl
  | a :: rest, i + 1, M, h => by
      rw [List.set_cons_succ, List.eraseIdx_cons_succ,
        set_eraseIdx_succ rest i M (by simpa using h)]
      rfl

theorem set_eraseIdx_self :
    ∀ (sels : List Selection) (i : Nat) (M : Selection), i < sels.length →
      (sels.set i M).eraseIdx i = sels.take i ++ sels.drop (i + 1)
  | _ :: _, 0, _, _ => rfl
  | a :: rest, i + 1, M, h => by
      rw [List.set_cons_succ, List.eraseIdx_cons_succ,
        set_eraseIdx_self rest i M (by simpa using h)]
      rfl

theorem getLast?_take_succ {sels : List Selection} {i : Nat} (h : i < sels.length) :
    (sels.take (i + 1)).getLast? = some (sels.getD i default) := by
  rw [List.take_succ, List.getElem?_eq_getElem h]
  rw [show (some sels[i]).toList = [sels[i]] from rfl, List.getLast?_concat,
    getD_eq_getElem h]

theorem drop_succ_eq_getD_cons (sels : List Selection) (i : Nat) (h : i < sels.length) :
    sels.drop i = sels.getD i default :: sels.drop (i + 1) := by
  rw [List.drop_eq_getElem_cons h, getD_eq_getElem h]

/-- The merged selection starts at the earlier selection's start (under
sortedness of the adjacent pair), whatever its orientation. -/
theorem mergedSelection_start (sels : List Selection) (i la : Nat)
    (hs : Position.ble (sels.getD i default).start (sels.getD (i + 1) default).start = true) :
    (mergedSelection sels i la).start = (sels.getD i default).start := by
  rw [mergedSelection]
  set cur := sels.getD i default
  set nxt := sels.getD (i + 1) default
  set w := sels.getD (mergeWinnerIdx i la) default
  set first := if Position.ble cur.start nxt.start then cur.start else nxt.start with hfirst
  set last := if Position.ble cur.end' nxt.end' then nxt.end' else cur.end' with hlast
  have hfc : first = cur.start := by rw [hfirst, if_pos hs]
  have hfl : Position.ble first last = true := by
    rw [hfc, hlast]
    by_cases hce : Position.ble cur.end' nxt.end' = true
    · rw [if_pos hce]
      exact ble_trans (ble_trans (start_ble_end cur) hce) (ble_refl _)
    · rw [if_neg hce]
      exact start_ble_end cur
  by_cases hw : Position.ble w.anchor w.cursor = true
  · rw [if_pos hw]
    show Selection.start ⟨first, last, w.column_index⟩ = cur.start
    rw [Selection.start]
    show (if Position.ble first last then first else last) = cur.start
    rw [if_pos hfl, hfc]
  · rw [if_neg hw]
    show Selection.start ⟨last, first, w.column_index⟩ = cur.start
    rw [Selection.start]
    show (if Position.ble last first then last else first) = cur.start
    by_cases hlf : Position.ble last first = true
    · rw [if_pos hlf, ble_antisymm hlf hfl, hfc]
    · rw [if_neg hlf, hfc]

/-- The invariant of the re-merge loop: walking a start-sorted selection list
whose processed prefix already satisfies the selection invariant yields a
list satisfying the full invariant. -/
theorem mergeLoop_selInv :
    ∀ (fuel : Nat) (sels : List Selection) (i la : Nat),
      sels.length - i ≤ fuel →
      StartSorted sels →
      SelInv (sels.take (i + 1)) →
      SelInv (mergeLoopGo fuel sels i la).1
  | 0, sels, i, la, hfuel, _, hinv => by
      rw [mergeLoopGo]
      rw [List.take_of_length_le (by omega)] at hinv
      exact hinv
  | fuel + 1, sels, i, la, hfuel, hsort, hinv => by
      by_cases hlt : i + 1 < sels.length
      case neg =>
        rw [mergeLoopGo_stop _ _ _ _ hlt]
        rw [List.take_of_length_le (by omega)] at hinv
        exact hinv
      case pos =>
        by_cases hmf : Selection.shouldMerge (sels.getD i default)
            (sels.getD (i + 1) default) = false
        case pos =>
          rw [mergeLoopGo_advance fuel sels i la hlt hmf]
          refine mergeLoop_selInv fuel sels (i + 1) la (by omega) hsort ?_
          have htake : sels.take (i + 2) = sels.take (i + 1) ++ [sels.getD (i + 1) default] := by
            rw [List.take_succ, List.getElem?_eq_getElem hlt, getD_eq_getElem hlt]
            rfl
          rw [htake]
          have hjunction : ∀ p, (sels.take (i + 1)).getLast? = some p →
              Selection.shouldMerge p (sels.getD (i + 1) default) = false := by
            intro p hp
            rw [getLast?_take_succ (by omega)] at hp
            cases hp
            exact hmf
          have := selInv_append_cons (sels.take (i + 1)) (sels.getD (i + 1) default) []
            hinv trivial hjunction (by simp)
          simpa using this
        case neg =>
          have hm : Selection.shouldMerge (sels.getD i default)
              (sels.getD (i + 1) default) = true := by
            cases hx : Selection.shouldMerge (sels.getD i default) (sels.getD (i + 1) default)
            · exact absurd hx hmf
            · rfl
          rw [mergeLoopGo_merge fuel sels i la hlt hm]
          have hs : Position.ble (sels.getD i default).start
              (sels.getD (i + 1) default).start = true :=
            startSorted_pair hsort i hlt
          have hMstart := mergedSelection_start sels i la hs
          set M := mergedSelection sels i la with hM
          have hleftpair : ∀ j, i = j + 1 →
              Position.ble (sels.getD j default).start (sels.getD i default).start = true := by
            intro j hj
            rw [hj]
            exact startSorted_pair hsort j (by omega)
          have hleftmerge : ∀ j, i = j + 1 →
              Selection.shouldMerge (sels.getD j default) (sels.getD i default) = false := by
            intro j hj
            have := selInv_pair hinv j (by
              rw [List.length_take]
              omega)
            rw [getD_take (by omega), getD_take (by omega), ← hj] at this
            exact this
          have hinv_take_i : SelInv (sels.take i) := by
            have := selInv_take i hinv
            rw [List.take_take] at this
            rw [show min i (i + 1) = i from by omega] at this
            exact this
          have hsort_take_i : StartSorted (sels.take i) := startSorted_take i hsort
          have hlastTake : ∀ p, (sels.take i).getLast? = some p →
              ∃ j, i = j + 1 ∧ p = sels.getD j default := by
            intro p hp
            cases i with
            | zero => rw [List.take_zero] at hp; cases hp
            | succ j =>
                rw [getLast?_take_succ (by omega)] at hp
                cases hp
                exact ⟨j, rfl, rfl⟩
          by_cases hla : i + 1 = la
          case pos =>
            have hloser : mergeLoserIdx i la = i := by rw [mergeLoserIdx, if_pos hla]
            rw [hloser, set_eraseIdx_self sels i M (by omega)]
            rw [drop_succ_eq_getD_cons sels (i + 1) (by omega)]
            set sels' := sels.take i ++ sels.getD (i + 1) default :: sels.drop (i + 2) with hsels'
            have hlen' : sels'.length = sels.length - 1 := by
              rw [hsels', List.length_append, List.length_cons, List.length_take,
                List.length_drop]
              omega
            refine mergeLoop_selInv fuel sels' i _ (by omega) ?_ ?_
            · refine startSorted_append_cons _ _ _ hsort_take_i
                (startSorted_drop (i + 2) hsort) ?_ ?_
              · intro p hp
                obtain ⟨j, hj, hpj⟩ := hlastTake p hp
                rw [hpj]
                exact ble_trans (hleftpair j hj) hs
              · intro n hn
                rw [List.head?_drop] at hn
                have hbound : i + 2 < sels.length := (List.getElem?_eq_some.1 hn).1
                have hn' : n = sels.getD (i + 2) default := by
                  rw [getD_eq_getElem hbound]
                  exact ((List.getElem?_eq_some.1 hn).2).symm
                rw [hn']
                exact startSorted_pair hsort (i + 1) (by omega)
            · have htake' : sels'.take (i + 1) =
                  sels.take i ++ [sels.getD (i + 1) default] := by
                rw [hsels']
                rw [show i + 1 = (sels.take i).length + 1 from by
                  rw [List.length_take]; omega]
                exact take_len_append_cons _ _ _
              rw [htake']
              refine selInv_append_cons _ _ _ hinv_take_i trivial ?_ (by simp)
              intro p hp
              obtain ⟨j, hj, hpj⟩ := hlastTake p hp
              rw [hpj]
              have hpm := hleftmerge j hj
              have h1 : Position.ble (sels.getD i default).start
                  (sels.getD j default).end' = false := hpm
              have h2 : Position.ble (sels.getD j default).end'
                  (sels.getD i default).start = true := ble_neg h1
              have hne : ¬ (sels.getD j default).end' = (sels.getD i default).start :=
                fun he => (ble_asymm h1).2 he.symm
              exact ble_strict_chain h2 hne hs
          case neg =>
            have hloser : mergeLoserIdx i la = i + 1 := by rw [mergeLoserIdx, if_neg hla]
            rw [hloser, set_eraseIdx_succ sels i M (by omega)]
            set sels' := sels.take i ++ M :: sels.drop (i + 2) with hsels'
            have hlen' : sels'.length = sels.length - 1 := by
              rw [hsels', List.length_append, List.length_cons, List.length_take,
                List.length_drop]
              omega
            refine mergeLoop_selInv fuel sels' i _ (by omega) ?_ ?_
            · refine startSorted_append_cons _ _ _ hsort_take_i
                (startSorted_drop (i + 2) hsort) ?_ ?_
              · intro p hp
                obtain ⟨j, hj, hpj⟩ := hlastTake p hp
                rw [hpj, hMstart]
                exact hleftpair j hj
              · intro n hn
                rw [List.head?_drop] at hn
                have hbound : i + 2 < sels.length := (List.getElem?_eq_some.1 hn).1
                have hn' : n = sels.getD (i + 2) default := by
                  rw [getD_eq_getElem hbound]
                  exact ((List.getElem?_eq_some.1 hn).2).symm
                rw [hn', hMstart]
                exact ble_trans hs (startSorted_pair hsort (i + 1) (by omega))
            · have htake' : sels'.take (i + 1) = sels.take i ++ [M] := by
                rw [hsels']
                rw [show i + 1 = (sels.take i).length + 1 from by
                  rw [List.length_take]; omega]
                exact take_len_append_cons _ _ _
              rw [htake']
              refine selInv_append_cons _ _ _ hinv_take_i trivial ?_ (by simp)
              intro p hp
              obtain ⟨j, hj, hpj⟩ := hlastTake p hp
              rw [hpj]
              rw [Selection.shouldMerge, hMstart]
              exact hleftmerge j hj

theorem addCursorCmp_lt_iff {c : Position} {x : Selection} :
    addCursorCmp c x = .lt ↔ Position.ble x.end' c = true := by
  rw [addCursorCmp]
  constructor
  · intro h
    by_cases h1 : Position.ble x.end' c = true
    · exact h1
    · rw [if_neg h1] at h
      by_cases h2 : Position.ble c x.start = true
      · rw [if_pos h2] at h; cases h
      · rw [if_neg h2] at h; cases h
  · intro h
    rw [if_pos h]

theorem addCursorCmp_gt_elim {c : Position} {x : Selection}
    (h : addCursorCmp c x = .gt) :
    Position.ble x.end' c = false ∧ Position.ble c x.start = true := by
  rw [addCursorCmp] at h
  by_cases h1 : Position.ble x.end' c = true
  · rw [if_pos h1] at h; cases h
  · rw [if_neg h1] at h
    by_cases h2 : Position.ble c x.start = true
    · exact ⟨Bool.eq_false_iff.2 h1, h2⟩
    · rw [if_neg h2] at h; cases h

theorem addCursorCmp_eq_elim {c : Position} {x : Selection}
    (h : addCursorCmp c x = .eq) :
    Position.ble x.end' c = false ∧ Position.ble c x.start = false := by
  rw [addCursorCmp] at h
  by_cases h1 : Position.ble x.end' c = true
  · rw [if_pos h1] at h; cases h
  · rw [if_neg h1] at h
    by_cases h2 : Position.ble c x.start = true
    · rw [if_pos h2] at h; cases h
    · exact ⟨Bool.eq_false_iff.2 h1, Bool.eq_false_iff.2 h2⟩

/-- Separation in an invariant-satisfying set: an earlier selection ends at
or before a later one starts. -/
theorem selInv_sep {l : List Selection} (hinv : SelInv l) :
    ∀ (d j1 : Nat), j1 + d + 1 < l.length →
      Position.ble (l.getD j1 default).end' (l.getD (j1 + d + 1) default).start = true := by
  intro d
  induction d with
  | zero =>
      intro j1 h
      exact ble_neg (selInv_pair hinv j1 h)
  | succ d ih =>
      intro j1 h
      have h1 : Position.ble (l.getD j1 default).end'
          (l.getD (j1 + 1) default).start = true :=
        ble_neg (selInv_pair hinv j1 (by omega))
      have h2 : Position.ble (l.getD (j1 + 1) default).end'
          (l.getD (j1 + 1 + d + 1) default).start = true := ih (j1 + 1) (by omega)
      have h3 := ble_trans h1 (ble_trans (start_ble_end _) h2)
      rw [show j1 + 1 + d + 1 = j1 + (d + 1) + 1 from by omega] at h3
      exact h3

theorem selInv_sep' {l : List Selection} (hinv : SelInv l) {j1 j2 : Nat}
    (hj : j1 < j2) (h2 : j2 < l.length) :
    Position.ble (l.getD j1 default).end' (l.getD j2 default).start = true := by
  have := selInv_sep hinv (j2 - j1 - 1) j1 (by omega)
  rw [show j1 + (j2 - j1 - 1) + 1 = j2 from by omega] at this
  exact this

/-- Monotonicity of the `add_cursor` comparator over an invariant-satisfying
selection set. -/
theorem addCursorCmp_mono_lt {c : Position} {l : List Selection} (hinv : SelInv l)
    {j1 j2 : Nat} (hj : j1 ≤ j2) (h2 : j2 < l.length)
    (hlt : addCursorCmp c (l.getD j2 default) = .lt) :
    addCursorCmp c (l.getD j1 default) = .lt := by
  rcases Nat.eq_or_lt_of_le hj with heq | hlt'
  · rw [heq]; exact hlt
  · rw [addCursorCmp_lt_iff] at *
    exact ble_trans (selInv_sep' hinv hlt' h2) (ble_trans (start_ble_end _) hlt)

theorem addCursorCmp_mono_gt {c : Position} {l : List Selection} (hinv : SelInv l)
    {j1 j2 : Nat} (hj : j1 ≤ j2) (h2 : j2 < l.length)
    (hgt : addCursorCmp c (l.getD j1 default) = .gt) :
    addCursorCmp c (l.getD j2 default) = .gt := by
  rcases Nat.eq_or_lt_of_le hj with heq | hlt'
  · rw [← heq]; exact hgt
  · obtain ⟨h1, hstart⟩ := addCursorCmp_gt_elim hgt
    have hsep := selInv_sep' hinv hlt' h2
    have hend2 : Position.ble (l.getD j2 default).end' c = false := by
      cases hx : Position.ble (l.getD j2 default).end' c
      · rfl
      · have : Position.ble (l.getD j1 default).end' c = true :=
          ble_trans hsep (ble_trans (start_ble_end _) hx)
        rw [this] at h1
        cases h1
    have hstart2 : Position.ble c (l.getD j2 default).start = true :=
      ble_trans hstart (ble_trans (start_ble_end _) hsep)
    rw [addCursorCmp, if_neg (by rw [hend2]; simp), if_pos hstart2]

/-- The Rust `binary_search_by` invariant for a comparator that is monotone
over the list: everything left of `left` is Less, everything at or right of
`right` is Greater, and the result is a correct hit or insertion point. -/
theorem bsGo_invariant (cmp : Selection → Ordering) (xs : List Selection)
    (hmlt : ∀ j1 j2, j1 ≤ j2 → j2 < xs.length →
      cmp (xs.getD j2 default) = .lt → cmp (xs.getD j1 default) = .lt)
    (hmgt : ∀ j1 j2, j1 ≤ j2 → j2 < xs.length →
      cmp (xs.getD j1 default) = .gt → cmp (xs.getD j2 default) = .gt) :
    ∀ (fuel left right : Nat), left ≤ right → right ≤ xs.length →
      right - left ≤ fuel →
      (∀ j, j < left → cmp (xs.getD j default) = .lt) →
      (∀ j, right ≤ j → j < xs.length → cmp (xs.getD j default) = .gt) →
      (match bsGo cmp xs fuel left right with
       | .inl idx => idx < xs.length ∧ cmp (xs.getD idx default) = .eq
       | .inr idx => idx ≤ xs.length ∧
           (∀ j, j < idx → cmp (xs.getD j default) = .lt) ∧
           (∀ j, idx ≤ j → j < xs.length → cmp (xs.getD j default) = .gt))
  | 0, left, right, hlr, hrlen, hfuel, hl, hr => by
      rw [bsGo]
      have : left = right := by omega
      exact ⟨by omega, hl, fun j hj1 hj2 => hr j (by omega) hj2⟩
  | fuel + 1, left, right, hlr, hrlen, hfuel, hl, hr => by
      by_cases hlt : left < right
      case neg =>
        rw [bsGo, if_neg hlt]
        have : left = right := by omega
        exact ⟨by omega, hl, fun j hj1 hj2 => hr j (by omega) hj2⟩
      case pos =>
        have hmidlt : left + (right - left) / 2 < right := by omega
        have hmidge : left ≤ left + (right - left) / 2 := by omega
        cases hc : cmp (xs.getD (left + (right - left) / 2) default) with
        | lt =>
            rw [show bsGo cmp xs (fuel + 1) left right =
              bsGo cmp xs fuel (left + (right - left) / 2 + 1) right from by
              rw [bsGo, if_pos hlt]
              simp only [hc]]
            refine bsGo_invariant cmp xs hmlt hmgt fuel _ right (by omega) hrlen
              (by omega) ?_ hr
            intro j hj
            exact hmlt j _ (by omega) (by omega) hc
        | gt =>
            rw [show bsGo cmp xs (fuel + 1) left right =
              bsGo cmp xs fuel left (left + (right - left) / 2) from by
              rw [bsGo, if_pos hlt]
              simp only [hc]]
            refine bsGo_invariant cmp xs hmlt hmgt fuel left _ (by omega) (by omega)
              (by omega) hl ?_
            intro j hj1 hj2
            exact hmgt _ j hj1 hj2 hc
        | eq =>
            rw [show bsGo cmp xs (fuel + 1) left right =
              Sum.inl (left + (right - left) / 2) from by
              rw [bsGo, if_pos hlt]
              simp only [hc]]
            exact ⟨by omega, hc⟩

theorem fromCursor_start (c : Position) : (Selection.fromCursor c).start = c := by
  rw [Selection.fromCursor, Selection.start]
  split <;> rfl

theorem set_eq_take_cons_drop :
    ∀ (sels : List Selection) (i : Nat) (M : Selection), i < sels.length →
      sels.set i M = sels.take i ++ M :: sels.drop (i + 1)
  | _ :: _, 0, _, _ => rfl
  | a :: rest, i + 1, M, h => by
      rw [List.set_cons_succ, set_eq_take_cons_drop rest i M (by simpa using h)]
      rfl

/-- `add_cursor` on an invariant-satisfying selection set keeps the set
sorted by start (though not necessarily merge-free: the new cursor can touch
a neighboring selection's boundary). -/
theorem addCursor_startSorted (c : Position) (s : EditorState)
    (hinv : SelInv s.selections) :
    StartSorted (addCursor c s).selections := by
  have hsorted : StartSorted s.selections := selInv_startSorted hinv
  have hbs := bsGo_invariant (addCursorCmp c) s.selections
    (fun j1 j2 hj h2 => addCursorCmp_mono_lt hinv hj h2)
    (fun j1 j2 hj h2 => addCursorCmp_mono_gt hinv hj h2)
    (s.selections.length + 1) 0 s.selections.length (by omega) (le_refl _)
    (by omega) (by omega) (by omega)
  rw [addCursor]
  cases hsearch : binarySearchBy (addCursorCmp c) s.selections with
  | inl idx =>
      rw [binarySearchBy] at hsearch
      rw [hsearch] at hbs
      obtain ⟨hidx, heq⟩ := hbs
      obtain ⟨hend, hstart⟩ := addCursorCmp_eq_elim heq
      show StartSorted (s.selections.set idx (Selection.fromCursor c))
      rw [set_eq_take_cons_drop s.selections idx _ hidx]
      refine startSorted_append_cons _ _ _ (startSorted_take idx hsorted)
        (startSorted_drop (idx + 1) hsorted) ?_ ?_
      · intro p hp
        cases idx with
        | zero => rw [List.take_zero] at hp; cases hp
        | succ j =>
            rw [getLast?_take_succ (by omega)] at hp
            cases hp
            rw [fromCursor_start]
            have hpair : Position.ble (s.selections.getD j default).end'
                (s.selections.getD (j + 1) default).start = true :=
              ble_neg (selInv_pair hinv j hidx)
            have hc : Position.ble (s.selections.getD (j + 1) default).start c = true :=
              ble_neg hstart
            exact ble_trans (start_ble_end _) (ble_trans hpair hc)
      · intro n hn
        rw [List.head?_drop] at hn
        have hbound : idx + 1 < s.selections.length := (List.getElem?_eq_some.1 hn).1
        have hn' : n = s.selections.getD (idx + 1) default := by
          rw [getD_eq_getElem hbound]
          exact ((List.getElem?_eq_some.1 hn).2).symm
        rw [hn', fromCursor_start]
        have h1 : Position.ble c (s.selections.getD idx default).end' = true :=
          ble_neg hend
        have h2 : Position.ble (s.selections.getD idx default).end'
            (s.selections.getD (idx + 1) default).start = true :=
          ble_neg (selInv_pair hinv idx hbound)
        exact ble_trans h1 h2
  | inr idx =>
      rw [binarySearchBy] at hsearch
      rw [hsearch] at hbs
      obtain ⟨hidx, hlts, hgts⟩ := hbs
      show StartSorted (listInsertIdx idx (Selection.fromCursor c) s.selections)
      rw [listInsertIdx]
      refine startSorted_append_cons _ _ _ (startSorted_take idx hsorted)
        (startSorted_drop idx hsorted) ?_ ?_
      · intro p hp
        cases idx with
        | zero => rw [List.take_zero] at hp; cases hp
        | succ j =>
            rw [getLast?_take_succ (by omega)] at hp
            cases hp
            rw [fromCursor_start]
            have hj := hlts j (by omega)
            rw [addCursorCmp_lt_iff] at hj
            exact ble_trans (start_ble_end _) hj
      · intro n hn
        rw [List.head?_drop] at hn
        have hbound : idx < s.selections.length := (List.getElem?_eq_some.1 hn).1
        have hn' : n = s.selections.getD idx default := by
          rw [getD_eq_getElem hbound]
          exact ((List.getElem?_eq_some.1 hn).2).symm
        rw [hn', fromCursor_start]
        exact (addCursorCmp_gt_elim (hgts idx (le_refl _) hbound)).2

theorem selInv_short : ∀ (l : List Selection), l.length ≤ 1 → SelInv l
  | [], _ => trivial
  | [_], _ => trivial
  | _ :: _ :: _, h => by simp at h

/-- C1 (amended): the per-operation preservation of the selection invariant
(sorted by start, no two adjacent selections satisfying `should_merge`)
holds for the cursor-placement and movement operations, with one exception:
`set_cursor` establishes the invariant outright; `move_cursor_to` preserves
it; the `modify_selections` path used by the directional movement operations
restores it whenever the per-selection transform leaves the selection starts
sorted (which the source asserts); and `add_cursor` preserves sortedness of
starts but — as the counterexample shows — can leave one adjacent pair
satisfying `should_merge` when the new cursor touches an existing
selection's boundary. -/
theorem selection_invariant_amended :
    (∀ (c : Position) (s : EditorState), SelInv (setCursor c s).selections) ∧
    (∀ (select : Bool) (c : Position) (s : EditorState), SelInv s.selections →
      SelInv (moveCursorTo select c s).selections) ∧
    (∀ (select : Bool) (f : Selection → Selection) (s : EditorState),
      StartSorted (s.selections.map fun sel =>
        let t := f sel
        if select then t else t.resetAnchor) →
      SelInv (modifySelections select f s).selections) ∧
    (∀ (c : Position) (s : EditorState), SelInv s.selections →
      StartSorted (addCursor c s).selections) := by
  refine ⟨?_, ?_, ?_, ?_⟩
  · intro c s
    trivial
  · exact fun select c s h => moveCursorTo_selInv select c s h
  · intro select f s hsort
    rw [modifySelections_selections]
    refine mergeLoop_selInv _ _ 0 _ (by omega) hsort ?_
    refine selInv_short _ ?_
    rw [List.length_take]
    omega
  · exact fun c s h => addCursor_startSorted c s h

/-- Witness for C1 (amended), on the concrete freshly opened session. -/
theorem selection_invariant_amended_witness :
    SelInv (setCursor ⟨0, 2⟩ demoSession).selections ∧
    SelInv (moveCursorTo false ⟨1, 0⟩ demoSession).selections ∧
    SelInv (modifySelections false (fun sel => sel) demoSession).selections ∧
    StartSorted (addCursor ⟨2, 0⟩ demoSession).selections :=
  ⟨selection_invariant_amended.1 ⟨0, 2⟩ demoSession,
   selection_invariant_amended.2.1 false ⟨1, 0⟩ demoSession (by with_unfolding_all decide),
   selection_invariant_amended.2.2.1 false (fun sel => sel) demoSession
     (by with_unfolding_all decide),
   selection_invariant_amended.2.2.2 ⟨2, 0⟩ demoSession (by with_unfolding_all decide)⟩

/-! ### C5: diff-driven structural repair -/

/-- All four per-line arrays have the given length. -/
def ArraysLen (s : EditorState) (n : Nat) : Prop :=
  s.inline_inlays.length = n ∧ s.soft_breaks.length = n ∧
    s.fold_column_index.length = n ∧ s.scale.length = n

theorem eraseSeg_length {α : Type} (l : List α) (a b : Nat)
    (hab : a ≤ b) (hb : b ≤ l.length) :
    (l.take a ++ l.drop b).length = l.length - (b - a) := by
  rw [List.length_append, List.length_take, List.length_drop]
  omega

theorem getD_append_left {α : Type} (d : α) (l1 l2 : List α) (j : Nat)
    (h : j < l1.length) : (l1 ++ l2).getD j d = l1.getD j d := by
  simp [List.getD, List.getElem?_append_left h]

theorem getD_append_right {α : Type} (d : α) (l1 l2 : List α) (j : Nat)
    (h : l1.length ≤ j) : (l1 ++ l2).getD j d = l2.getD (j - l1.length) d := by
  simp [List.getD, List.getElem?_append_right h]

theorem getD_drop {α : Type} (d : α) (l : List α) (b j : Nat) :
    (l.drop b).getD j d = l.getD (b + j) d := by
  simp [List.getD, List.getElem?_drop]

theorem getD_take_lt {α : Type} (d : α) (l : List α) (a j : Nat) (hj : j < a) :
    (l.take a).getD j d = l.getD j d := by
  simp [List.getD, List.getElem?_take, hj]

theorem eraseSeg_getD_lt {α : Type} (d : α) (l : List α) (a b j : Nat)
    (hj : j < a) (ha : a ≤ l.length) :
    (l.take a ++ l.drop b).getD j d = l.getD j d := by
  rw [getD_append_left d _ _ j (by rw [List.length_take]; omega)]
  exact getD_take_lt d l a j hj

theorem eraseSeg_getD_ge {α : Type} (d : α) (l : List α) (a b j : Nat)
    (hj : a ≤ j) (hab : a ≤ b) (ha : a ≤ l.length) :
    (l.take a ++ l.drop b).getD j d = l.getD (j + (b - a)) d := by
  rw [getD_append_right d _ _ j (by rw [List.length_take]; omega)]
  rw [List.length_take, getD_drop]
  congr 1
  omega

theorem splice_length {α : Type} (l mid : List α) (a : Nat) (ha : a ≤ l.length) :
    (l.take a ++ mid ++ l.drop a).length = l.length + mid.length := by
  rw [List.length_append, List.length_append, List.length_take, List.length_drop]
  omega

theorem splice_getD_lt {α : Type} (d : α) (l mid : List α) (a j : Nat)
    (hj : j < a) (ha : a ≤ l.length) :
    (l.take a ++ mid ++ l.drop a).getD j d = l.getD j d := by
  rw [List.append_assoc]
  rw [getD_append_left d _ _ j (by rw [List.length_take]; omega)]
  exact getD_take_lt d l a j hj

theorem splice_getD_mid {α : Type} (d : α) (l mid : List α) (a j : Nat)
    (hj1 : a ≤ j) (hj2 : j < a + mid.length) (ha : a ≤ l.length) :
    (l.take a ++ mid ++ l.drop a).getD j d = mid.getD (j - a) d := by
  rw [List.append_assoc]
  rw [getD_append_right d _ _ j (by rw [List.length_take]; omega)]
  rw [List.length_take]
  rw [getD_append_left d _ _ _ (by omega)]
  congr 1
  omega

theorem splice_getD_ge {α : Type} (d : α) (l mid : List α) (a j : Nat)
    (hj : a + mid.length ≤ j) (ha : a ≤ l.length) :
    (l.take a ++ mid ++ l.drop a).getD j d = l.getD (j - mid.length) d := by
  rw [List.append_assoc]
  rw [getD_append_right d _ _ j (by rw [List.length_take]; omega)]
  rw [List.length_take]
  rw [getD_append_right d _ _ _ (by omega)]
  rw [getD_drop]
  congr 1
  omega

theorem getD_replicate_lt {α : Type} (d x : α) (L j : Nat) (hj : j < L) :
    (List.replicate L x).getD j d = x := by
  simp [List.getD, List.getElem?_replicate, hj]

/-- Scenario C base state: four lines with distinct per-line data and a fully
maintained height cache (scales 1, 1/2, 1/4, 1/8 with 1, 2, 3, 1 rows give the
cumulative heights 1, 2, 11/4, 23/8). -/
def deleteDemoState : EditorState :=
  { text := [("ab").data, ("cd").data, ("ef").data, ("gh").data]
    inline_inlays := [[], [(1, .text ("x").data)], [], []]
    soft_breaks := [[], [1], [1, 2], []]
    fold_column_index := [0, 1, 2, 3]
    scale := [1, 1/2, 1/4, 1/8]
    block_inlays := []
    summed_heights := [1, 2, 11/4, 23/8]
    selections := [default]
    last_added_selection_index := 0
    folding_lines := []
    unfolding_lines := [] }

/-- Scenario C diff: retain line 0 (through byte 2), then delete the two-line
span starting at line 1. -/
def deleteDemoDiff : List DiffOp := [.retain ⟨0, 2⟩, .delete ⟨2, 6⟩]

/-- Scenario C state after the text swap, before structural repair. -/
def deleteDemoPost : EditorState :=
  { deleteDemoState with text := [("ab").data, ("gh").data] }

/-- Scenario C final state: structural repair plus suffix recomputation. -/
def deleteDemoEdited : EditorState := updateAfterModifyText deleteDemoDiff deleteDemoPost

instance instDecidableArraysLen (s : EditorState) (n : Nat) : Decidable (ArraysLen s n) := by
  unfold ArraysLen
  infer_instance

/-- C5: the structural-repair pass walks the diff with a running position.
Retain only advances the position. Delete removes the line span
`[pos.line+1, pos.line+1+L)` from all four per-line arrays (entries below the
span unchanged, entries above shifted down by `L`) and truncates
`summed_heights` to the deletion start `pos.line+1`. Insert splices `L` fresh
default entries (no inlays, no soft breaks, fold column 0, scale 1) at line
`pos.line+1` (entries below unchanged, entries above shifted up by `L`) and
truncates `summed_heights` to `pos.line`, the line of the running position.
In particular (Scenario C), on a maintained four-line session, deleting the
two-line span starting at line 1 removes the per-line entries for lines 1 and
2, truncates the height cache to its first entry, and the subsequent suffix
recomputation agrees with a from-scratch walk. -/
theorem structural_repair :
    (∀ (s : EditorState) (p : Position) (len : Size),
      repairStep (s, p) (.retain len) = (s, p.add len)) ∧
    (∀ (s : EditorState) (p : Position) (len : Size) (n : Nat),
      ArraysLen s n → p.line_index + 1 + len.line_count ≤ n →
      (repairStep (s, p) (.delete len)).2 = p ∧
      ArraysLen (repairStep (s, p) (.delete len)).1 (n - len.line_count) ∧
      (repairStep (s, p) (.delete len)).1.summed_heights =
        s.summed_heights.take (p.line_index + 1) ∧
      (∀ j, j < p.line_index + 1 →
        (repairStep (s, p) (.delete len)).1.inline_inlays.getD j [] =
          s.inline_inlays.getD j [] ∧
        (repairStep (s, p) (.delete len)).1.soft_breaks.getD j [] =
          s.soft_breaks.getD j [] ∧
        (repairStep (s, p) (.delete len)).1.fold_column_index.getD j 0 =
          s.fold_column_index.getD j 0 ∧
        (repairStep (s, p) (.delete len)).1.scale.getD j 1 = s.scale.getD j 1) ∧
      (∀ j, p.line_index + 1 ≤ j →
        (repairStep (s, p) (.delete len)).1.inline_inlays.getD j [] =
          s.inline_inlays.getD (j + len.line_count) [] ∧
        (repairStep (s, p) (.delete len)).1.soft_breaks.getD j [] =
          s.soft_breaks.getD (j + len.line_count) [] ∧
        (repairStep (s, p) (.delete len)).1.fold_column_index.getD j 0 =
          s.fold_column_index.getD (j + len.line_count) 0 ∧
        (repairStep (s, p) (.delete len)).1.scale.getD j 1 =
          s.scale.getD (j + len.line_count) 1)) ∧
    (∀ (s : EditorState) (p : Position) (len : Size) (n : Nat),
      ArraysLen s n → p.line_index + 1 ≤ n →
      (repairStep (s, p) (.insert len)).2 = p ∧
      ArraysLen (repairStep (s, p) (.insert len)).1 (n + len.line_count) ∧
      (repairStep (s, p) (.insert len)).1.summed_heights =
        s.summed_heights.take p.line_index ∧
      (∀ j, j < p.line_index + 1 →
        (repairStep (s, p) (.insert len)).1.inline_inlays.getD j [] =
          s.inline_inlays.getD j [] ∧
        (repairStep (s, p) (.insert len)).1.soft_breaks.getD j [] =
          s.soft_breaks.getD j [] ∧
        (repairStep (s, p) (.insert len)).1.fold_column_index.getD j 0 =
          s.fold_column_index.getD j 0 ∧
        (repairStep (s, p) (.insert len)).1.scale.getD j 1 = s.scale.getD j 1) ∧
      (∀ j, p.line_index + 1 ≤ j → j < p.line_index + 1 + len.line_count →
        (repairStep (s, p) (.insert len)).1.inline_inlays.getD j [] = [] ∧
        (repairStep (s, p) (.insert len)).1.soft_breaks.getD j [] = [] ∧
        (repairStep (s, p) (.insert len)).1.fold_column_index.getD j 0 = 0 ∧
        (repairStep (s, p) (.insert len)).1.scale.getD j 1 = 1) ∧
      (∀ j, p.line_index + 1 + len.line_count ≤ j →
        (repairStep (s, p) (.insert len)).1.inline_inlays.getD j [] =
          s.inline_inlays.getD (j - len.line_count) [] ∧
        (repairStep (s, p) (.insert len)).1.soft_breaks.getD j [] =
          s.soft_breaks.getD (j - len.line_count) [] ∧
        (repairStep (s, p) (.insert len)).1.fold_column_index.getD j 0 =
          s.fold_column_index.getD (j - len.line_count) 0 ∧
        (repairStep (s, p) (.insert len)).1.scale.getD j 1 =
          s.scale.getD (j - len.line_count) 1)) ∧
    (deleteDemoState.summed_heights = summedFromScratch deleteDemoState ∧
      (repairOps deleteDemoDiff deleteDemoPost).inline_inlays = [[], []] ∧
      (repairOps deleteDemoDiff deleteDemoPost).soft_breaks = [[], []] ∧
      (repairOps deleteDemoDiff deleteDemoPost).fold_column_index = [0, 3] ∧
      (repairOps deleteDemoDiff deleteDemoPost).scale = [1, 1/8] ∧
      (repairOps deleteDemoDiff deleteDemoPost).summed_heights =
        deleteDemoState.summed_heights.take 1 ∧
      deleteDemoEdited.summed_heights = [1, 9/8] ∧
      deleteDemoEdited.summed_heights = summedFromScratch deleteDemoEdited) := by
  refine ⟨fun s p len => rfl, ?_, ?_, ?_⟩
  · intro s p len n hlen hb
    obtain ⟨h1, h2, h3, h4⟩ := hlen
    have key : ∀ {α : Type} (d : α) (l : List α), l.length = n →
        (l.take (p.line_index + 1) ++
            l.drop (p.line_index + 1 + len.line_count)).length = n - len.line_count ∧
        (∀ j, j < p.line_index + 1 →
          (l.take (p.line_index + 1) ++
            l.drop (p.line_index + 1 + len.line_count)).getD j d = l.getD j d) ∧
        (∀ j, p.line_index + 1 ≤ j →
          (l.take (p.line_index + 1) ++
            l.drop (p.line_index + 1 + len.line_count)).getD j d =
            l.getD (j + len.line_count) d) := by
      intro α d l hl
      refine ⟨?_, ?_, ?_⟩
      · rw [eraseSeg_length l _ _ (by omega) (by omega)]
        omega
      · intro j hj
        exact eraseSeg_getD_lt d l _ _ j hj (by omega)
      · intro j hj
        rw [eraseSeg_getD_ge d l _ _ j hj (by omega) (by omega)]
        congr 1
        omega
    have k1 := key [] s.inline_inlays h1
    have k2 := key [] s.soft_breaks h2
    have k3 := key 0 s.fold_column_index h3
    have k4 := key 1 s.scale h4
    refine ⟨rfl, ⟨k1.1, k2.1, k3.1, k4.1⟩, rfl, ?_, ?_⟩
    · intro j hj
      exact ⟨k1.2.1 j hj, k2.2.1 j hj, k3.2.1 j hj, k4.2.1 j hj⟩
    · intro j hj
      exact ⟨k1.2.2 j hj, k2.2.2 j hj, k3.2.2 j hj, k4.2.2 j hj⟩
  · intro s p len n hlen hb
    obtain ⟨h1, h2, h3, h4⟩ := hlen
    have key : ∀ {α : Type} (d x : α) (l : List α), l.length = n →
        (l.take (p.line_index + 1) ++ List.replicate len.line_count x ++
            l.drop (p.line_index + 1)).length = n + len.line_count ∧
        (∀ j, j < p.line_index + 1 →
          (l.take (p.line_index + 1) ++ List.replicate len.line_count x ++
            l.drop (p.line_index + 1)).getD j d = l.getD j d) ∧
        (∀ j, p.line_index + 1 ≤ j → j < p.line_index + 1 + len.line_count →
          (l.take (p.line_index + 1) ++ List.replicate len.line_count x ++
            l.drop (p.line_index + 1)).getD j d = x) ∧
        (∀ j, p.line_index + 1 + len.line_count ≤ j →
          (l.take (p.line_index + 1) ++ List.replicate len.line_count x ++
            l.drop (p.line_index + 1)).getD j d = l.getD (j - len.line_count) d) := by
      intro α d x l hl
      refine ⟨?_, ?_, ?_, ?_⟩
      · rw [splice_length l _ _ (by omega), List.length_replicate]
        omega
      · intro j hj
        exact splice_getD_lt d l _ _ j hj (by omega)
      · intro j hj1 hj2
        rw [splice_getD_mid d l _ _ j (by omega)
            (by rw [List.length_replicate]; omega) (by omega)]
        exact getD_replicate_lt d x _ _ (by omega)
      · intro j hj
        rw [splice_getD_ge d l _ _ j (by rw [List.length_replicate]; omega) (by omega)]
        rw [List.length_replicate]
    have k1 := key [] [] s.inline_inlays h1
    have k2 := key [] [] s.soft_breaks h2
    have k3 := key 0 0 s.fold_column_index h3
    have k4 := key 1 1 s.scale h4
    refine ⟨rfl, ⟨k1.1, k2.1, k3.1, k4.1⟩, rfl, ?_, ?_, ?_⟩
    · intro j hj
      exact ⟨k1.2.1 j hj, k2.2.1 j hj, k3.2.1 j hj, k4.2.1 j hj⟩
    · intro j hj1 hj2
      exact ⟨k1.2.2.1 j hj1 hj2, k2.2.2.1 j hj1 hj2, k3.2.2.1 j hj1 hj2,
        k4.2.2.1 j hj1 hj2⟩
    · intro j hj
      exact ⟨k1.2.2.2 j hj, k2.2.2.2 j hj, k3.2.2.2 j hj, k4.2.2.2 j hj⟩
  · set_option maxRecDepth 10000 in with_unfolding_all decide

/-- Witness for C5: the delete conjunct applied to the Scenario C state at the
concrete diff position, with its bounds hypotheses discharged. -/
theorem structural_repair_witness :
    ArraysLen deleteDemoPost 4 ∧ (0 : Nat) + 1 + 2 ≤ 4 ∧
    (repairStep (deleteDemoPost, ⟨0, 2⟩) (.delete ⟨2, 6⟩)).1.scale.getD 1 1 =
      deleteDemoPost.scale.getD 3 1 :=
  ⟨by with_unfolding_all decide, by decide,
    ((structural_repair.2.1 deleteDemoPost ⟨0, 2⟩ ⟨2, 6⟩ 4 (by with_unfolding_all decide)
        (by decide)).2.2.2.2 1 (by decide)).2.2.2⟩

/-! ### C2 and C10: soundness and population of the height cache -/

/-- Running cumulative sums of a list of heights (the accumulation pattern of
`update_summed_heights` restricted to non-inlay line blocks). -/
def cumSums : List ℚ → ℚ → List ℚ
  | [], _ => []
  | h :: hs, acc => (acc + h) :: cumSums hs (acc + h)

/-- The heights of the document lines as determined by the per-line arrays
alone: `Line::height` is `scale * row_count` and consults neither the text nor
the inlays. -/
def lineHeights (bs : List (List Nat)) (ds : List ℚ) : List ℚ :=
  (bs.zip ds).map fun p => p.2 * ((p.1.length : ℚ) + 1)

/-- All scales of a state are nonnegative. -/
def ScaleNonNeg (s : EditorState) : Prop := ∀ q ∈ s.scale, 0 ≤ q

/-- The height-cache invariant at operation boundaries: no block inlays (the
verified operations never create any), per-line arrays in lockstep with the
text, nonnegative scales, and a cache equal to the from-scratch cumulative
sums. -/
def HeightInv (s : EditorState) : Prop :=
  s.block_inlays = [] ∧ ArraysLen s s.lineCount ∧ ScaleNonNeg s ∧
    s.summed_heights = cumSums (s.linesAll.map LineData.height) 0

/-- The weaker invariant holding between the truncating phases of an operation
and its final `update_summed_heights` call: the cache is a prefix of the
from-scratch sums. -/
def PreInv (s : EditorState) : Prop :=
  s.block_inlays = [] ∧ ScaleNonNeg s ∧
    List.IsPrefix s.summed_heights (cumSums (s.linesAll.map LineData.height) 0)

theorem cumSums_length : ∀ (hs : List ℚ) (acc : ℚ), (cumSums hs acc).length = hs.length
  | [], _ => rfl
  | h :: hs, acc => by simp [cumSums, cumSums_length hs]

theorem cumSums_take : ∀ (hs : List ℚ) (i : Nat) (acc : ℚ),
    (cumSums hs acc).take i = cumSums (hs.take i) acc
  | [], i, acc => by simp [cumSums]
  | h :: hs, 0, acc => rfl
  | h :: hs, i + 1, acc => by
      simp only [cumSums, List.take_succ_cons]
      rw [cumSums_take hs i]

theorem cumSums_split : ∀ (hs : List ℚ) (k : Nat) (acc : ℚ), k ≤ hs.length →
    cumSums hs acc = (cumSums hs acc).take k ++
      cumSums (hs.drop k) (((cumSums hs acc).take k).getLastD acc)
  | hs, 0, acc, _ => by simp
  | [], k + 1, acc, hk => absurd hk (by simp)
  | h :: hs, k + 1, acc, hk => by
      simp only [cumSums, List.take_succ_cons, List.drop_succ_cons, List.getLastD_cons,
        List.cons_append]
      rw [← cumSums_split hs k (acc + h) (by simpa using hk)]

/-- Truncating a cache that was a prefix of the cumulative sums to a point
below which the heights are unchanged yields a prefix of the new sums. -/
theorem cumSums_prefix_trunc (hs hs' old : List ℚ) (i : Nat)
    (hagree : hs.take i = hs'.take i)
    (hp : List.IsPrefix old (cumSums hs 0)) :
    List.IsPrefix (old.take i) (cumSums hs' 0) := by
  have hs0 : old = (cumSums hs 0).take old.length := List.prefix_iff_eq_take.1 hp
  have h1 : old.take i = (cumSums hs 0).take (min i old.length) := by
    conv_lhs => rw [hs0]
    rw [List.take_take]
  have h2 : hs.take (min i old.length) = hs'.take (min i old.length) := by
    have e1 : hs.take (min i old.length) = (hs.take i).take (min i old.length) := by
      rw [List.take_take]
      congr 1
      omega
    have e2 : hs'.take (min i old.length) = (hs'.take i).take (min i old.length) := by
      rw [List.take_take]
      congr 1
      omega
    rw [e1, e2, hagree]
  rw [h1, cumSums_take, h2, ← cumSums_take]
  exact List.take_prefix _ _

theorem blocksGo_nil : ∀ (ls : List LineData) (idx : Nat),
    blocksGo [] ls idx = ls.map (Block.line false)
  | [], _ => rfl
  | l :: ls, idx => by
      simp only [blocksGo, List.takeWhile_nil, List.dropWhile_nil, List.map_nil,
        List.nil_append, List.map_cons]
      rw [blocksGo_nil ls]

theorem heightsGo_map_line : ∀ (ls : List LineData) (acc : ℚ),
    heightsGo (ls.map (Block.line false)) acc = cumSums (ls.map LineData.height) acc
  | [], _ => rfl
  | l :: ls, acc => by
      simp only [List.map_cons, heightsGo, cumSums, Block.height]
      rw [heightsGo_map_line ls]

theorem linesZip_length :
    ∀ (ts : List (List Char)) (as : List (List (Nat × InlineInlay)))
      (bs : List (List Nat)) (cs : List Nat) (ds : List ℚ),
      (linesZip ts as bs cs ds).length =
        min ts.length (min as.length (min bs.length (min cs.length ds.length)))
  | [], as, bs, cs, ds => by simp [linesZip]
  | t :: ts, [], bs, cs, ds => by simp [linesZip]
  | t :: ts, a :: as, [], cs, ds => by simp [linesZip]
  | t :: ts, a :: as, b :: bs, [], ds => by simp [linesZip]
  | t :: ts, a :: as, b :: bs, c :: cs, [] => by simp [linesZip]
  | t :: ts, a :: as, b :: bs, c :: cs, d :: ds => by
      simp only [linesZip, List.length_cons, linesZip_length ts as bs cs ds]
      omega

theorem linesZip_getD :
    ∀ (ts : List (List Char)) (as : List (List (Nat × InlineInlay)))
      (bs : List (List Nat)) (cs : List Nat) (ds : List ℚ) (j : Nat),
      j < (linesZip ts as bs cs ds).length →
      (linesZip ts as bs cs ds).getD j default =
        ⟨ts.getD j [], as.getD j [], bs.getD j [], cs.getD j 0, ds.getD j 1⟩
  | t :: ts, a :: as, b :: bs, c :: cs, d :: ds, 0, _ => rfl
  | t :: ts, a :: as, b :: bs, c :: cs, d :: ds, j + 1, hj => by
      simp only [linesZip, List.length_cons] at hj
      have ih := linesZip_getD ts as bs cs ds j (by omega)
      simpa [linesZip, List.getD_cons_succ] using ih
  | [], as, bs, cs, ds, j, hj => by simp [linesZip] at hj
  | t :: ts, [], bs, cs, ds, j, hj => by simp [linesZip] at hj
  | t :: ts, a :: as, [], cs, ds, j, hj => by simp [linesZip] at hj
  | t :: ts, a :: as, b :: bs, [], ds, j, hj => by simp [linesZip] at hj
  | t :: ts, a :: as, b :: bs, c :: cs, [], j, hj => by simp [linesZip] at hj

theorem getD_map_in {α β : Type} (f : α → β) (l : List α) (j : Nat) (db : β) (da : α)
    (hj : j < l.length) : (l.map f).getD j db = f (l.getD j da) := by
  simp [List.getD, List.getElem?_map, List.getElem?_eq_getElem hj]

theorem zip_getD :
    ∀ {α β : Type} (l : List α) (l' : List β) (j : Nat) (d : α) (d' : β),
      j < l.length → j < l'.length →
      (l.zip l').getD j (d, d') = (l.getD j d, l'.getD j d')
  | _, _, [], _, _, _, _, h, _ => absurd h (Nat.not_lt_zero _)
  | _, _, _ :: _, [], _, _, _, _, h => absurd h (Nat.not_lt_zero _)
  | _, _, x :: l, y :: l', 0, d, d', _, _ => rfl
  | _, _, x :: l, y :: l', j + 1, d, d', h, h' => by
      simp only [List.zip_cons_cons, List.getD_cons_succ]
      exact zip_getD l l' j d d' (by simpa using h) (by simpa using h')

theorem lineHeights_length (bs : List (List Nat)) (ds : List ℚ) :
    (lineHeights bs ds).length = min bs.length ds.length := by
  simp [lineHeights]

theorem lineHeights_getD (bs : List (List Nat)) (ds : List ℚ) (j : Nat)
    (hj : j < bs.length) (hj' : j < ds.length) :
    (lineHeights bs ds).getD j 0 =
      ds.getD j 1 * (((bs.getD j []).length : ℚ) + 1) := by
  unfold lineHeights
  rw [getD_map_in _ _ _ _ ([], 1) (by simp [List.length_zip]; omega)]
  rw [zip_getD bs ds j [] 1 hj hj']

/-- In a lockstep state the line heights of the composed lines coincide with
the heights determined by the soft-break and scale arrays alone. -/
theorem linesAll_map_height (s : EditorState) (h : ArraysLen s s.lineCount) :
    s.linesAll.map LineData.height = lineHeights s.soft_breaks s.scale := by
  obtain ⟨h1, h2, h3, h4⟩ := h
  have hlen : s.linesAll.length = s.lineCount := by
    unfold EditorState.linesAll
    rw [linesZip_length]
    unfold EditorState.lineCount at h1 h2 h3 h4 ⊢
    omega
  apply list_ext_getD 0
  · rw [List.length_map, hlen, lineHeights_length, h2, h4]
    simp
  · intro j hj
    rw [List.length_map] at hj
    have hj' : j < s.lineCount := hlen ▸ hj
    rw [getD_map_in _ _ _ _ default hj]
    unfold EditorState.linesAll
    rw [linesZip_getD _ _ _ _ _ j hj]
    rw [lineHeights_getD _ _ _ (by omega) (by omega)]
    simp [LineData.height, LineData.rowCount]

theorem linesAll_length_le (s : EditorState) : s.linesAll.length ≤ s.lineCount := by
  unfold EditorState.linesAll
  rw [linesZip_length]
  unfold EditorState.lineCount
  omega

/-- With no block inlays, the block walk from line `k` is exactly the composed
lines from `k` on. -/
theorem blocks_eq_map (s : EditorState) (hb : s.block_inlays = []) (k : Nat) :
    s.blocks k s.lineCount = (s.linesAll.drop k).map (Block.line false) := by
  unfold EditorState.blocks EditorState.lines
  rw [hb]
  simp only [List.dropWhile_nil]
  rw [List.take_of_length_le (linesAll_length_le s), blocksGo_nil]

/-- The central cache lemma: from any prefix of the from-scratch sums,
`update_summed_heights` recomputes exactly the from-scratch sums. -/
theorem updateSummedHeights_of_preInv (s : EditorState) (h : PreInv s) :
    (updateSummedHeights s).summed_heights =
      cumSums (s.linesAll.map LineData.height) 0 := by
  obtain ⟨hb, _, hp⟩ := h
  obtain ⟨t, ht⟩ := hp
  have hk : s.summed_heights.length ≤ (s.linesAll.map LineData.height).length := by
    have h1 := congrArg List.length ht
    rw [List.length_append, cumSums_length] at h1
    omega
  have hs0 : s.summed_heights =
      (cumSums (s.linesAll.map LineData.height) 0).take s.summed_heights.length :=
    List.prefix_iff_eq_take.1 ⟨t, ht⟩
  have htake : ((cumSums (s.linesAll.map LineData.height) 0).take
      s.summed_heights.length).length = s.summed_heights.length := by
    rw [List.length_take, cumSums_length]
    omega
  have hinit : (if s.summed_heights.length = 0 then (0 : ℚ)
        else s.summed_heights.getLastD 0) =
      ((cumSums (s.linesAll.map LineData.height) 0).take
        s.summed_heights.length).getLastD 0 := by
    by_cases h0 : s.summed_heights.length = 0
    · rw [if_pos h0, h0]
      simp
    · rw [if_neg h0, ← hs0]
  have hsplit := cumSums_split (s.linesAll.map LineData.height)
    s.summed_heights.length 0 hk
  have hdrop : cumSums ((s.linesAll.map LineData.height).drop s.summed_heights.length)
      (if s.summed_heights.length = 0 then (0 : ℚ) else s.summed_heights.getLastD 0) =
      (cumSums (s.linesAll.map LineData.height) 0).drop s.summed_heights.length := by
    rw [hinit]
    conv_rhs => rw [hsplit]
    rw [List.drop_append_of_le_length (by rw [htake])]
    simp [List.drop_take]
  have hteq : t = (cumSums (s.linesAll.map LineData.height) 0).drop
      s.summed_heights.length := by
    rw [← ht, List.drop_left]
  show s.summed_heights ++
      heightsGo (s.blocks s.summed_heights.length s.lineCount)
        (if s.summed_heights.length = 0 then 0 else s.summed_heights.getLastD 0) = _
  rw [blocks_eq_map s hb, heightsGo_map_line, List.map_drop, hdrop, ← hteq]
  exact ht

theorem setGetD_ne {α : Type} (d : α) (l : List α) (i j : Nat) (a : α) (h : i ≠ j) :
    (l.set i a).getD j d = l.getD j d := by
  simp [List.getD, List.getElem?_set_ne h]

theorem setGetD_in {α : Type} (d : α) (l : List α) (i : Nat) (a : α) (h : i < l.length) :
    (l.set i a).getD i d = a := by
  simp [List.getD, List.getElem?_set_self, h]

/-- Heights below `i` are insensitive to array replacements that keep lengths,
the break counts below `i` and the scales below `i`. -/
theorem linesZip_map_height_take_eq
    (ts : List (List Char)) (as as' : List (List (Nat × InlineInlay)))
    (bs bs' : List (List Nat)) (cs cs' : List Nat) (ds ds' : List ℚ) (i : Nat)
    (hal : as'.length = as.length) (hbl : bs'.length = bs.length)
    (hcl : cs'.length = cs.length) (hdl : ds'.length = ds.length)
    (hb : ∀ j, j < i → (bs'.getD j []).length = (bs.getD j []).length)
    (hd : ∀ j, j < i → ds'.getD j 1 = ds.getD j 1) :
    ((linesZip ts as' bs' cs' ds').map LineData.height).take i =
      ((linesZip ts as bs cs ds).map LineData.height).take i := by
  have hlz : (linesZip ts as' bs' cs' ds').length = (linesZip ts as bs cs ds).length := by
    rw [linesZip_length, linesZip_length, hal, hbl, hcl, hdl]
  apply list_ext_getD 0
  · rw [List.length_take, List.length_take, List.length_map, List.length_map, hlz]
  · intro j hj
    rw [List.length_take, List.length_map] at hj
    have hji : j < i := by omega
    have hjz' : j < (linesZip ts as' bs' cs' ds').length := by omega
    have hjz : j < (linesZip ts as bs cs ds).length := by omega
    rw [getD_take_lt _ _ _ _ hji, getD_take_lt _ _ _ _ hji]
    rw [getD_map_in _ _ _ _ default hjz', getD_map_in _ _ _ _ default hjz]
    rw [linesZip_getD _ _ _ _ _ _ hjz', linesZip_getD _ _ _ _ _ _ hjz]
    simp only [LineData.height, LineData.rowCount]
    rw [hb j hji, hd j hji]

/-- Full-height version: with agreement everywhere the maps are equal. -/
theorem linesZip_map_height_eq
    (ts : List (List Char)) (as as' : List (List (Nat × InlineInlay)))
    (bs bs' : List (List Nat)) (cs cs' : List Nat) (ds ds' : List ℚ)
    (hal : as'.length = as.length) (hbl : bs'.length = bs.length)
    (hcl : cs'.length = cs.length) (hdl : ds'.length = ds.length)
    (hb : ∀ j, (bs'.getD j []).length = (bs.getD j []).length)
    (hd : ∀ j, ds'.getD j 1 = ds.getD j 1) :
    (linesZip ts as' bs' cs' ds').map LineData.height =
      (linesZip ts as bs cs ds).map LineData.height := by
  have hlz : (linesZip ts as' bs' cs' ds').length = (linesZip ts as bs cs ds).length := by
    rw [linesZip_length, linesZip_length, hal, hbl, hcl, hdl]
  have h := linesZip_map_height_take_eq ts as as' bs bs' cs cs' ds ds'
    (linesZip ts as bs cs ds).length hal hbl hcl hdl
    (fun j _ => hb j) (fun j _ => hd j)
  rw [List.take_of_length_le (by rw [List.length_map, hlz]),
    List.take_of_length_le (by rw [List.length_map])] at h
  exact h

/-- One `wrap_lines` loop iteration preserves the pre-update invariant. -/
theorem wrapLinesStep_preInv (maxCol tab : Nat) (s : EditorState) (i : Nat)
    (h : PreInv s) : PreInv (wrapLinesStep maxCol tab s i) := by
  obtain ⟨hb, hs, hp⟩ := h
  simp only [wrapLinesStep]
  by_cases hc : (wrapLine maxCol tab (s.text.getD i []) (s.inline_inlays.getD i [])).length ≠
      (s.soft_breaks.getD i []).length
  · rw [if_pos hc]
    refine ⟨hb, hs, ?_⟩
    have hagree := linesZip_map_height_take_eq s.text s.inline_inlays s.inline_inlays
      s.soft_breaks (s.soft_breaks.set i (wrapLine maxCol tab (s.text.getD i [])
        (s.inline_inlays.getD i []))) s.fold_column_index s.fold_column_index
      s.scale s.scale i rfl (List.length_set _ _ _) rfl rfl
      (fun j hj => by rw [setGetD_ne _ _ _ _ _ (by omega)]) (fun j hj => rfl)
    exact cumSums_prefix_trunc _ _ _ i hagree.symm hp
  · rw [if_neg hc]
    refine ⟨hb, hs, ?_⟩
    have heq : ((linesZip s.text s.inline_inlays
        (s.soft_breaks.set i (wrapLine maxCol tab (s.text.getD i [])
          (s.inline_inlays.getD i []))) s.fold_column_index s.scale).map
            LineData.height) =
        (s.linesAll.map LineData.height) := by
      apply linesZip_map_height_eq s.text s.inline_inlays s.inline_inlays
        s.soft_breaks _ s.fold_column_index s.fold_column_index s.scale s.scale
        rfl (List.length_set _ _ _) rfl rfl ?_ (fun j => rfl)
      intro j
      by_cases hij : i = j
      · subst hij
        by_cases hin : i < s.soft_breaks.length
        · rw [setGetD_in _ _ _ _ hin]
          exact not_not.mp hc
        · rw [List.set_eq_of_length_le (by omega)]
      · rw [setGetD_ne _ _ _ _ _ hij]
    exact heq.symm ▸ hp

theorem getD_scale_nonneg (l : List ℚ) (j : Nat) (h : ∀ q ∈ l, 0 ≤ q) :
    0 ≤ l.getD j 0 := by
  by_cases hj : j < l.length
  · have e : l.getD j 0 = l[j] := by simp [List.getD, List.getElem?_eq_getElem hj]
    rw [e]
    exact h _ (List.getElem_mem hj)
  · have e : l.getD j 0 = 0 := by
      simp [List.getD, List.getElem?_eq_none (show l.length ≤ j by omega)]
    rw [e]

theorem wrapLinesStep_fields (maxCol tab : Nat) (s : EditorState) (i : Nat) :
    (wrapLinesStep maxCol tab s i).text = s.text ∧
    (wrapLinesStep maxCol tab s i).inline_inlays = s.inline_inlays ∧
    (wrapLinesStep maxCol tab s i).soft_breaks.length = s.soft_breaks.length ∧
    (wrapLinesStep maxCol tab s i).fold_column_index = s.fold_column_index ∧
    (wrapLinesStep maxCol tab s i).scale = s.scale ∧
    (wrapLinesStep maxCol tab s i).block_inlays = s.block_inlays := by
  simp only [wrapLinesStep]
  split <;> simp [List.length_set]

theorem foldl_wrapLinesStep_preInv (maxCol tab : Nat) :
    ∀ (l : List Nat) (s : EditorState), PreInv s →
      PreInv (l.foldl (wrapLinesStep maxCol tab) s)
  | [], _, h => h
  | i :: l, s, h =>
      foldl_wrapLinesStep_preInv maxCol tab l _ (wrapLinesStep_preInv maxCol tab s i h)

theorem foldl_wrapLinesStep_fields (maxCol tab : Nat) :
    ∀ (l : List Nat) (s : EditorState),
      ((l.foldl (wrapLinesStep maxCol tab) s).text = s.text ∧
        (l.foldl (wrapLinesStep maxCol tab) s).inline_inlays = s.inline_inlays ∧
        (l.foldl (wrapLinesStep maxCol tab) s).soft_breaks.length =
          s.soft_breaks.length ∧
        (l.foldl (wrapLinesStep maxCol tab) s).fold_column_index =
          s.fold_column_index ∧
        (l.foldl (wrapLinesStep maxCol tab) s).scale = s.scale ∧
        (l.foldl (wrapLinesStep maxCol tab) s).block_inlays = s.block_inlays)
  | [], _ => ⟨rfl, rfl, rfl, rfl, rfl, rfl⟩
  | i :: l, s => by
      have h1 := wrapLinesStep_fields maxCol tab s i
      have h2 := foldl_wrapLinesStep_fields maxCol tab l (wrapLinesStep maxCol tab s i)
      exact ⟨h2.1.trans h1.1, h2.2.1.trans h1.2.1, h2.2.2.1.trans h1.2.2.1,
        h2.2.2.2.1.trans h1.2.2.2.1, h2.2.2.2.2.1.trans h1.2.2.2.2.1,
        h2.2.2.2.2.2.trans h1.2.2.2.2.2⟩

theorem foldAnimStep_preInv (p : EditorState × List Nat) (l : Nat)
    (h : PreInv p.1) : PreInv (foldAnimStep p l).1 := by
  obtain ⟨hb, hs, hp⟩ := h
  simp only [foldAnimStep]
  refine ⟨hb, ?_, ?_⟩
  · intro q hq
    rcases List.mem_or_eq_of_mem_set hq with hq | hq
    · exact hs q hq
    · rw [hq]
      by_cases hsnap : p.1.scale.getD l 0 * (9 / 10 : ℚ) < 1 / 1000
      · rw [if_pos hsnap]
      · rw [if_neg hsnap]
        exact mul_nonneg (getD_scale_nonneg _ _ hs) (by norm_num)
  · have hagree := linesZip_map_height_take_eq p.1.text p.1.inline_inlays
      p.1.inline_inlays p.1.soft_breaks p.1.soft_breaks p.1.fold_column_index
      p.1.fold_column_index p.1.scale
      (p.1.scale.set l (if p.1.scale.getD l 0 * (9 / 10 : ℚ) < 1 / 1000 then 0
        else p.1.scale.getD l 0 * (9 / 10 : ℚ)))
      l rfl rfl rfl (List.length_set _ _ _) (fun j hj => rfl)
      (fun j hj => by rw [setGetD_ne _ _ _ _ _ (by omega)])
    exact cumSums_prefix_trunc _ _ _ l hagree.symm hp

theorem unfoldAnimStep_preInv (p : EditorState × List Nat) (l : Nat)
    (h : PreInv p.1) : PreInv (unfoldAnimStep p l).1 := by
  obtain ⟨hb, hs, hp⟩ := h
  simp only [unfoldAnimStep]
  refine ⟨hb, ?_, ?_⟩
  · intro q hq
    rcases List.mem_or_eq_of_mem_set hq with hq | hq
    · exact hs q hq
    · rw [hq]
      by_cases hsnap : 1 - (9 / 10 : ℚ) * (1 - p.1.scale.getD l 0) > 1 - 1 / 1000
      · rw [if_pos hsnap]
        norm_num
      · rw [if_neg hsnap]
        have h0 : 0 ≤ p.1.scale.getD l 0 := getD_scale_nonneg _ _ hs
        linarith
  · have hagree := linesZip_map_height_take_eq p.1.text p.1.inline_inlays
      p.1.inline_inlays p.1.soft_breaks p.1.soft_breaks p.1.fold_column_index
      p.1.fold_column_index p.1.scale
      (p.1.scale.set l (if 1 - (9 / 10 : ℚ) * (1 - p.1.scale.getD l 0) > 1 - 1 / 1000
        then 1 else 1 - (9 / 10 : ℚ) * (1 - p.1.scale.getD l 0)))
      l rfl rfl rfl (List.length_set _ _ _) (fun j hj => rfl)
      (fun j hj => by rw [setGetD_ne _ _ _ _ _ (by omega)])
    exact cumSums_prefix_trunc _ _ _ l hagree.symm hp

theorem foldAnimStep_fields (p : EditorState × List Nat) (l : Nat) :
    (foldAnimStep p l).1.text = p.1.text ∧
    (foldAnimStep p l).1.inline_inlays = p.1.inline_inlays ∧
    (foldAnimStep p l).1.soft_breaks = p.1.soft_breaks ∧
    (foldAnimStep p l).1.fold_column_index = p.1.fold_column_index ∧
    (foldAnimStep p l).1.scale.length = p.1.scale.length ∧
    (foldAnimStep p l).1.block_inlays = p.1.block_inlays :=
  ⟨rfl, rfl, rfl, rfl, List.length_set _ _ _, rfl⟩

theorem unfoldAnimStep_fields (p : EditorState × List Nat) (l : Nat) :
    (unfoldAnimStep p l).1.text = p.1.text ∧
    (unfoldAnimStep p l).1.inline_inlays = p.1.inline_inlays ∧
    (unfoldAnimStep p l).1.soft_breaks = p.1.soft_breaks ∧
    (unfoldAnimStep p l).1.fold_column_index = p.1.fold_column_index ∧
    (unfoldAnimStep p l).1.scale.length = p.1.scale.length ∧
    (unfoldAnimStep p l).1.block_inlays = p.1.block_inlays :=
  ⟨rfl, rfl, rfl, rfl, List.length_set _ _ _, rfl⟩

theorem foldl_foldAnimStep_preInv :
    ∀ (ls : List Nat) (p : EditorState × List Nat), PreInv p.1 →
      PreInv (ls.foldl foldAnimStep p).1
  | [], _, h => h
  | l :: ls, p, h => foldl_foldAnimStep_preInv ls _ (foldAnimStep_preInv p l h)

theorem foldl_unfoldAnimStep_preInv :
    ∀ (ls : List Nat) (p : EditorState × List Nat), PreInv p.1 →
      PreInv (ls.foldl unfoldAnimStep p).1
  | [], _, h => h
  | l :: ls, p, h => foldl_unfoldAnimStep_preInv ls _ (unfoldAnimStep_preInv p l h)

theorem foldl_foldAnimStep_fields :
    ∀ (ls : List Nat) (p : EditorState × List Nat),
      ((ls.foldl foldAnimStep p).1.text = p.1.text ∧
        (ls.foldl foldAnimStep p).1.inline_inlays = p.1.inline_inlays ∧
        (ls.foldl foldAnimStep p).1.soft_breaks = p.1.soft_breaks ∧
        (ls.foldl foldAnimStep p).1.fold_column_index = p.1.fold_column_index ∧
        (ls.foldl foldAnimStep p).1.scale.length = p.1.scale.length ∧
        (ls.foldl foldAnimStep p).1.block_inlays = p.1.block_inlays)
  | [], _ => ⟨rfl, rfl, rfl, rfl, rfl, rfl⟩
  | l :: ls, p => by
      have h1 := foldAnimStep_fields p l
      have h2 := foldl_foldAnimStep_fields ls (foldAnimStep p l)
      exact ⟨h2.1.trans h1.1, h2.2.1.trans h1.2.1, h2.2.2.1.trans h1.2.2.1,
        h2.2.2.2.1.trans h1.2.2.2.1, h2.2.2.2.2.1.trans h1.2.2.2.2.1,
        h2.2.2.2.2.2.trans h1.2.2.2.2.2⟩

theorem foldl_unfoldAnimStep_fields :
    ∀ (ls : List Nat) (p : EditorState × List Nat),
      ((ls.foldl unfoldAnimStep p).1.text = p.1.text ∧
        (ls.foldl unfoldAnimStep p).1.inline_inlays = p.1.inline_inlays ∧
        (ls.foldl unfoldAnimStep p).1.soft_breaks = p.1.soft_breaks ∧
        (ls.foldl unfoldAnimStep p).1.fold_column_index = p.1.fold_column_index ∧
        (ls.foldl unfoldAnimStep p).1.scale.length = p.1.scale.length ∧
        (ls.foldl unfoldAnimStep p).1.block_inlays = p.1.block_inlays)
  | [], _ => ⟨rfl, rfl, rfl, rfl, rfl, rfl⟩
  | l :: ls, p => by
      have h1 := unfoldAnimStep_fields p l
      have h2 := foldl_unfoldAnimStep_fields ls (unfoldAnimStep p l)
      exact ⟨h2.1.trans h1.1, h2.2.1.trans h1.2.1, h2.2.2.1.trans h1.2.2.1,
        h2.2.2.2.1.trans h1.2.2.2.1, h2.2.2.2.2.1.trans h1.2.2.2.2.1,
        h2.2.2.2.2.2.trans h1.2.2.2.2.2⟩

/-- The mid-repair invariant: during `update_after_modify_text` the text has
already been swapped while the per-line arrays are being repaired, so the
cache-prefix property is stated against the text-independent line heights. -/
def EditInv (n : Nat) (q : EditorState × Position) : Prop :=
  q.1.block_inlays = [] ∧ ArraysLen q.1 n ∧ ScaleNonNeg q.1 ∧
    List.IsPrefix q.1.summed_heights (cumSums (lineHeights q.1.soft_breaks q.1.scale) 0)

theorem lineHeights_take_eq (bs bs' : List (List Nat)) (ds ds' : List ℚ) (i : Nat)
    (h1 : i ≤ bs.length) (h2 : i ≤ ds.length) (h3 : i ≤ bs'.length) (h4 : i ≤ ds'.length)
    (hb : ∀ j, j < i → (bs'.getD j []).length = (bs.getD j []).length)
    (hd : ∀ j, j < i → ds'.getD j 1 = ds.getD j 1) :
    (lineHeights bs' ds').take i = (lineHeights bs ds).take i := by
  apply list_ext_getD 0
  · rw [List.length_take, List.length_take, lineHeights_length, lineHeights_length]
    omega
  · intro j hj
    rw [List.length_take, lineHeights_length] at hj
    have hji : j < i := by omega
    rw [getD_take_lt _ _ _ _ hji, getD_take_lt _ _ _ _ hji]
    rw [lineHeights_getD _ _ _ (by omega) (by omega),
      lineHeights_getD _ _ _ (by omega) (by omega)]
    rw [hb j hji, hd j hji]

theorem repairStep_retain_editInv (q : EditorState × Position) (len : Size) (n : Nat)
    (h : EditInv n q) : EditInv n (repairStep q (.retain len)) := h

theorem repairStep_delete_editInv (q : EditorState × Position) (len : Size) (n : Nat)
    (h : EditInv n q) (hbd : q.2.line_index + 1 + len.line_count ≤ n) :
    EditInv (n - len.line_count) (repairStep q (.delete len)) := by
  obtain ⟨hbk, ⟨h1, h2, h3, h4⟩, hs, hp⟩ := h
  refine ⟨hbk, ⟨?_, ?_, ?_, ?_⟩, ?_, ?_⟩
  · show (q.1.inline_inlays.take _ ++ q.1.inline_inlays.drop _).length = _
    rw [eraseSeg_length _ _ _ (by omega) (by omega)]
    omega
  · show (q.1.soft_breaks.take _ ++ q.1.soft_breaks.drop _).length = _
    rw [eraseSeg_length _ _ _ (by omega) (by omega)]
    omega
  · show (q.1.fold_column_index.take _ ++ q.1.fold_column_index.drop _).length = _
    rw [eraseSeg_length _ _ _ (by omega) (by omega)]
    omega
  · show (q.1.scale.take _ ++ q.1.scale.drop _).length = _
    rw [eraseSeg_length _ _ _ (by omega) (by omega)]
    omega
  · intro x hx
    rcases List.mem_append.1 hx with hx | hx
    · exact hs x (List.take_subset _ _ hx)
    · exact hs x (List.drop_subset _ _ hx)
  · have hagree := lineHeights_take_eq q.1.soft_breaks
      (q.1.soft_breaks.take (q.2.line_index + 1) ++
        q.1.soft_breaks.drop (q.2.line_index + 1 + len.line_count))
      q.1.scale
      (q.1.scale.take (q.2.line_index + 1) ++
        q.1.scale.drop (q.2.line_index + 1 + len.line_count))
      (q.2.line_index + 1) (by omega) (by omega)
      (by rw [eraseSeg_length _ _ _ (by omega) (by omega)]; omega)
      (by rw [eraseSeg_length _ _ _ (by omega) (by omega)]; omega)
      (fun j hj => by rw [eraseSeg_getD_lt _ _ _ _ _ hj (by omega)])
      (fun j hj => by rw [eraseSeg_getD_lt _ _ _ _ _ hj (by omega)])
    exact cumSums_prefix_trunc _ _ _ (q.2.line_index + 1) hagree.symm hp

theorem repairStep_insert_editInv (q : EditorState × Position) (len : Size) (n : Nat)
    (h : EditInv n q) (hbd : q.2.line_index + 1 ≤ n) :
    EditInv (n + len.line_count) (repairStep q (.insert len)) := by
  obtain ⟨hbk, ⟨h1, h2, h3, h4⟩, hs, hp⟩ := h
  refine ⟨hbk, ⟨?_, ?_, ?_, ?_⟩, ?_, ?_⟩
  · show (q.1.inline_inlays.take _ ++ List.replicate _ _ ++
      q.1.inline_inlays.drop _).length = _
    rw [splice_length _ _ _ (by omega), List.length_replicate]
    omega
  · show (q.1.soft_breaks.take _ ++ List.replicate _ _ ++
      q.1.soft_breaks.drop _).length = _
    rw [splice_length _ _ _ (by omega), List.length_replicate]
    omega
  · show (q.1.fold_column_index.take _ ++ List.replicate _ _ ++
      q.1.fold_column_index.drop _).length = _
    rw [splice_length _ _ _ (by omega), List.length_replicate]
    omega
  · show (q.1.scale.take _ ++ List.replicate _ _ ++ q.1.scale.drop _).length = _
    rw [splice_length _ _ _ (by omega), List.length_replicate]
    omega
  · intro x hx
    rcases List.mem_append.1 hx with hx | hx
    · rcases List.mem_append.1 hx with hx | hx
      · exact hs x (List.take_subset _ _ hx)
      · rw [List.eq_of_mem_replicate hx]
        norm_num
    · exact hs x (List.drop_subset _ _ hx)
  · have hagree := lineHeights_take_eq q.1.soft_breaks
      (q.1.soft_breaks.take (q.2.line_index + 1) ++
        List.replicate len.line_count [] ++
        q.1.soft_breaks.drop (q.2.line_index + 1))
      q.1.scale
      (q.1.scale.take (q.2.line_index + 1) ++ List.replicate len.line_count 1 ++
        q.1.scale.drop (q.2.line_index + 1))
      q.2.line_index (by omega) (by omega)
      (by rw [splice_length _ _ _ (by omega), List.length_replicate]; omega)
      (by rw [splice_length _ _ _ (by omega), List.length_replicate]; omega)
      (fun j hj => by rw [splice_getD_lt _ _ _ _ _ (by omega) (by omega)])
      (fun j hj => by rw [splice_getD_lt _ _ _ _ _ (by omega) (by omega)])
    exact cumSums_prefix_trunc _ _ _ q.2.line_index hagree.symm hp

theorem repairFold_editInv :
    ∀ (diff : List DiffOp) (q : EditorState × Position) (n : Nat),
      EditInv n q → ValidDiff diff n q.2 →
      EditInv (diffFinalLen diff n) (diff.foldl repairStep q)
  | [], _, _, h, _ => h
  | .retain len :: rest, q, n, h, hv =>
      repairFold_editInv rest _ n (repairStep_retain_editInv q len n h) hv
  | .delete len :: rest, q, n, h, hv =>
      repairFold_editInv rest _ (n - len.line_count)
        (repairStep_delete_editInv q len n h hv.1) hv.2
  | .insert len :: rest, q, n, h, hv =>
      repairFold_editInv rest _ (n + len.line_count)
        (repairStep_insert_editInv q len n h hv.1) hv.2

theorem repairFold_text :
    ∀ (diff : List DiffOp) (q : EditorState × Position),
      (diff.foldl repairStep q).1.text = q.1.text
  | [], _ => rfl
  | op :: rest, q => by
      rw [List.foldl_cons, repairFold_text rest]
      cases op <;> rfl

/-- A valid edit restores the full height-cache invariant. -/
theorem edit_heightInv (s : EditorState) (tx : List (List Char)) (diff : List DiffOp)
    (h : HeightInv s) (hv1 : ValidDiff diff s.lineCount Position.origin)
    (hv2 : tx.length = diffFinalLen diff s.lineCount) :
    HeightInv (updateAfterModifyText diff { s with text := tx }) := by
  obtain ⟨hb, hal, hs, hsum⟩ := h
  have h0 : EditInv s.lineCount ({ s with text := tx }, Position.origin) := by
    refine ⟨hb, hal, hs, ?_⟩
    show List.IsPrefix s.summed_heights
      (cumSums (lineHeights s.soft_breaks s.scale) 0)
    rw [← linesAll_map_height s hal, ← hsum]
  have hfold := repairFold_editInv diff ({ s with text := tx }, Position.origin)
    s.lineCount h0 hv1
  obtain ⟨hb', hal', hs', hp'⟩ := hfold
  have htx : (diff.foldl repairStep ({ s with text := tx }, Position.origin)).1.text =
      tx := repairFold_text diff _
  have hcount : (diff.foldl repairStep
      ({ s with text := tx }, Position.origin)).1.lineCount =
      diffFinalLen diff s.lineCount := by
    show (diff.foldl repairStep ({ s with text := tx }, Position.origin)).1.text.length =
      diffFinalLen diff s.lineCount
    rw [htx, hv2]
  have hal'' : ArraysLen (diff.foldl repairStep
      ({ s with text := tx }, Position.origin)).1
      (diff.foldl repairStep ({ s with text := tx }, Position.origin)).1.lineCount := by
    rw [hcount]
    exact hal'
  have hpre : PreInv (diff.foldl repairStep ({ s with text := tx }, Position.origin)).1 := by
    refine ⟨hb', hs', ?_⟩
    rw [linesAll_map_height _ hal'']
    exact hp'
  have hmain := updateSummedHeights_of_preInv _ hpre
  exact ⟨hb', hal'', hs', hmain⟩

theorem wrapLines_heightInv (maxCol tab : Nat) (s : EditorState) (h : HeightInv s) :
    HeightInv (wrapLines maxCol tab s) := by
  obtain ⟨hb, hal, hs, hsum⟩ := h
  have hpre0 : PreInv s := ⟨hb, hs, by rw [hsum]⟩
  have hpre := foldl_wrapLinesStep_preInv maxCol tab (List.range s.lineCount) s hpre0
  obtain ⟨hb', hs', hp'⟩ := hpre
  have hf := foldl_wrapLinesStep_fields maxCol tab (List.range s.lineCount) s
  obtain ⟨ht, hi, hsb, hfc, hsc, _⟩ := hf
  have hal' : ArraysLen ((List.range s.lineCount).foldl (wrapLinesStep maxCol tab) s)
      ((List.range s.lineCount).foldl (wrapLinesStep maxCol tab) s).lineCount := by
    obtain ⟨g1, g2, g3, g4⟩ := hal
    refine ⟨?_, ?_, ?_, ?_⟩
    · show ((List.range s.lineCount).foldl (wrapLinesStep maxCol tab)
        s).inline_inlays.length = ((List.range s.lineCount).foldl
          (wrapLinesStep maxCol tab) s).text.length
      rw [hi, ht]
      exact g1
    · show ((List.range s.lineCount).foldl (wrapLinesStep maxCol tab)
        s).soft_breaks.length = ((List.range s.lineCount).foldl
          (wrapLinesStep maxCol tab) s).text.length
      rw [hsb, ht]
      exact g2
    · show ((List.range s.lineCount).foldl (wrapLinesStep maxCol tab)
        s).fold_column_index.length = ((List.range s.lineCount).foldl
          (wrapLinesStep maxCol tab) s).text.length
      rw [hfc, ht]
      exact g3
    · show ((List.range s.lineCount).foldl (wrapLinesStep maxCol tab)
        s).scale.length = ((List.range s.lineCount).foldl
          (wrapLinesStep maxCol tab) s).text.length
      rw [hsc, ht]
      exact g4
  have hmain := updateSummedHeights_of_preInv _ ⟨hb', hs', hp'⟩
  exact ⟨hb', hal', hs', hmain⟩

/-- The per-line arrays (and the text) survive a non-trivial animation tick
unchanged up to the scale values. -/
theorem tick_fields (s : EditorState) :
    (tickR2 s).1.text = s.text ∧
    (tickR2 s).1.inline_inlays = s.inline_inlays ∧
    (tickR2 s).1.soft_breaks = s.soft_breaks ∧
    (tickR2 s).1.fold_column_index = s.fold_column_index ∧
    (tickR2 s).1.scale.length = s.scale.length ∧
    (tickR2 s).1.block_inlays = s.block_inlays := by
  have hf1 := foldl_foldAnimStep_fields s.folding_lines
    ({ s with folding_lines := [] }, ([] : List Nat))
  have hf2 := foldl_unfoldAnimStep_fields (tickS1 s).unfolding_lines
    ({ tickS1 s with unfolding_lines := [] }, ([] : List Nat))
  obtain ⟨a1, b1, c1, d1, e1, f1⟩ := hf1
  obtain ⟨a2, b2, c2, d2, e2, f2⟩ := hf2
  exact ⟨a2.trans a1, b2.trans b1, c2.trans c1, d2.trans d1, e2.trans e1, f2.trans f1⟩

theorem updateFoldAnimations_heightInv (s : EditorState) (h : HeightInv s) :
    HeightInv (updateFoldAnimations s).2 := by
  obtain ⟨hb, hal, hs, hsum⟩ := h
  by_cases hc : s.folding_lines = [] ∧ s.unfolding_lines = []
  · have e : (updateFoldAnimations s).2 = s := by
      rw [updateFoldAnimations, if_pos hc]
    rw [e]
    exact ⟨hb, hal, hs, hsum⟩
  · have e2 : (updateFoldAnimations s).2 =
        updateSummedHeights { (tickR2 s).1 with unfolding_lines := (tickR2 s).2 } := by
      rw [tick_eq s hc]
    rw [e2]
    have hp0 : PreInv s := ⟨hb, hs, by rw [hsum]⟩
    have hp2 : PreInv (tickR2 s).1 :=
      foldl_unfoldAnimStep_preInv _ _ (foldl_foldAnimStep_preInv _ _ hp0)
    have hpX : PreInv { (tickR2 s).1 with unfolding_lines := (tickR2 s).2 } := hp2
    have hmain := updateSummedHeights_of_preInv _ hpX
    obtain ⟨ht, hi, hbrk, hfc, hsc, _⟩ := tick_fields s
    obtain ⟨g1, g2, g3, g4⟩ := hal
    refine ⟨hpX.1, ⟨?_, ?_, ?_, ?_⟩, hpX.2.1, hmain⟩
    · show (tickR2 s).1.inline_inlays.length = (tickR2 s).1.text.length
      rw [hi, ht]
      exact g1
    · show (tickR2 s).1.soft_breaks.length = (tickR2 s).1.text.length
      rw [hbrk, ht]
      exact g2
    · show (tickR2 s).1.fold_column_index.length = (tickR2 s).1.text.length
      rw [hfc, ht]
      exact g3
    · show (tickR2 s).1.scale.length = (tickR2 s).1.text.length
      rw [hsc, ht]
      exact g4

theorem foldLine_heightInv (i : Nat) (s : EditorState) (h : HeightInv s) :
    HeightInv (foldLine i s) := h

theorem unfoldLine_heightInv (i : Nat) (s : EditorState) (h : HeightInv s) :
    HeightInv (unfoldLine i s) := h

theorem openSession_heightInv (text : List (List Char)) :
    HeightInv (openSession text) := by
  have hpre : PreInv
      { text := text
        inline_inlays := (List.range text.length).map fun i =>
          if i % 2 = 0 then [(20, .text ("uvw xyz").data), (40, .text ("uvw xyz").data),
            (60, .text ("uvw xyz").data), (80, .text ("uvw xyz").data)] else []
        soft_breaks := List.replicate text.length []
        fold_column_index := List.replicate text.length 0
        scale := List.replicate text.length 1
        block_inlays := []
        summed_heights := []
        selections := [default]
        last_added_selection_index := 0
        folding_lines := []
        unfolding_lines := [] } := by
    refine ⟨rfl, ?_, ?_⟩
    · intro q hq
      rw [List.eq_of_mem_replicate hq]
      norm_num
    · exact List.nil_prefix
  have hmain := updateSummedHeights_of_preInv _ hpre
  refine ⟨rfl, ⟨?_, ?_, ?_, ?_⟩, hpre.2.1, hmain⟩
  · show ((List.range text.length).map _).length = text.length
    rw [List.length_map, List.length_range]
  · show (List.replicate text.length ([] : List Nat)).length = text.length
    rw [List.length_replicate]
  · show (List.replicate text.length (0 : Nat)).length = text.length
    rw [List.length_replicate]
  · show (List.replicate text.length (1 : ℚ)).length = text.length
    rw [List.length_replicate]

theorem execOp_heightInv (s : EditorState) (op : EditorOp)
    (h : HeightInv s) (hv : OpValid s op) : HeightInv (execOp s op) := by
  cases op with
  | wrap m t => exact wrapLines_heightInv m t s h
  | foldStep => exact updateFoldAnimations_heightInv s h
  | fold i => exact foldLine_heightInv i s h
  | unfold i => exact unfoldLine_heightInv i s h
  | edit tx diff => exact edit_heightInv s tx diff h hv.1 hv.2

theorem execOps_heightInv :
    ∀ (ops : List EditorOp) (s : EditorState), HeightInv s → ValidSeq ops s →
      HeightInv (execOps s ops)
  | [], _, h, _ => h
  | op :: ops, s, h, hv =>
      execOps_heightInv ops _ (execOp_heightInv s op h hv.1) hv.2

theorem linesAll_length_of_arraysLen (s : EditorState) (h : ArraysLen s s.lineCount) :
    s.linesAll.length = s.lineCount := by
  obtain ⟨h1, h2, h3, h4⟩ := h
  unfold EditorState.linesAll
  rw [linesZip_length]
  unfold EditorState.lineCount at h1 h2 h3 h4 ⊢
  omega

theorem cumSums_ge : ∀ (hs : List ℚ) (acc : ℚ), (∀ q ∈ hs, 0 ≤ q) →
    ∀ x ∈ cumSums hs acc, acc ≤ x
  | [], _, _, x, hx => absurd hx (List.not_mem_nil x)
  | q :: hs, acc, h, x, hx => by
      have h0 : 0 ≤ q := h q (List.mem_cons_self _ _)
      rcases List.mem_cons.1 hx with hx | hx
      · rw [hx]
        linarith
      · have := cumSums_ge hs (acc + q)
          (fun r hr => h r (List.mem_cons_of_mem _ hr)) x hx
        linarith

theorem cumSums_chain : ∀ (hs : List ℚ) (acc : ℚ), (∀ q ∈ hs, 0 ≤ q) →
    List.Chain' (· ≤ ·) (cumSums hs acc)
  | [], _, _ => List.chain'_nil
  | q :: hs, acc, h => by
      have hrest : ∀ r ∈ hs, (0 : ℚ) ≤ r := fun r hr => h r (List.mem_cons_of_mem _ hr)
      show List.Chain' (· ≤ ·) ((acc + q) :: cumSums hs (acc + q))
      apply List.chain'_cons'.2
      refine ⟨?_, cumSums_chain hs (acc + q) hrest⟩
      intro y hy
      exact cumSums_ge hs (acc + q) hrest y (List.mem_of_mem_head? hy)

theorem lineHeights_nonneg (bs : List (List Nat)) (ds : List ℚ)
    (h : ∀ q ∈ ds, 0 ≤ q) : ∀ q ∈ lineHeights bs ds, 0 ≤ q := by
  intro q hq
  unfold lineHeights at hq
  obtain ⟨p, hp, rfl⟩ := List.mem_map.1 hq
  have hd : p.2 ∈ ds := (List.of_mem_zip hp).2
  have hcast : (0 : ℚ) ≤ (p.1.length : ℚ) + 1 := by positivity
  exact mul_nonneg (h _ hd) hcast

/-- A state satisfying the height-cache invariant has a fully populated,
non-decreasing cache. -/
theorem heightInv_populated (s : EditorState) (h : HeightInv s) :
    s.summed_heights.length = s.lineCount ∧
      List.Chain' (· ≤ ·) s.summed_heights := by
  obtain ⟨hb, hal, hs, hsum⟩ := h
  constructor
  · rw [hsum, cumSums_length, List.length_map, linesAll_length_of_arraysLen s hal]
  · rw [hsum, linesAll_map_height s hal]
    exact cumSums_chain _ 0 (lineHeights_nonneg _ _ hs)

/-- The two-line session driving the C2 witness. -/
def demoTextC2 : List (List Char) := [("ab").data, ("cd").data]

/-- A mixed valid operation sequence for the C2 witness: wrap, fold, one
animation tick, a two-line-to-one-line edit, an unfold request and a final
tick. -/
def demoOpsC2 : List EditorOp :=
  [.wrap 10 4, .fold 0, .foldStep,
    .edit [("axy").data] [.retain ⟨0, 1⟩, .delete ⟨1, 3⟩],
    .unfold 0, .foldStep]

/-- C2: height-cache soundness. Starting from `open_session`, after any valid
sequence of `wrap_lines` calls, text edits (each modelled as `modify_text`'s
text replacement followed by the composite-diff structural repair of
`update_after_modify_text`), fold/unfold requests and `update_fold_animations`
steps, the incrementally maintained `summed_heights` equals the from-scratch
recomputation of the cumulative block heights over the session's current
lines and block inlays. -/
theorem height_cache_soundness (text : List (List Char)) (ops : List EditorOp)
    (hv : ValidSeq ops (openSession text)) :
    (execOps (openSession text) ops).summed_heights =
      summedFromScratch (execOps (openSession text) ops) := by
  have h := execOps_heightInv ops (openSession text) (openSession_heightInv text) hv
  obtain ⟨hb, hal, hs, hsum⟩ := h
  rw [hsum]
  unfold summedFromScratch
  rw [blocks_eq_map _ hb, List.drop_zero, heightsGo_map_line]

/-- Witness for C2: the mixed six-operation sequence on a concrete two-line
session is valid, and the claim's equation holds for it. -/
theorem height_cache_soundness_witness :
    ValidSeq demoOpsC2 (openSession demoTextC2) ∧
    (execOps (openSession demoTextC2) demoOpsC2).summed_heights =
      summedFromScratch (execOps (openSession demoTextC2) demoOpsC2) :=
  ⟨by set_option maxRecDepth 100000 in with_unfolding_all decide,
    height_cache_soundness demoTextC2 demoOpsC2
      (by set_option maxRecDepth 100000 in with_unfolding_all decide)⟩

/-- The three-line session driving the C10 witness. -/
def demoTextC10 : List (List Char) := [("fn main").data, ("x").data, ("y").data]

/-- A valid operation sequence for the C10 witness. -/
def demoOpsC10 : List EditorOp :=
  [.fold 2, .foldStep, .foldStep, .wrap 4 2,
    .edit [("fn main").data, ("yz").data] [.retain ⟨0, 7⟩, .delete ⟨1, 2⟩]]

/-- C10: immediately after `open_session`, and at the end of every valid
sequence of the layout-touching operations (`wrap_lines`, text edits,
fold/unfold requests, `update_fold_animations` steps), `summed_heights` is
fully populated: its length equals the document's line count (one entry per
non-inlay document line) and its entries are non-decreasing. -/
theorem summed_heights_populated (text : List (List Char)) (ops : List EditorOp)
    (hv : ValidSeq ops (openSession text)) :
    ((openSession text).summed_heights.length = (openSession text).lineCount ∧
      List.Chain' (· ≤ ·) (openSession text).summed_heights) ∧
    ((execOps (openSession text) ops).summed_heights.length =
        (execOps (openSession text) ops).lineCount ∧
      List.Chain' (· ≤ ·) (execOps (openSession text) ops).summed_heights) :=
  ⟨heightInv_populated _ (openSession_heightInv text),
    heightInv_populated _
      (execOps_heightInv ops (openSession text) (openSession_heightInv text) hv)⟩

/-- Witness for C10: a concrete valid five-operation sequence on a three-line
session, with the populated-cache conclusion instantiated. -/
theorem summed_heights_populated_witness :
    ValidSeq demoOpsC10 (openSession demoTextC10) ∧
    (((openSession demoTextC10).summed_heights.length =
        (openSession demoTextC10).lineCount ∧
      List.Chain' (· ≤ ·) (openSession demoTextC10).summed_heights) ∧
     ((execOps (openSession demoTextC10) demoOpsC10).summed_heights.length =
        (execOps (openSession demoTextC10) demoOpsC10).lineCount ∧
      List.Chain' (· ≤ ·)
        (execOps (openSession demoTextC10) demoOpsC10).summed_heights)) :=
  ⟨by set_option maxRecDepth 100000 in with_unfolding_all decide,
    summed_heights_populated demoTextC10 demoOpsC10
      (by set_option maxRecDepth 100000 in with_unfolding_all decide)⟩

end CodeEditor
